import Mathlib

/-!
# Verification of `power_system_simulation.graph_processing`

A shallow embedding of `src/power_system_simulation/graph_processing.py`
(the `GraphProcessor` class, an extension of an undirected `networkx` graph,
together with the module-level helpers `filter_disabled_edges` and
`set_edge_enabled_status`), and proofs about the embedded definitions.

Modelling conventions:
* A `networkx` undirected graph is a pair of an insertion-ordered adjacency
  structure (Python dicts preserve insertion order) and the
  `source_vertex_id` attribute that `GraphProcessor.__init__` sets.
  `adj` is an association list `node ↦ list of (neighbour, edge attributes)`;
  `add_edge u v` stores the same attribute record under both endpoints,
  exactly as `networkx` shares one attribute dict between `adj[u][v]` and
  `adj[v][u]`.
* Python exceptions become the `PyErr` inductive; fallible operations return
  `Except PyErr α`.  The exception message strings are carried so that
  distinct raises of the same exception class stay distinguishable.
* Python `is`/`==` tests on the always-present `"id"`/`"enabled"` attributes
  become ordinary equality on the `EdgeData` fields.
* Sets of vertices (`visited`, `active_nodes`, `seen`) are duplicate-free
  lists; `set.remove` becomes `List.erase` (they agree on duplicate-free
  lists, and absence of the removed element never occurs on the executed
  paths).
-/

set_option maxRecDepth 20000

/-- The attribute dict `{"id": ..., "enabled": ...}` stored on every edge. -/
structure EdgeData where
  eid : Int
  enabled : Bool
deriving DecidableEq, Repr

/-- A `GraphProcessor`: insertion-ordered adjacency plus `source_vertex_id`. -/
structure PGraph where
  adj : List (Int × List (Int × EdgeData))
  source : Int
deriving DecidableEq, Repr

/-- `G.nodes`: the vertices in insertion order. -/
def nodesList (g : PGraph) : List Int := g.adj.map Prod.fst

/-- `G.adj[u]`: adjacency of `u` (empty when `u` is not a vertex). -/
def adjOf (g : PGraph) (u : Int) : List (Int × EdgeData) :=
  match g.adj.find? (fun e => decide (e.1 = u)) with
  | some e => e.2
  | none => []

/-- Overwrite-or-append the neighbour entry `v ↦ d` in one adjacency list
(`networkx` keeps the position of an existing key, Python-dict style). -/
def setNbr (l : List (Int × EdgeData)) (v : Int) (d : EdgeData) :
    List (Int × EdgeData) :=
  match l with
  | [] => [(v, d)]
  | (w, dw) :: t => if w = v then (v, d) :: t else (w, dw) :: setNbr t v d

/-- Update the adjacency list of node `u` with `v ↦ d` (no-op if `u` absent). -/
def updateAdjEntry (adj : List (Int × List (Int × EdgeData))) (u v : Int)
    (d : EdgeData) : List (Int × List (Int × EdgeData)) :=
  match adj with
  | [] => []
  | (w, l) :: t =>
      if w = u then (w, setNbr l v d) :: t else (w, l) :: updateAdjEntry t u v d

/-- `G.add_node u` (no-op when present, appends otherwise). -/
def addNode (g : PGraph) (u : Int) : PGraph :=
  if u ∈ nodesList g then g else ⟨g.adj ++ [(u, [])], g.source⟩

/-- `G.add_edge u v id=… enabled=…`: ensure both endpoints exist, then store
the shared attribute record under both `adj[u][v]` and `adj[v][u]`. -/
def addEdge (g : PGraph) (u v : Int) (d : EdgeData) : PGraph :=
  let g1 := addNode (addNode g u) v
  ⟨updateAdjEntry (updateAdjEntry g1.adj u v d) v u d, g1.source⟩

/-- One node's contribution to `G.edges(data=True)`: its neighbours that have
not been fully reported yet. -/
def edgesFrom (nbrs : List (Int × EdgeData)) (n : Int) (seen : List Int) :
    List (Int × Int × EdgeData) :=
  nbrs.filterMap (fun p => if p.1 ∈ seen then none else some (n, p.1, p.2))

/-- The `seen`-guarded edge reporting loop of `networkx`'s `G.edges`. -/
def edgesAux : List (Int × List (Int × EdgeData)) → List Int →
    List (Int × Int × EdgeData)
  | [], _ => []
  | (n, nbrs) :: t, seen => edgesFrom nbrs n seen ++ edgesAux t (n :: seen)

/-- `G.edges(data=True)`: every stored edge reported exactly once, at the
first endpoint in node insertion order, neighbours in adjacency order. -/
def edgesData (g : PGraph) : List (Int × Int × EdgeData) := edgesAux g.adj []

/-- `GraphProcessor._has_duplicate_ids`: some value occurs at two distinct
positions (the Python double loop). -/
def hasDuplicateIds : List Int → Bool
  | [] => false
  | x :: t => decide (x ∈ t) || hasDuplicateIds t

/-- `GraphProcessor._has_same_length`. -/
def hasSameLength {α β : Type} (l1 : List α) (l2 : List β) : Bool :=
  decide (l1.length = l2.length)

/-- `GraphProcessor._has_vertex_ids`: every endpoint of every pair occurs in
`vertex_ids`. -/
def hasVertexIds (vs : List Int) (pairs : List (Int × Int)) : Bool :=
  pairs.all fun p => decide (p.1 ∈ vs) && decide (p.2 ∈ vs)

/-- `GraphProcessor._has_id`: membership of a single id. -/
def hasId (ids : List Int) (x : Int) : Bool := decide (x ∈ ids)

/-- The exception classes of `graph_processing.py` (plus the two `networkx`
errors that its code paths can surface), with their message strings. -/
inductive PyErr where
  | idNotFound (msg : String)
  | inputLengthDoesNotMatch (msg : String)
  | idNotUnique (msg : String)
  | graphNotFullyConnected (msg : String)
  | graphCycle (msg : String)
  | edgeAlreadyDisabled (msg : String)
  | networkXError (msg : String)
deriving DecidableEq, Repr

/-- The graph-building part of `GraphProcessor.__init__` (runs after the
input checks): `add_nodes_from(vertex_ids)` then one `add_edge` per entry of
`edge_vertex_id_pairs`, then `self.source_vertex_id = source_vertex_id`. -/
def buildGraph (vertex_ids edge_ids : List Int) (pairs : List (Int × Int))
    (edge_enabled : List Bool) (source_vertex_id : Int) : PGraph :=
  let g0 := vertex_ids.foldl addNode ⟨[], source_vertex_id⟩
  (pairs.zip (edge_ids.zip edge_enabled)).foldl
    (fun g pe => addEdge g pe.1.1 pe.1.2 ⟨pe.2.1, pe.2.2⟩) g0

/-- Checks 1-5 of `GraphProcessor.__init__` followed by graph construction;
this is exactly the behaviour of the constructor when
`recursive_object=True` (checks 6 and 7 are skipped then). -/
def initCore (vertex_ids edge_ids : List Int) (pairs : List (Int × Int))
    (edge_enabled : List Bool) (source_vertex_id : Int) :
    Except PyErr PGraph :=
  if hasDuplicateIds vertex_ids then
    .error (.idNotUnique "Input list vertex_ids contains a duplicate id.")
  else if hasDuplicateIds edge_ids then
    .error (.idNotUnique "Input list edge_ids contains a duplicate id.")
  else if !hasSameLength edge_ids pairs then
    .error (.inputLengthDoesNotMatch
      "The length of edge_ids does not match the length of edge_vertex_id_pairs.")
  else if !hasVertexIds vertex_ids pairs then
    .error (.idNotFound "edge_vertex_id_pairs contains a non-existent vertex ID.")
  else if !hasSameLength edge_ids edge_enabled then
    .error (.inputLengthDoesNotMatch
      "The length of edge_ids does not match the length of edge_enabled.")
  else if !hasId vertex_ids source_vertex_id then
    .error (.idNotFound "The provided source_vertex_id is not in the vertex_ids list.")
  else
    .ok (buildGraph vertex_ids edge_ids pairs edge_enabled source_vertex_id)

/-- `filter_disabled_edges`: rebuild a `GraphProcessor` from the enabled
edges only (`recursive_object=True`, so only checks 1-5 run). -/
def filterDisabledEdges (g : PGraph) : Except PyErr PGraph :=
  let en := (edgesData g).filter (fun e => decide (e.2.2.enabled = true))
  initCore (nodesList g) (en.map (fun e => e.2.2.eid))
    (en.map (fun e => (e.1, e.2.1))) (en.map (fun _ => true)) g.source

/-- Keep the elements of a neighbour list not yet visited, de-duplicating
sequentially exactly as Python's `visited.add` inside the loop does. -/
def takeNew (visited : List Int) : List Int → List Int
  | [] => []
  | w :: t => if w ∈ visited then takeNew visited t
              else w :: takeNew (visited ++ [w]) t

/-- Fuel that dominates the BFS work on `g` (see `reachAux_spec` below). -/
def bfsFuel (g : PGraph) : Nat :=
  3 + 2 * ((g.adj.map (fun e => e.2.length)).sum) + 2 * g.adj.length

/-- Worklist BFS: pop a node, enqueue its unvisited neighbours, mark them
visited.  This computes the vertex set `networkx`'s `_plain_bfs`
(`node_connected_component`) computes. -/
def reachAux (g : PGraph) : Nat → List Int → List Int → List Int
  | 0, _, visited => visited
  | _ + 1, [], visited => visited
  | n + 1, u :: qs, visited =>
      let ws := takeNew visited ((adjOf g u).map Prod.fst)
      reachAux g n (qs ++ ws) (visited ++ ws)

/-- The connected component of `v` in `g`, as a duplicate-free list. -/
def reachList (g : PGraph) (v : Int) : List Int :=
  reachAux g (bfsFuel g) [v] [v]

/-- `nx.is_connected`: raises on the null graph, otherwise compares the size
of the component of the first node with the number of nodes. -/
def isConnectedE (g : PGraph) : Except PyErr Bool :=
  match nodesList g with
  | [] => .error (.networkXError "Connectivity is undefined for the null graph.")
  | v :: _ => .ok (decide ((reachList g v).length = (nodesList g).length))

/-- The `frozenset(edge[:2])` key `nx.edge_dfs` uses to recognise an
undirected edge independently of orientation. -/
def normPair (u v : Int) : Int × Int := if u ≤ v then (u, v) else (v, u)

/-- The state of `nx.edge_dfs`: DFS stack, per-visited-node remaining
iterator (keys = `visited_nodes`, insertion at the front), the set of
traversed undirected edges, and the yielded edges (most recent first). -/
structure DfsSt where
  stack : List Int
  iters : List (Int × List (Int × EdgeData))
  vEdges : List (Int × Int)
  outRev : List (Int × Int)
deriving DecidableEq, Repr

/-- Remaining iterator of a visited node. -/
def itersLookup (it : List (Int × List (Int × EdgeData))) (u : Int) :
    Option (List (Int × EdgeData)) :=
  match it.find? (fun e => decide (e.1 = u)) with
  | some e => some e.2
  | none => none

/-- Replace the iterator of `u` (first occurrence). -/
def itersSet (it : List (Int × List (Int × EdgeData))) (u : Int)
    (l : List (Int × EdgeData)) : List (Int × List (Int × EdgeData)) :=
  match it with
  | [] => []
  | (w, lw) :: t => if w = u then (w, l) :: t else (w, lw) :: itersSet t u l

/-- `if current_node not in visited_nodes: edges[current_node] = edges_from
(current_node); visited_nodes.add(current_node)`. -/
def ensureVisited (g : PGraph) (st : DfsSt) (cur : Int) : DfsSt :=
  match itersLookup st.iters cur with
  | some _ => st
  | none => { st with iters := (cur, adjOf g cur) :: st.iters }

/-- One iteration of the `while stack` loop of `nx.edge_dfs`: visit the top
node if new, then take one step of its edge iterator — `StopIteration` pops
the stack, an already-traversed edge is skipped, a new edge is recorded,
yielded, and its head pushed. -/
def dfsStep (g : PGraph) (st : DfsSt) : Option DfsSt :=
  match st.stack with
  | [] => none
  | cur :: rest =>
    let st1 := ensureVisited g st cur
    match itersLookup st1.iters cur with
    | none => some { st1 with stack := rest }
    | some [] => some { st1 with stack := rest }
    | some ((nbr, _d) :: tl) =>
      let st2 := { st1 with iters := itersSet st1.iters cur tl }
      if normPair cur nbr ∈ st2.vEdges then some st2
      else some { st2 with
        vEdges := normPair cur nbr :: st2.vEdges,
        outRev := (cur, nbr) :: st2.outRev,
        stack := nbr :: st2.stack }

/-- Run the machine for `n` steps (it stops by itself on an empty stack). -/
def dfsGo (g : PGraph) : Nat → DfsSt → DfsSt
  | 0, st => st
  | n + 1, st =>
      match dfsStep g st with
      | none => st
      | some st' => dfsGo g n st'

/-- Fuel that dominates the whole `edge_dfs` traversal (see
`dfsGo_stack_nil` below). -/
def dfsFuel (g : PGraph) : Nat :=
  1 + 2 * (((nodesList g).map (fun v => (adjOf g v).length)).sum)

/-- The completed `nx.edge_dfs(G, source)` run. -/
def dfsRun (g : PGraph) : DfsSt :=
  dfsGo g (dfsFuel g) ⟨[g.source], [], [], []⟩

/-- The list of edges `nx.edge_dfs(G, source)` yields, in order. -/
def edgeDfsList (g : PGraph) : List (Int × Int) := (dfsRun g).outRev.reverse

/-- The consumer state inside `GraphProcessor.is_cyclic`: the active-path
edge list `edges` (most recent first, matching Python's append/pop at the
end), `active_nodes`, `seen`, the previous head, and whether a cycle was
found (after which Python breaks out of the loop). -/
structure CycSt where
  pathRev : List (Int × Int)
  active : List Int
  seen : List Int
  prevHead : Option Int
  found : Bool
deriving DecidableEq, Repr

/-- The backtracking `while True` pop loop of `is_cyclic`: pop edges and
remove their heads from the active set until the edge list ends with an edge
whose head equals `tl`; an exhausted list resets to `edges = []`,
`active_nodes = {tail}`. -/
def backFix : List (Int × Int) → List Int → Int → List (Int × Int) × List Int
  | [], _active, tl => ([], [tl])
  | e :: rest, active, tl =>
      let a := active.erase e.2
      match rest with
      | [] => ([], [tl])
      | e2 :: _ => if e2.2 = tl then (rest, a) else backFix rest a tl

/-- The body of `for edge in nx.edge_dfs(...)` in `is_cyclic` (a no-op once
a cycle has been found, since Python then broke out of the loop). -/
def consStep (st : CycSt) (e : Int × Int) : CycSt :=
  if st.found then st else
  let st1 :=
    match st.prevHead with
    | some ph =>
        if e.1 ≠ ph then
          let pa := backFix st.pathRev st.active e.1
          { st with pathRev := pa.1, active := pa.2 }
        else st
    | none => st
  let st2 := { st1 with pathRev := e :: st1.pathRev }
  if e.2 ∈ st2.active then { st2 with found := true }
  else { st2 with seen := e.2 :: st2.seen, active := e.2 :: st2.active,
                  prevHead := some e.2 }

/-- Consume a full `edge_dfs` yield list starting from `start_node = s`
(`seen = {s}`, `active_nodes = {s}`, `previous_head = None`). -/
def consRun (s : Int) (l : List (Int × Int)) : CycSt :=
  l.foldl consStep ⟨[], [s], [s], none, false⟩

/-- `GraphProcessor.is_cyclic` with the default orientation: iterate
`nbunch_iter(source_vertex_id)` (just the source; `networkx` raises when the
source is not a node), run the cycle hunt, return whether a cycle was
collected. -/
def isCyclicE (g : PGraph) : Except PyErr Bool :=
  if g.source ∈ nodesList g then
    .ok (consRun g.source (edgeDfsList g)).found
  else .error (.networkXError "nbunch is not a node or a sequence of nodes.")

/-- `GraphProcessor.__init__`: checks 1-5 and construction (`initCore`),
then — unless `recursive_object` — check 6 (connectivity of the
enabled-edge subgraph) and check 7 (acyclicity of the enabled-edge
subgraph). -/
def gpInit (vertex_ids edge_ids : List Int) (pairs : List (Int × Int))
    (edge_enabled : List Bool) (source_vertex_id : Int)
    (recursive_object : Bool) : Except PyErr PGraph :=
  match initCore vertex_ids edge_ids pairs edge_enabled source_vertex_id with
  | .error err => .error err
  | .ok g =>
    if recursive_object then .ok g
    else
      match filterDisabledEdges g with
      | .error err => .error err
      | .ok f =>
        match isConnectedE f with
        | .error err => .error err
        | .ok c =>
          if !c then
            .error (.graphNotFullyConnected "The graph is not fully connected.")
          else
            match filterDisabledEdges g with
            | .error err => .error err
            | .ok f2 =>
              match isCyclicE f2 with
              | .error err => .error err
              | .ok cy =>
                if cy then .error (.graphCycle "The graph contains a cycle.")
                else .ok g

/-- The BFS loop of `nx.bfs_edges`/`nx.bfs_tree`: FIFO queue, neighbours in
adjacency order, each node claimed by its first discoverer; accumulates the
directed tree edges `(parent, child)` in discovery order. -/
def bfsTreeAux (g : PGraph) : Nat → List Int → List Int → List (Int × Int) →
    List (Int × Int)
  | 0, _, _, acc => acc
  | _ + 1, [], _, acc => acc
  | n + 1, u :: qs, visited, acc =>
      let ws := takeNew visited ((adjOf g u).map Prod.fst)
      bfsTreeAux g n (qs ++ ws) (visited ++ ws) (acc ++ ws.map (fun w => (u, w)))

/-- `nx.bfs_tree(g, s)`, as its list of directed edges. -/
def bfsTree (g : PGraph) (s : Int) : List (Int × Int) :=
  bfsTreeAux g (bfsFuel g) [s] [s] []

/-- Reachability closure along the directed edges of a BFS tree. -/
def dirReach (t : List (Int × Int)) : Nat → List Int → List Int → List Int
  | 0, _, visited => visited
  | _ + 1, [], visited => visited
  | n + 1, u :: qs, visited =>
      let ws := takeNew visited ((t.filter (fun e => decide (e.1 = u))).map Prod.snd)
      dirReach t n (qs ++ ws) (visited ++ ws)

/-- `nx.descendants(tree, v)`: every node reachable from `v`, except `v`. -/
def descendantsOf (t : List (Int × Int)) (v : Int) : List Int :=
  (dirReach t (t.length + 2) [v] [v]).filter (fun w => decide (w ≠ v))

/-- The first stored edge carrying the given id, in `G.edges` order (the
lookup loop shared by `find_downstream_vertices` / `set_edge_enabled_status`). -/
def findEdge (g : PGraph) (eid : Int) : Option (Int × Int × EdgeData) :=
  (edgesData g).find? (fun e => decide (e.2.2.eid = eid))

/-- `GraphProcessor.find_downstream_vertices`. -/
def findDownstreamVertices (g : PGraph) (edge_id : Int) :
    Except PyErr (List Int) :=
  if !hasId ((edgesData g).map (fun e => e.2.2.eid)) edge_id then
    .error (.idNotFound "The provided ID is not in the edge_ids list.")
  else
    match findEdge g edge_id with
    | none =>
        -- unreachable: the membership test above guarantees a first match
        .error (.idNotFound "The provided ID is not in the edge_ids list.")
    | some (u, v, d) =>
      if !d.enabled then .ok []
      else
        match filterDisabledEdges g with
        | .error err => .error err
        | .ok f =>
          if g.source ∈ nodesList f then
            if (u, v) ∈ bfsTree f g.source then
              .ok ((descendantsOf (bfsTree f g.source) v ++ [v]).insertionSort
                (fun a b => a ≤ b))
            else if (v, u) ∈ bfsTree f g.source then
              .ok ((descendantsOf (bfsTree f g.source) u ++ [u]).insertionSort
                (fun a b => a ≤ b))
            else .ok []
          else
            -- `nx.bfs_tree` raises NetworkXError for an unknown source;
            -- caught, returning [].  (Unreachable here: with the source
            -- missing, `filter_disabled_edges` already raised above.)
            .ok []

/-- `set_edge_enabled_status`: scan `G.edges(data=True)` for the id; re-
disabling a disabled edge raises, otherwise the shared attribute record of
the matched edge is overwritten (both adjacency directions at once). -/
def setEdgeAux (g : PGraph) (edge_id : Int) (status : Bool) :
    List (Int × Int × EdgeData) → Except PyErr PGraph
  | [] => .error (.idNotFound
      ("The chosen edge " ++ toString edge_id ++ " is not in the ID list."))
  | (u, v, d) :: t =>
      if d.eid = edge_id then
        if d.enabled = status ∧ status = false then
          .error (.edgeAlreadyDisabled
            ("The chosen edge " ++ toString edge_id ++ " is already disabled."))
        else
          .ok ⟨updateAdjEntry (updateAdjEntry g.adj u v ⟨d.eid, status⟩)
                 v u ⟨d.eid, status⟩, g.source⟩
      else setEdgeAux g edge_id status t

/-- Module-level `set_edge_enabled_status(graph, edge_id, status)`. -/
def setEdgeEnabledStatus (g : PGraph) (edge_id : Int) (status : Bool) :
    Except PyErr PGraph :=
  setEdgeAux g edge_id status (edgesData g)

/-- `GraphProcessor.is_edge_enabled`. -/
def isEdgeEnabled (g : PGraph) (edge_id : Int) : Except PyErr Bool :=
  match (edgesData g).filter (fun e => decide (e.2.2.eid = edge_id)) with
  | [] => .error (.idNotFound
      ("The chosen edge " ++ toString edge_id ++ " is not in the ID list."))
  | e :: _ => .ok (if e.2.2.enabled = false then false else true)

/-- The candidate loop of `find_alternative_edges`: for every edge disabled
in the original graph, enable it on a fresh copy of the already-cut graph
`gc` and keep its id when the filtered result is connected. -/
def faeLoop (gc : PGraph) : List (Int × Int × EdgeData) →
    Except PyErr (List Int)
  | [] => .ok []
  | (_u, _v, d) :: t =>
      if d.enabled = false then
        match setEdgeEnabledStatus gc d.eid true with
        | .error err => .error err
        | .ok tg =>
          match filterDisabledEdges tg with
          | .error err => .error err
          | .ok f =>
            match isConnectedE f with
            | .error err => .error err
            | .ok c =>
              match faeLoop gc t with
              | .error err => .error err
              | .ok rest => if c then .ok (d.eid :: rest) else .ok rest
      else faeLoop gc t

/-- `GraphProcessor.find_alternative_edges`: deep-copy the graph, disable
the chosen edge on the copy (raising if unknown or already disabled), then
run the candidate loop over the original graph's edges. -/
def findAlternativeEdges (g : PGraph) (disabled_edge_id : Int) :
    Except PyErr (List Int) :=
  match setEdgeEnabledStatus g disabled_edge_id false with
  | .error err => .error err
  | .ok gc => faeLoop gc (edgesData g)

/-- State-passing rendering of `find_downstream_vertices`: the method reads
`self` but never assigns to it, so the post-state is the receiver itself. -/
def findDownstreamVerticesS (g : PGraph) (edge_id : Int) :
    Except PyErr (List Int) × PGraph :=
  (findDownstreamVertices g edge_id, g)

/-- State-passing rendering of `find_alternative_edges`: the mutations of
the algorithm hit `copy.deepcopy` copies (`self_copy`, `test_graph`) only,
never the receiver. -/
def findAlternativeEdgesS (g : PGraph) (disabled_edge_id : Int) :
    Except PyErr (List Int) × PGraph :=
  (findAlternativeEdges g disabled_edge_id, g)

/-- State-passing rendering of `filter_disabled_edges`: it builds a fresh
`GraphProcessor` and leaves its argument untouched. -/
def filterDisabledEdgesS (g : PGraph) : Except PyErr PGraph × PGraph :=
  (filterDisabledEdges g, g)

/-! ## Ground-truth notions (independent of the algorithms above) -/

/-- `u` and `v` are joined by a stored edge. -/
def EdgeRel (g : PGraph) (u v : Int) : Prop := v ∈ (adjOf g u).map Prod.fst

/-- `u` and `v` are joined by a stored edge whose enabled flag is true. -/
def EdgeRelEn (g : PGraph) (u v : Int) : Prop :=
  ∃ d : EdgeData, (v, d) ∈ adjOf g u ∧ d.enabled = true

/-- Reachability along stored edges. -/
inductive Reach (g : PGraph) : Int → Int → Prop
  | refl (u : Int) : Reach g u u
  | step {u v w : Int} : Reach g u v → EdgeRel g v w → Reach g u w

/-- Reachability along enabled stored edges. -/
inductive ReachEn (g : PGraph) : Int → Int → Prop
  | refl (u : Int) : ReachEn g u u
  | step {u v w : Int} : ReachEn g u v → EdgeRelEn g v w → ReachEn g u w

/-- Number of vertices in the connected component of `s`. -/
def compVertCount (g : PGraph) (s : Int) : Nat := (reachList g s).length

/-- Number of stored edges inside the connected component of `s` (an edge
belongs to the component exactly when its reported tail does). -/
def compEdgeCount (g : PGraph) (s : Int) : Nat :=
  ((edgesData g).filter (fun e => decide (e.1 ∈ reachList g s))).length

/-- The component of `s` contains a cycle: it carries at least as many
distinct edges as vertices (a connected acyclic graph always has exactly
one edge fewer than vertices). -/
def CompCyclic (g : PGraph) (s : Int) : Prop :=
  compVertCount g s ≤ compEdgeCount g s

/-- Some component of the graph contains a cycle. -/
def CyclicSomewhere (g : PGraph) : Prop :=
  ∃ v, v ∈ nodesList g ∧ CompCyclic g v

/-- Every vertex of `g` can reach every other along stored edges. -/
def MathConnected (g : PGraph) : Prop :=
  ∀ u, u ∈ nodesList g → ∀ v, v ∈ nodesList g → Reach g u v

/-- Every vertex of `g` can reach every other along enabled stored edges. -/
def EnConnected (g : PGraph) : Prop :=
  ∀ u, u ∈ nodesList g → ∀ v, v ∈ nodesList g → ReachEn g u v

/-- No component of the graph contains a cycle. -/
def AcyclicAll (g : PGraph) : Prop :=
  ∀ v, v ∈ nodesList g → compEdgeCount g v < compVertCount g v

/-- Well-formedness of the adjacency structure, as `networkx` maintains it:
distinct node keys, duplicate-free neighbour lists, neighbour keys that are
nodes, and the symmetric sharing of each edge's attribute record. -/
def WFgraph (g : PGraph) : Prop :=
  (nodesList g).Nodup ∧
  (∀ e ∈ g.adj, (e.2.map Prod.fst).Nodup) ∧
  (∀ e ∈ g.adj, ∀ p ∈ e.2, p.1 ∈ nodesList g) ∧
  (∀ e ∈ g.adj, ∀ p ∈ e.2, (e.1, p.2) ∈ adjOf g p.1)

instance (g : PGraph) : Decidable (WFgraph g) := by
  unfold WFgraph; infer_instance

/-- A graph state as the constructor produces it and the toggling operation
preserves it: well-formed, with pairwise-distinct edge ids. -/
def GoodGraph (g : PGraph) : Prop :=
  WFgraph g ∧ ((edgesData g).map (fun e => e.2.2.eid)).Nodup

instance (g : PGraph) : Decidable (GoodGraph g) := by
  unfold GoodGraph; infer_instance

/-- The number of stored edges whose enabled flag is true. -/
def enabledEdgeCount (g : PGraph) : Nat :=
  ((edgesData g).filter (fun e => decide (e.2.2.enabled = true))).length

/-- The scenario graph of §8 of the spec: vertices {0,2,4,6,10}, edges
(0,2)#1, (0,4)#3, (0,6)#5 enabled, (2,4)#7, (4,6)#8 disabled, (2,10)#9
enabled, source 0 (the value `gpInit` produces for that input). -/
def gC6 : PGraph :=
  ⟨[(0, [(2, ⟨1, true⟩), (4, ⟨3, true⟩), (6, ⟨5, true⟩)]),
    (2, [(0, ⟨1, true⟩), (4, ⟨7, false⟩), (10, ⟨9, true⟩)]),
    (4, [(0, ⟨3, true⟩), (2, ⟨7, false⟩), (6, ⟨8, false⟩)]),
    (6, [(0, ⟨5, true⟩), (4, ⟨8, false⟩)]),
    (10, [(2, ⟨9, true⟩)])], 0⟩

/-- A two-vertex graph holding the single collapsed edge produced by
supplying the pair (0,1) twice (the value `gpInit` produces for the C10
construction input below). -/
def gC10 : PGraph :=
  ⟨[(0, [(1, ⟨2, true⟩)]), (1, [(0, ⟨2, true⟩)])], 0⟩

/-- A graph whose source vertex 0 is isolated while vertices 1,2,3 carry an
enabled triangle (the value `gpInit` with `recursive_object=True` produces
for the C2 construction input below). -/
def gTriangleOff : PGraph :=
  ⟨[(0, []),
    (1, [(2, ⟨10, true⟩), (3, ⟨12, true⟩)]),
    (2, [(1, ⟨10, true⟩), (3, ⟨11, true⟩)]),
    (3, [(2, ⟨11, true⟩), (1, ⟨12, true⟩)])], 0⟩

/-- Every value occurring as a neighbour key anywhere in the adjacency
structure (the pool BFS discoveries beyond the start are drawn from). -/
def allCand (g : PGraph) : List Int :=
  g.adj.flatMap (fun e => e.2.map Prod.fst)

/-- Well-formedness phrased through `adjOf` (equivalent to `WFgraph` — see
`WFgraph_iff_WFadj` — and more convenient for preservation proofs). -/
def WFadj (g : PGraph) : Prop :=
  (nodesList g).Nodup ∧
  (∀ u : Int, ((adjOf g u).map Prod.fst).Nodup) ∧
  (∀ u x : Int, x ∈ (adjOf g u).map Prod.fst → x ∈ nodesList g) ∧
  (∀ u v : Int, ∀ d : EdgeData, (v, d) ∈ adjOf g u → (u, d) ∈ adjOf g v)

/-- `u` and `v` are joined by a stored edge carrying data `d`. -/
def EdgeAt (g : PGraph) (u v : Int) (d : EdgeData) : Prop :=
  (v, d) ∈ adjOf g u

/-- Some stored edge joins `a` and `b`. -/
def HasPair (g : PGraph) (a b : Int) : Prop :=
  ∃ d : EdgeData, (b, d) ∈ adjOf g a

/-- The nodes `nx.edge_dfs` has visited so far (its iterator keys). -/
def visitedKeys (st : DfsSt) : List Int := st.iters.map Prod.fst

/-- Decreasing measure of the `edge_dfs` loop: twice the adjacency mass of
unvisited nodes, plus twice the remaining iterator mass, plus the stack
height. -/
def dfsMeasure (g : PGraph) (st : DfsSt) : Nat :=
  2 * (((nodesList g).filter (fun v => decide (v ∉ visitedKeys st))).map
        (fun v => (adjOf g v).length)).sum
    + 2 * ((st.iters.map (fun p => p.2.length)).sum)
    + st.stack.length

/-- 1 when the stack top exists and is not yet visited (the only stack
position that can hold an unvisited node), else 0. -/
def unvisitedTopBonus (st : DfsSt) : Nat :=
  match st.stack with
  | [] => 0
  | c :: _ => if c ∈ visitedKeys st then 0 else 1

/-- Number of nodes that have entered the traversal: the visited ones plus
a pending unvisited stack top. -/
def dfsCount (st : DfsSt) : Nat := (visitedKeys st).length + unvisitedTopBonus st

/-- The `is_cyclic` consumer state after the yields produced so far. -/
def consOf (s : Int) (st : DfsSt) : CycSt := consRun s st.outRev.reverse

/-- Graph-side invariant of the `edge_dfs` machine started at `s`. -/
structure MachInv (g : PGraph) (s : Int) (st : DfsSt) : Prop where
  iters_pre : ∀ p ∈ st.iters, ∃ pre, adjOf g p.1 = pre ++ p.2 ∧
      ∀ q ∈ pre, normPair p.1 q.1 ∈ st.vEdges
  vEdges_eq : st.vEdges = st.outRev.map (fun q => normPair q.1 q.2)
  vEdges_nodup : st.vEdges.Nodup
  out_edges : ∀ q ∈ st.outRev, (∃ d, (q.2, d) ∈ adjOf g q.1)
      ∧ q.1 ∈ visitedKeys st
  cover : ∀ v, (v = s ∨ ∃ q ∈ st.outRev, q.2 = v) →
      v ∈ visitedKeys st ∨ v ∈ st.stack
  stack_reach : ∀ v ∈ st.stack, Reach g s v
  visited_reach : ∀ v ∈ visitedKeys st, Reach g s v
  off_stack_done : ∀ p ∈ st.iters, p.1 ∉ st.stack → p.2 = []
  visited_nodup : (visitedKeys st).Nodup
  tail_visited : ∀ v ∈ st.stack.tail, v ∈ visitedKeys st

/-- Fresh regime: the consumer has reported no cycle; its active path
mirrors the machine stack (which is a suffix of path heads over `s`). -/
structure SimFresh (s : Int) (st : DfsSt) : Prop where
  not_found : (consOf s st).found = false
  active_eq : (consOf s st).active = (consOf s st).pathRev.map Prod.snd ++ [s]
  heads_nodup : ((consOf s st).pathRev.map Prod.snd ++ [s]).Nodup
  stack_drop : ∃ k, st.stack
      = ((consOf s st).pathRev.map Prod.snd ++ [s]).drop k
  head_eq : (consOf s st).pathRev.head? = st.outRev.head?
  prev_eq : (consOf s st).prevHead = st.outRev.head?.map Prod.snd
  covered : ∀ v ∈ (consOf s st).pathRev.map Prod.snd ++ [s],
      v ∈ visitedKeys st ∨ v ∈ st.stack
  count_eq : dfsCount st = st.outRev.length + 1

/-- Found regime: the consumer has reported a cycle, and at least as many
edges as entered nodes have been yielded. -/
def SimFound (s : Int) (st : DfsSt) : Prop :=
  (consOf s st).found = true ∧ dfsCount st ≤ st.outRev.length

/-- Full invariant of the `is_cyclic` run. -/
def DfsInv (g : PGraph) (s : Int) (st : DfsSt) : Prop :=
  MachInv g s st ∧ (SimFound s st ∨ SimFresh s st)


/-! ## Theorems -/

/-- **C9**: `find_downstream_vertices`, `find_alternative_edges` and
`filter_disabled_edges` leave the graph — its vertex set, edge set, enabled
flags and source vertex — unchanged for every graph state and edge id,
whether they return a result or an error: in the state-passing rendering of
the three operations the post-state is the untouched receiver (the
contingency search mutates only its deep copies). -/
theorem c9_queries_leave_graph_unchanged (g : PGraph) (eid : Int) :
    (findDownstreamVerticesS g eid).2 = g ∧
    (findAlternativeEdgesS g eid).2 = g ∧
    (filterDisabledEdgesS g).2 = g :=
  ⟨rfl, rfl, rfl⟩

/-- **C10**: supplying two distinct edge ids with the same unordered
endpoint pair is accepted by construction, but the two entries collapse
into the single stored edge of the later entry: afterwards
`is_edge_enabled` on the earlier id (1) raises the edge-not-found error
even though id 1 was supplied in `edge_ids`, while the later id (2) is
found with the later entry's flag. -/
theorem c10_duplicate_pair_collapses :
    gpInit [0, 1] [1, 2] [(0, 1), (0, 1)] [false, true] 0 false
        = Except.ok gC10 ∧
    isEdgeEnabled gC10 1
        = Except.error (.idNotFound "The chosen edge 1 is not in the ID list.") ∧
    isEdgeEnabled gC10 2 = Except.ok true :=
  ⟨rfl, rfl, rfl⟩

/-- Accepted candidates are emitted in the iteration order of the disabled
edges of the scanned edge list. -/
theorem faeLoop_sublist (gc : PGraph) (l : List (Int × Int × EdgeData))
    (res : List Int) (h : faeLoop gc l = Except.ok res) :
    List.Sublist res
      ((l.filter (fun e => decide (e.2.2.enabled = false))).map
        (fun e => e.2.2.eid)) := by
  induction l generalizing res with
  | nil =>
      simp only [faeLoop] at h
      cases h
      exact List.Sublist.refl _
  | cons e t ih =>
      obtain ⟨u, v, d⟩ := e
      by_cases he : d.enabled = false
      · rw [faeLoop, if_pos he] at h
        split at h
        · cases h
        · split at h
          · cases h
          · split at h
            · cases h
            · split at h
              · cases h
              · rename_i rest hr
                have hrest := ih rest hr
                split at h
                · cases h
                  simp only [List.filter_cons, he, List.map_cons]
                  simp only [decide_eq_true_eq]
                  simp only [if_true]
                  exact List.Sublist.cons₂ _ hrest
                · cases h
                  simp only [List.filter_cons, he, List.map_cons]
                  simp only [decide_eq_true_eq]
                  simp only [if_true]
                  exact List.Sublist.cons _ hrest
      · rw [faeLoop, if_neg he] at h
        have hrest := ih res h
        have hb : d.enabled = true := by revert he; cases d.enabled <;> simp
        simp only [List.filter_cons, hb]
        simpa using hrest

/-- **C6**: `find_alternative_edges` returns accepted candidate ids in the
order the disabled edges are encountered in the underlying edge collection
(its successful result is always a sublist of the disabled-edge ids in
`G.edges` iteration order, hence never re-sorted by value), and on the
§8 scenario graph it returns `[7]`, `[7,8]`, `[8]` and `[]` for edges 1, 3,
5 and 9 respectively — the empty list when no candidate restores
connectivity. -/
theorem c6_alternative_edges_order_and_scenario :
    (∀ (g : PGraph) (d : Int) (res : List Int),
        findAlternativeEdges g d = Except.ok res →
        List.Sublist res
          (((edgesData g).filter (fun e => decide (e.2.2.enabled = false))).map
            (fun e => e.2.2.eid))) ∧
    gpInit [0, 2, 4, 6, 10] [1, 3, 5, 7, 8, 9]
        [(0, 2), (0, 4), (0, 6), (2, 4), (4, 6), (2, 10)]
        [true, true, true, false, false, true] 0 false = Except.ok gC6 ∧
    findAlternativeEdges gC6 1 = Except.ok [7] ∧
    findAlternativeEdges gC6 3 = Except.ok [7, 8] ∧
    findAlternativeEdges gC6 5 = Except.ok [8] ∧
    findAlternativeEdges gC6 9 = Except.ok [] := by
  refine ⟨?_, rfl, rfl, rfl, rfl, rfl⟩
  intro g d res h
  unfold findAlternativeEdges at h
  cases hset : setEdgeEnabledStatus g d false with
  | error err => rw [hset] at h; cases h
  | ok gc =>
      rw [hset] at h
      exact faeLoop_sublist gc (edgesData g) res h

/-- Witness for C6: the order statement applied to the scenario graph at
edge 3 with its concrete result `[7,8]`. -/
theorem c6_alternative_edges_order_witness :
    findAlternativeEdges gC6 3 = Except.ok [7, 8] ∧
    List.Sublist [7, 8]
      (((edgesData gC6).filter (fun e => decide (e.2.2.enabled = false))).map
        (fun e => e.2.2.eid)) :=
  ⟨rfl, c6_alternative_edges_order_and_scenario.1 gC6 3 [7, 8] rfl⟩

/-! ### The identifier validator, declaratively -/

/-- The double loop of `_has_duplicate_ids` succeeds exactly on lists that
are not duplicate-free. -/
theorem hasDuplicateIds_iff (l : List Int) :
    hasDuplicateIds l = true ↔ ¬ l.Nodup := by
  induction l with
  | nil => simp [hasDuplicateIds]
  | cons x t ih =>
      simp only [hasDuplicateIds, Bool.or_eq_true, decide_eq_true_eq,
        List.nodup_cons, ih]
      tauto

/-- `_has_vertex_ids` succeeds exactly when every endpoint of every pair is
a declared vertex id. -/
theorem hasVertexIds_iff (vs : List Int) (pairs : List (Int × Int)) :
    hasVertexIds vs pairs = true ↔ ∀ p ∈ pairs, p.1 ∈ vs ∧ p.2 ∈ vs := by
  simp [hasVertexIds, List.all_eq_true]

/-- `_has_id` is list membership. -/
theorem hasId_iff (ids : List Int) (x : Int) : hasId ids x = true ↔ x ∈ ids := by
  simp [hasId]

/-- `_has_same_length` is length equality. -/
theorem hasSameLength_iff {α β : Type} (l1 : List α) (l2 : List β) :
    hasSameLength l1 l2 = true ↔ l1.length = l2.length := by
  simp [hasSameLength]

theorem initCore_err_dupVertex {vs es : List Int} {pairs : List (Int × Int)}
    {en : List Bool} {s : Int} (h : ¬ vs.Nodup) :
    initCore vs es pairs en s
      = .error (.idNotUnique "Input list vertex_ids contains a duplicate id.") := by
  unfold initCore
  rw [if_pos ((hasDuplicateIds_iff vs).mpr h)]

theorem initCore_err_dupEdge {vs es : List Int} {pairs : List (Int × Int)}
    {en : List Bool} {s : Int} (h1 : vs.Nodup) (h2 : ¬ es.Nodup) :
    initCore vs es pairs en s
      = .error (.idNotUnique "Input list edge_ids contains a duplicate id.") := by
  unfold initCore
  rw [if_neg (fun hc => (hasDuplicateIds_iff vs).mp hc h1),
    if_pos ((hasDuplicateIds_iff es).mpr h2)]

theorem initCore_err_pairLen {vs es : List Int} {pairs : List (Int × Int)}
    {en : List Bool} {s : Int} (h1 : vs.Nodup) (h2 : es.Nodup)
    (h3 : es.length ≠ pairs.length) :
    initCore vs es pairs en s
      = .error (.inputLengthDoesNotMatch
          "The length of edge_ids does not match the length of edge_vertex_id_pairs.") := by
  unfold initCore
  rw [if_neg (fun hc => (hasDuplicateIds_iff vs).mp hc h1),
    if_neg (fun hc => (hasDuplicateIds_iff es).mp hc h2),
    if_pos (by simp [hasSameLength, h3])]

theorem initCore_err_endpoint {vs es : List Int} {pairs : List (Int × Int)}
    {en : List Bool} {s : Int} (h1 : vs.Nodup) (h2 : es.Nodup)
    (h3 : es.length = pairs.length)
    (h4 : ¬ ∀ p ∈ pairs, p.1 ∈ vs ∧ p.2 ∈ vs) :
    initCore vs es pairs en s
      = .error (.idNotFound "edge_vertex_id_pairs contains a non-existent vertex ID.") := by
  have hv : hasVertexIds vs pairs = false := by
    cases hb : hasVertexIds vs pairs
    · rfl
    · exact absurd ((hasVertexIds_iff vs pairs).mp hb) h4
  unfold initCore
  rw [if_neg (fun hc => (hasDuplicateIds_iff vs).mp hc h1),
    if_neg (fun hc => (hasDuplicateIds_iff es).mp hc h2),
    if_neg (by simp [hasSameLength, h3]),
    if_pos (by simp [hv])]

theorem initCore_err_enabledLen {vs es : List Int} {pairs : List (Int × Int)}
    {en : List Bool} {s : Int} (h1 : vs.Nodup) (h2 : es.Nodup)
    (h3 : es.length = pairs.length)
    (h4 : ∀ p ∈ pairs, p.1 ∈ vs ∧ p.2 ∈ vs)
    (h5 : es.length ≠ en.length) :
    initCore vs es pairs en s
      = .error (.inputLengthDoesNotMatch
          "The length of edge_ids does not match the length of edge_enabled.") := by
  have hv : hasVertexIds vs pairs = true := (hasVertexIds_iff vs pairs).mpr h4
  unfold initCore
  rw [if_neg (fun hc => (hasDuplicateIds_iff vs).mp hc h1),
    if_neg (fun hc => (hasDuplicateIds_iff es).mp hc h2),
    if_neg (by simp [hasSameLength, h3]),
    if_neg (by simp [hv]),
    if_pos (by simp [hasSameLength, h5])]

theorem initCore_err_source {vs es : List Int} {pairs : List (Int × Int)}
    {en : List Bool} {s : Int} (h1 : vs.Nodup) (h2 : es.Nodup)
    (h3 : es.length = pairs.length)
    (h4 : ∀ p ∈ pairs, p.1 ∈ vs ∧ p.2 ∈ vs)
    (h5 : es.length = en.length) (h6 : s ∉ vs) :
    initCore vs es pairs en s
      = .error (.idNotFound "The provided source_vertex_id is not in the vertex_ids list.") := by
  have hv : hasVertexIds vs pairs = true := (hasVertexIds_iff vs pairs).mpr h4
  unfold initCore
  rw [if_neg (fun hc => (hasDuplicateIds_iff vs).mp hc h1),
    if_neg (fun hc => (hasDuplicateIds_iff es).mp hc h2),
    if_neg (by simp [hasSameLength, h3]),
    if_neg (by simp [hv]),
    if_neg (by simp [hasSameLength, h5]),
    if_pos (by simp [hasId, h6])]

/-- When every validation check passes, construction reaches graph
building. -/
theorem initCore_ok {vs es : List Int} {pairs : List (Int × Int)}
    {en : List Bool} {s : Int} (h1 : vs.Nodup) (h2 : es.Nodup)
    (h3 : es.length = pairs.length)
    (h4 : ∀ p ∈ pairs, p.1 ∈ vs ∧ p.2 ∈ vs)
    (h5 : es.length = en.length) (h6 : s ∈ vs) :
    initCore vs es pairs en s = .ok (buildGraph vs es pairs en s) := by
  have hv : hasVertexIds vs pairs = true := (hasVertexIds_iff vs pairs).mpr h4
  unfold initCore
  rw [if_neg (fun hc => (hasDuplicateIds_iff vs).mp hc h1),
    if_neg (fun hc => (hasDuplicateIds_iff es).mp hc h2),
    if_neg (by simp [hasSameLength, h3]),
    if_neg (by simp [hv]),
    if_neg (by simp [hasSameLength, h5]),
    if_neg (by simp [hasId, h6])]

/-- **C5**: for every construction input, the error raised is the one of
the first failing check in the fixed order vertex-id uniqueness → edge-id
uniqueness → pair-length match → endpoint validity → enabled-flag-length
match → source-vertex membership; once the first six checks pass
(non-recursive construction), a failed connectivity check is reported
before the cycle check is consulted, and the cycle error is raised only
with connectivity established.  Later checks are never evaluated once an
earlier one fails: each conjunct fixes the error from the earlier checks'
outcomes alone. -/
theorem c5_first_failing_check_wins (vs es : List Int)
    (pairs : List (Int × Int)) (en : List Bool) (s : Int) (r : Bool) :
    (¬ vs.Nodup → gpInit vs es pairs en s r
        = .error (.idNotUnique "Input list vertex_ids contains a duplicate id.")) ∧
    (vs.Nodup → ¬ es.Nodup → gpInit vs es pairs en s r
        = .error (.idNotUnique "Input list edge_ids contains a duplicate id.")) ∧
    (vs.Nodup → es.Nodup → es.length ≠ pairs.length →
      gpInit vs es pairs en s r
        = .error (.inputLengthDoesNotMatch
            "The length of edge_ids does not match the length of edge_vertex_id_pairs.")) ∧
    (vs.Nodup → es.Nodup → es.length = pairs.length →
      (¬ ∀ p ∈ pairs, p.1 ∈ vs ∧ p.2 ∈ vs) →
      gpInit vs es pairs en s r
        = .error (.idNotFound "edge_vertex_id_pairs contains a non-existent vertex ID.")) ∧
    (vs.Nodup → es.Nodup → es.length = pairs.length →
      (∀ p ∈ pairs, p.1 ∈ vs ∧ p.2 ∈ vs) → es.length ≠ en.length →
      gpInit vs es pairs en s r
        = .error (.inputLengthDoesNotMatch
            "The length of edge_ids does not match the length of edge_enabled.")) ∧
    (vs.Nodup → es.Nodup → es.length = pairs.length →
      (∀ p ∈ pairs, p.1 ∈ vs ∧ p.2 ∈ vs) → es.length = en.length → s ∉ vs →
      gpInit vs es pairs en s r
        = .error (.idNotFound "The provided source_vertex_id is not in the vertex_ids list.")) ∧
    (vs.Nodup → es.Nodup → es.length = pairs.length →
      (∀ p ∈ pairs, p.1 ∈ vs ∧ p.2 ∈ vs) → es.length = en.length → s ∈ vs →
      ∀ f, filterDisabledEdges (buildGraph vs es pairs en s) = .ok f →
      isConnectedE f = .ok false →
      gpInit vs es pairs en s false
        = .error (.graphNotFullyConnected "The graph is not fully connected.")) ∧
    (vs.Nodup → es.Nodup → es.length = pairs.length →
      (∀ p ∈ pairs, p.1 ∈ vs ∧ p.2 ∈ vs) → es.length = en.length → s ∈ vs →
      ∀ f, filterDisabledEdges (buildGraph vs es pairs en s) = .ok f →
      isConnectedE f = .ok true → isCyclicE f = .ok true →
      gpInit vs es pairs en s false
        = .error (.graphCycle "The graph contains a cycle.")) := by
  refine ⟨?_, ?_, ?_, ?_, ?_, ?_, ?_, ?_⟩
  · intro h; unfold gpInit; rw [initCore_err_dupVertex h]
  · intro h1 h2; unfold gpInit; rw [initCore_err_dupEdge h1 h2]
  · intro h1 h2 h3; unfold gpInit; rw [initCore_err_pairLen h1 h2 h3]
  · intro h1 h2 h3 h4; unfold gpInit; rw [initCore_err_endpoint h1 h2 h3 h4]
  · intro h1 h2 h3 h4 h5; unfold gpInit; rw [initCore_err_enabledLen h1 h2 h3 h4 h5]
  · intro h1 h2 h3 h4 h5 h6; unfold gpInit; rw [initCore_err_source h1 h2 h3 h4 h5 h6]
  · intro h1 h2 h3 h4 h5 h6 f hf hc
    unfold gpInit
    rw [initCore_ok h1 h2 h3 h4 h5 h6]
    simp [hf, hc]
  · intro h1 h2 h3 h4 h5 h6 f hf hc hcy
    unfold gpInit
    rw [initCore_ok h1 h2 h3 h4 h5 h6]
    simp [hf, hc, hcy]

/-- Witness for C5: an input in which the vertex-id check, the edge-id
check, both length checks and the source check all fail reports the
vertex-id duplication, and an input passing checks 1-6 but failing
connectivity (while the full edge set even contains a cycle) reports the
connectivity error. -/
theorem c5_first_failing_check_wins_witness :
    (¬ ([0, 0] : List Int).Nodup ∧
      gpInit [0, 0] [1, 1] [(0, 0)] [] 5 false
        = .error (.idNotUnique "Input list vertex_ids contains a duplicate id.")) ∧
    gpInit [0, 1, 2] [4, 5, 6] [(0, 1), (1, 2), (0, 2)]
        [false, false, false] 0 false
      = .error (.graphNotFullyConnected "The graph is not fully connected.") := by
  constructor
  · constructor
    · decide
    · exact (c5_first_failing_check_wins [0, 0] [1, 1] [(0, 0)] [] 5 false).1
        (by decide)
  · exact (c5_first_failing_check_wins [0, 1, 2] [4, 5, 6]
      [(0, 1), (1, 2), (0, 2)] [false, false, false] 0 false).2.2.2.2.2.2.1
      (by decide) (by decide) (by decide) (by decide) (by decide) (by decide)
      ⟨[(0, []), (1, []), (2, [])], 0⟩ rfl rfl

/-! ### Updating a stored edge's attribute record -/

theorem setNbr_mem_self (l : List (Int × EdgeData)) (v : Int) (d : EdgeData) :
    (v, d) ∈ setNbr l v d := by
  induction l with
  | nil => simp [setNbr]
  | cons p t ih =>
      obtain ⟨w, dw⟩ := p
      by_cases h : w = v
      · simp [setNbr, h]
      · simp only [setNbr, if_neg h, List.mem_cons]
        exact Or.inr ih

theorem setNbr_mem_other {l : List (Int × EdgeData)} {v x : Int}
    {d dx : EdgeData} (hx : x ≠ v) :
    (x, dx) ∈ setNbr l v d ↔ (x, dx) ∈ l := by
  induction l with
  | nil => simp [setNbr, hx]
  | cons p t ih =>
      obtain ⟨w, dw⟩ := p
      by_cases h : w = v
      · simp [setNbr, h, List.mem_cons, Prod.mk.injEq, hx]
      · simp [setNbr, h, List.mem_cons, ih]

theorem setNbr_keys_of_mem {l : List (Int × EdgeData)} {v : Int}
    {d : EdgeData} (hv : v ∈ l.map Prod.fst) :
    (setNbr l v d).map Prod.fst = l.map Prod.fst := by
  induction l with
  | nil => simp at hv
  | cons p t ih =>
      obtain ⟨w, dw⟩ := p
      by_cases h : w = v
      · simp [setNbr, h]
      · have hv' : v ∈ t.map Prod.fst := by
          rcases (by simpa using hv) with h1 | h1
          · exact absurd h1.symm h
          · simpa using h1
        simp [setNbr, h, ih hv']

theorem updateAdjEntry_keys (adj : List (Int × List (Int × EdgeData)))
    (u v : Int) (d : EdgeData) :
    (updateAdjEntry adj u v d).map Prod.fst = adj.map Prod.fst := by
  induction adj with
  | nil => simp [updateAdjEntry]
  | cons p t ih =>
      obtain ⟨w, l⟩ := p
      by_cases h : w = u
      · simp [updateAdjEntry, h]
      · simp [updateAdjEntry, h, ih]

theorem updateAdjEntry_cons_self (x : Int) (l : List (Int × EdgeData))
    (t : List (Int × List (Int × EdgeData))) (v : Int) (d : EdgeData) :
    updateAdjEntry ((x, l) :: t) x v d = (x, setNbr l v d) :: t := by
  simp [updateAdjEntry]

theorem updateAdjEntry_cons_other {x u : Int} (l : List (Int × EdgeData))
    (t : List (Int × List (Int × EdgeData))) (v : Int) (d : EdgeData)
    (h : x ≠ u) :
    updateAdjEntry ((x, l) :: t) u v d = (x, l) :: updateAdjEntry t u v d := by
  simp [updateAdjEntry, h]

theorem adjOf_cons_self (x : Int) (l : List (Int × EdgeData))
    (t : List (Int × List (Int × EdgeData))) (s : Int) :
    adjOf ⟨(x, l) :: t, s⟩ x = l := by
  simp [adjOf]

theorem adjOf_cons_other {w x : Int} (l : List (Int × EdgeData))
    (t : List (Int × List (Int × EdgeData))) (s : Int) (h : w ≠ x) :
    adjOf ⟨(x, l) :: t, s⟩ w = adjOf ⟨t, s⟩ w := by
  have hx : ¬ x = w := fun he => h he.symm
  simp [adjOf, List.find?_cons_of_neg, hx]

theorem adjOf_source_irrel (adj : List (Int × List (Int × EdgeData)))
    (s s2 w : Int) : adjOf ⟨adj, s⟩ w = adjOf ⟨adj, s2⟩ w := rfl

theorem adjOf_update_other {adj : List (Int × List (Int × EdgeData))}
    {u w : Int} (v : Int) (d : EdgeData) (s s2 : Int) (hw : w ≠ u) :
    adjOf ⟨updateAdjEntry adj u v d, s⟩ w = adjOf ⟨adj, s2⟩ w := by
  induction adj with
  | nil => simp [updateAdjEntry, adjOf]
  | cons p t ih =>
      obtain ⟨x, l⟩ := p
      by_cases h : x = u
      · subst h
        rw [updateAdjEntry_cons_self, adjOf_cons_other _ _ _ hw,
          adjOf_cons_other _ _ _ hw]
        exact adjOf_source_irrel t s s2 w
      · rw [updateAdjEntry_cons_other _ _ _ _ h]
        by_cases hxw : w = x
        · subst hxw; rw [adjOf_cons_self, adjOf_cons_self]
        · rw [adjOf_cons_other _ _ _ hxw, adjOf_cons_other _ _ _ hxw]
          exact ih

theorem adjOf_update_self {adj : List (Int × List (Int × EdgeData))}
    {u : Int} (v : Int) (d : EdgeData) (s s2 : Int)
    (hu : u ∈ adj.map Prod.fst) :
    adjOf ⟨updateAdjEntry adj u v d, s⟩ u = setNbr (adjOf ⟨adj, s2⟩ u) v d := by
  induction adj with
  | nil => simp at hu
  | cons p t ih =>
      obtain ⟨x, l⟩ := p
      by_cases h : x = u
      · subst h
        rw [updateAdjEntry_cons_self, adjOf_cons_self, adjOf_cons_self]
      · have hu2 : u ∈ t.map Prod.fst := by
          rcases (by simpa using hu) with h1 | h1
          · exact absurd h1.symm h
          · simpa using h1
        rw [updateAdjEntry_cons_other _ _ _ _ h,
          adjOf_cons_other _ _ _ (fun he => h he.symm),
          adjOf_cons_other _ _ _ (fun he => h he.symm)]
        exact ih hu2

theorem edgesFrom_mem {nbrs : List (Int × EdgeData)} {n : Int} {seen : List Int}
    {u v : Int} {d : EdgeData} (h : (u, v, d) ∈ edgesFrom nbrs n seen) :
    u = n ∧ (v, d) ∈ nbrs := by
  unfold edgesFrom at h
  rcases List.mem_filterMap.mp h with ⟨p, hp, he⟩
  obtain ⟨pv, pd⟩ := p
  by_cases hs : pv ∈ seen
  · rw [if_pos hs] at he; cases he
  · rw [if_neg hs] at he
    simp only [Option.some.injEq, Prod.mk.injEq] at he
    obtain ⟨h1, h2, h3⟩ := he
    subst h1; subst h2; subst h3
    exact ⟨rfl, hp⟩

theorem edgesAux_mem {adj : List (Int × List (Int × EdgeData))}
    {seen : List Int} {u v : Int} {d : EdgeData}
    (h : (u, v, d) ∈ edgesAux adj seen) :
    ∃ nbrs, (u, nbrs) ∈ adj ∧ (v, d) ∈ nbrs := by
  induction adj generalizing seen with
  | nil => simp [edgesAux] at h
  | cons p t ih =>
      obtain ⟨n, nbrs⟩ := p
      rcases List.mem_append.mp h with h1 | h1
      · obtain ⟨rfl, hm⟩ := edgesFrom_mem h1
        exact ⟨nbrs, List.mem_cons_self _ _, hm⟩
      · obtain ⟨nb, hnb, hm⟩ := ih h1
        exact ⟨nb, List.mem_cons_of_mem _ hnb, hm⟩

/-- With duplicate-free node keys, the entry of `u` in `g.adj` is what
`adjOf` returns. -/
theorem adjOf_of_entry {adj : List (Int × List (Int × EdgeData))} {s u : Int}
    {nbrs : List (Int × EdgeData)} (hnd : (adj.map Prod.fst).Nodup)
    (h : (u, nbrs) ∈ adj) : adjOf ⟨adj, s⟩ u = nbrs := by
  induction adj with
  | nil => simp at h
  | cons p t ih =>
      obtain ⟨x, l⟩ := p
      rcases List.mem_cons.mp h with h1 | h1
      · injection h1 with hx hl
        subst hx; subst hl
        exact adjOf_cons_self u nbrs t s
      · have hx : u ≠ x := by
          intro he
          subst he
          exact (List.nodup_cons.mp hnd).1 (List.mem_map.mpr ⟨(u, nbrs), h1, rfl⟩)
        rw [adjOf_cons_other _ _ _ hx]
        exact ih (List.nodup_cons.mp hnd).2 h1

/-- A reported edge is stored in the adjacency of its tail. -/
theorem edgesData_mem_adjOf {g : PGraph} {u v : Int} {d : EdgeData}
    (hnd : (nodesList g).Nodup) (h : (u, v, d) ∈ edgesData g) :
    (v, d) ∈ adjOf g u := by
  obtain ⟨nbrs, hent, hm⟩ := edgesAux_mem h
  have : adjOf g u = nbrs := by
    have := adjOf_of_entry (s := g.source) hnd hent
    simpa using this
  rw [this]; exact hm

/-- The tail of a reported edge is a node. -/
theorem edgesData_tail_node {g : PGraph} {u v : Int} {d : EdgeData}
    (h : (u, v, d) ∈ edgesData g) : u ∈ nodesList g := by
  obtain ⟨nbrs, hent, _⟩ := edgesAux_mem h
  exact List.mem_map.mpr ⟨(u, nbrs), hent, rfl⟩

/-- The head of a reported edge is a node (well-formedness). -/
theorem edgesData_head_node {g : PGraph} {u v : Int} {d : EdgeData}
    (hwf : WFgraph g) (h : (u, v, d) ∈ edgesData g) : v ∈ nodesList g := by
  obtain ⟨nbrs, hent, hm⟩ := edgesAux_mem h
  exact hwf.2.2.1 _ hent _ hm

/-- The reverse direction of a reported edge is stored too (well-formedness). -/
theorem edgesData_mem_adjOf_rev {g : PGraph} {u v : Int} {d : EdgeData}
    (hwf : WFgraph g) (h : (u, v, d) ∈ edgesData g) :
    (u, d) ∈ adjOf g v := by
  obtain ⟨nbrs, hent, hm⟩ := edgesAux_mem h
  exact hwf.2.2.2 _ hent _ hm

theorem setEdgeAux_not_found {g : PGraph} {eid : Int} {status : Bool}
    {l : List (Int × Int × EdgeData)} (h : ∀ e ∈ l, e.2.2.eid ≠ eid) :
    setEdgeAux g eid status l
      = .error (.idNotFound
          ("The chosen edge " ++ toString eid ++ " is not in the ID list.")) := by
  induction l with
  | nil => rfl
  | cons e t ih =>
      obtain ⟨u, v, d⟩ := e
      have hne : d.eid ≠ eid := h (u, v, d) (List.mem_cons_self _ _)
      rw [setEdgeAux, if_neg hne]
      exact ih (fun e he => h e (List.mem_cons_of_mem _ he))

theorem setEdgeAux_found {g : PGraph} {eid : Int} {status : Bool}
    {l : List (Int × Int × EdgeData)} {u v : Int} {d : EdgeData}
    (h : l.find? (fun e => decide (e.2.2.eid = eid)) = some (u, v, d)) :
    setEdgeAux g eid status l
      = if d.enabled = status ∧ status = false then
          .error (.edgeAlreadyDisabled
            ("The chosen edge " ++ toString eid ++ " is already disabled."))
        else
          .ok ⟨updateAdjEntry (updateAdjEntry g.adj u v ⟨d.eid, status⟩)
                 v u ⟨d.eid, status⟩, g.source⟩ := by
  induction l with
  | nil => cases h
  | cons e t ih =>
      obtain ⟨x, y, dd⟩ := e
      by_cases hm : dd.eid = eid
      · rw [List.find?_cons_of_pos _ (by simpa using hm)] at h
        simp only [Option.some.injEq, Prod.mk.injEq] at h
        obtain ⟨h1, h2, h3⟩ := h
        subst h1; subst h2; subst h3
        rw [setEdgeAux, if_pos hm]
      · rw [List.find?_cons_of_neg _ (by simpa using hm)] at h
        rw [setEdgeAux, if_neg hm]
        exact ih h

/-- **C8**: `set_edge_enabled_status` raises edge-not-found when the id is
unknown; re-disabling a currently disabled edge raises
edge-already-disabled (the graph is untouched, no update is produced);
enabling an already-enabled edge or any state-changing toggle succeeds
silently, producing the graph in which the matched edge's shared attribute
record carries the requested flag in both adjacency directions, with the
node set and source unchanged. -/
theorem c8_set_edge_enabled_status (g : PGraph) (eid : Int) (status : Bool) :
    (findEdge g eid = none →
      setEdgeEnabledStatus g eid status
        = .error (.idNotFound
            ("The chosen edge " ++ toString eid ++ " is not in the ID list."))) ∧
    (∀ u v d, findEdge g eid = some (u, v, d) → d.enabled = false →
      setEdgeEnabledStatus g eid false
        = .error (.edgeAlreadyDisabled
            ("The chosen edge " ++ toString eid ++ " is already disabled."))) ∧
    (∀ u v d, findEdge g eid = some (u, v, d) →
      d.enabled = true ∨ status = true → WFgraph g →
      ∃ g2, setEdgeEnabledStatus g eid status = .ok g2 ∧
        (v, ⟨d.eid, status⟩) ∈ adjOf g2 u ∧
        (u, ⟨d.eid, status⟩) ∈ adjOf g2 v ∧
        nodesList g2 = nodesList g ∧ g2.source = g.source) := by
  refine ⟨?_, ?_, ?_⟩
  · intro h
    have hall : ∀ e ∈ edgesData g, e.2.2.eid ≠ eid := by
      intro e he hc
      have := List.find?_eq_none.mp h e he
      simp [hc] at this
    exact setEdgeAux_not_found hall
  · intro u v d h hd
    unfold setEdgeEnabledStatus
    rw [setEdgeAux_found h, if_pos ⟨hd, rfl⟩]
  · intro u v d h hen hwf
    have hgood : ¬ (d.enabled = status ∧ status = false) := by
      rintro ⟨h1, h2⟩
      subst h2
      rcases hen with h3 | h3
      · rw [h1] at h3; cases h3
      · cases h3
    have hmem : (u, v, d) ∈ edgesData g :=
      List.mem_of_find?_eq_some h
    have hu : u ∈ nodesList g := edgesData_tail_node hmem
    have hv : v ∈ nodesList g := edgesData_head_node hwf hmem
    refine ⟨⟨updateAdjEntry (updateAdjEntry g.adj u v ⟨d.eid, status⟩) v u
        ⟨d.eid, status⟩, g.source⟩,
      by unfold setEdgeEnabledStatus; rw [setEdgeAux_found h, if_neg hgood],
      ?_, ?_, ?_, rfl⟩
    · by_cases huv : u = v
      · subst huv
        rw [adjOf_update_self u ⟨d.eid, status⟩ g.source g.source
          (by rw [updateAdjEntry_keys]; exact hu)]
        exact setNbr_mem_self _ _ _
      · rw [adjOf_update_other (u := v) (w := u) u ⟨d.eid, status⟩
            g.source g.source huv,
          adjOf_update_self v ⟨d.eid, status⟩ g.source g.source hu]
        exact setNbr_mem_self _ _ _
    · rw [adjOf_update_self u ⟨d.eid, status⟩ g.source g.source
        (by rw [updateAdjEntry_keys]; exact hv)]
      exact setNbr_mem_self _ _ _
    · show (List.map Prod.fst _) = nodesList g
      rw [updateAdjEntry_keys, updateAdjEntry_keys]
      rfl

/-- Witness for C8 on the §8 scenario graph: unknown id 99 errors, disabling
the disabled edge 7 errors, enabling edge 7 and re-enabling the enabled
edge 1 succeed with the requested flag stored. -/
theorem c8_set_edge_enabled_status_witness :
    (setEdgeEnabledStatus gC6 99 false
      = .error (.idNotFound "The chosen edge 99 is not in the ID list.")) ∧
    (setEdgeEnabledStatus gC6 7 false
      = .error (.edgeAlreadyDisabled "The chosen edge 7 is already disabled.")) ∧
    (∃ g2, setEdgeEnabledStatus gC6 7 true = .ok g2 ∧
      (4, ⟨7, true⟩) ∈ adjOf g2 2 ∧ (2, ⟨7, true⟩) ∈ adjOf g2 4 ∧
      nodesList g2 = nodesList gC6 ∧ g2.source = gC6.source) ∧
    (∃ g2, setEdgeEnabledStatus gC6 1 true = .ok g2 ∧
      (2, ⟨1, true⟩) ∈ adjOf g2 0 ∧ (0, ⟨1, true⟩) ∈ adjOf g2 2 ∧
      nodesList g2 = nodesList gC6 ∧ g2.source = gC6.source) := by
  refine ⟨(c8_set_edge_enabled_status gC6 99 false).1 rfl,
    (c8_set_edge_enabled_status gC6 7 false).2.1 2 4 ⟨7, false⟩ rfl rfl,
    (c8_set_edge_enabled_status gC6 7 true).2.2 2 4 ⟨7, false⟩ rfl
      (Or.inr rfl) (by decide),
    (c8_set_edge_enabled_status gC6 1 true).2.2 0 2 ⟨1, true⟩ rfl
      (Or.inl rfl) (by decide)⟩

/-- **C7**: `find_downstream_vertices` raises the unknown-reference error
whenever the queried id is carried by no stored edge, returns `[]` whenever
the matched edge is currently disabled, and every successfully returned
list is sorted in increasing order of vertex identifier. -/
theorem c7_find_downstream_vertices (g : PGraph) (eid : Int) :
    ((∀ e ∈ edgesData g, e.2.2.eid ≠ eid) →
      findDownstreamVertices g eid
        = .error (.idNotFound "The provided ID is not in the edge_ids list.")) ∧
    (∀ u v d, findEdge g eid = some (u, v, d) → d.enabled = false →
      findDownstreamVertices g eid = .ok []) ∧
    (∀ l, findDownstreamVertices g eid = .ok l → l.Sorted (· ≤ ·)) := by
  refine ⟨?_, ?_, ?_⟩
  · intro h
    have hid : hasId ((edgesData g).map (fun e => e.2.2.eid)) eid = false := by
      unfold hasId
      rw [decide_eq_false]
      intro hm
      rcases List.mem_map.mp hm with ⟨e, he, hee⟩
      exact h e he hee
    unfold findDownstreamVertices
    rw [hid]
    rfl
  · intro u v d h hd
    have hmem : (u, v, d) ∈ edgesData g := List.mem_of_find?_eq_some h
    have heq : d.eid = eid := by
      have := List.find?_some h
      simpa using this
    have hid : hasId ((edgesData g).map (fun e => e.2.2.eid)) eid = true := by
      unfold hasId
      rw [decide_eq_true]
      exact List.mem_map.mpr ⟨(u, v, d), hmem, heq⟩
    unfold findDownstreamVertices
    simp [hid, h, hd]
  · intro l h
    unfold findDownstreamVertices at h
    repeat' split at h
    all_goals
      first
        | (cases h; exact List.sorted_nil)
        | (cases h; exact List.sorted_insertionSort _ _)
        | cases h

/-- Witness for C7 on the §8 scenario graph: unknown id 99 errors, the
disabled edge 7 yields `[]`, and the result for the enabled edge 3 (namely
`[4]`) is sorted. -/
theorem c7_find_downstream_vertices_witness :
    findDownstreamVertices gC6 99
      = .error (.idNotFound "The provided ID is not in the edge_ids list.") ∧
    findDownstreamVertices gC6 7 = .ok [] ∧
    findDownstreamVertices gC6 3 = .ok [4] ∧
    List.Sorted (· ≤ ·) ([4] : List Int) := by
  refine ⟨(c7_find_downstream_vertices gC6 99).1 (by decide),
    (c7_find_downstream_vertices gC6 7).2.1 2 4 ⟨7, false⟩ rfl rfl,
    rfl,
    (c7_find_downstream_vertices gC6 3).2.2 [4] rfl⟩

/-- The input lists `filter_disabled_edges` passes to the constructor always
satisfy checks 1-4 for a good graph; uniqueness of the filtered edge ids. -/
theorem filterInput_ids_nodup {g : PGraph} (hg : GoodGraph g) :
    (((edgesData g).filter (fun e => decide (e.2.2.enabled = true))).map
      (fun e => e.2.2.eid)).Nodup :=
  hg.2.sublist (List.Sublist.map _ (List.filter_sublist _))

theorem filterInput_endpoints {g : PGraph} (hg : GoodGraph g) :
    ∀ p ∈ ((edgesData g).filter (fun e => decide (e.2.2.enabled = true))).map
        (fun e => (e.1, e.2.1)),
      p.1 ∈ nodesList g ∧ p.2 ∈ nodesList g := by
  intro p hp
  rcases List.mem_map.mp hp with ⟨e, he, rfl⟩
  obtain ⟨u, v, d⟩ := e
  have hmem : (u, v, d) ∈ edgesData g := List.mem_of_mem_filter he
  exact ⟨edgesData_tail_node hmem, edgesData_head_node hg.1 hmem⟩

/-- With the source detached from the vertex set, `filter_disabled_edges`
fails its source-membership check (check 5 of the constructor). -/
theorem filterDisabledEdges_err_source {g : PGraph} (hg : GoodGraph g)
    (hs : g.source ∉ nodesList g) :
    filterDisabledEdges g
      = .error (.idNotFound "The provided source_vertex_id is not in the vertex_ids list.") := by
  unfold filterDisabledEdges
  exact initCore_err_source hg.1.1 (filterInput_ids_nodup hg)
    (by simp) (filterInput_endpoints hg) (by simp) hs

/-- With the source in the vertex set, `filter_disabled_edges` succeeds on a
good graph, rebuilding from the enabled edges. -/
theorem filterDisabledEdges_ok {g : PGraph} (hg : GoodGraph g)
    (hs : g.source ∈ nodesList g) :
    filterDisabledEdges g
      = .ok (buildGraph (nodesList g)
          (((edgesData g).filter (fun e => decide (e.2.2.enabled = true))).map
            (fun e => e.2.2.eid))
          (((edgesData g).filter (fun e => decide (e.2.2.enabled = true))).map
            (fun e => (e.1, e.2.1)))
          (((edgesData g).filter (fun e => decide (e.2.2.enabled = true))).map
            (fun _ => true))
          g.source) := by
  unfold filterDisabledEdges
  exact initCore_ok hg.1.1 (filterInput_ids_nodup hg)
    (by simp) (filterInput_endpoints hg) (by simp) hs

/-- **C4**: on a good graph whose source vertex identifier has been
reassigned to a value that is not a vertex, `find_downstream_vertices` on
an existing enabled edge raises the source-vertex-not-found error (the
`IDNotFoundError` of check 5, raised while re-filtering, propagates — it is
not a `networkx` error, so the `except` clause does not catch it). -/
theorem c4_source_reassigned_raises (g : PGraph) (eid : Int) (u v : Int)
    (d : EdgeData) (hg : GoodGraph g) (hs : g.source ∉ nodesList g)
    (hf : findEdge g eid = some (u, v, d)) (hd : d.enabled = true) :
    findDownstreamVertices g eid
      = .error (.idNotFound "The provided source_vertex_id is not in the vertex_ids list.") := by
  have hmem : (u, v, d) ∈ edgesData g := List.mem_of_find?_eq_some hf
  have heq : d.eid = eid := by
    have := List.find?_some hf
    simpa using this
  have hid : hasId ((edgesData g).map (fun e => e.2.2.eid)) eid = true := by
    unfold hasId
    rw [decide_eq_true]
    exact List.mem_map.mpr ⟨(u, v, d), hmem, heq⟩
  unfold findDownstreamVertices
  simp [hid, hf, hd, filterDisabledEdges_err_source hg hs]

/-- Witness for C4: the §8 scenario graph with its source reassigned to 99. -/
theorem c4_source_reassigned_raises_witness :
    GoodGraph ⟨gC6.adj, 99⟩ ∧ (99 : Int) ∉ nodesList ⟨gC6.adj, 99⟩ ∧
    findEdge ⟨gC6.adj, 99⟩ 1 = some (0, 2, ⟨1, true⟩) ∧
    findDownstreamVertices ⟨gC6.adj, 99⟩ 1
      = .error (.idNotFound "The provided source_vertex_id is not in the vertex_ids list.") :=
  ⟨by decide, by decide, rfl,
    c4_source_reassigned_raises ⟨gC6.adj, 99⟩ 1 0 2 ⟨1, true⟩ (by decide)
      (by decide) rfl rfl⟩

/-! ### Correctness of the BFS reachability computation -/

theorem takeNew_mem {l : List Int} {x : Int} : ∀ {visited : List Int},
    x ∈ takeNew visited l ↔ x ∈ l ∧ x ∉ visited := by
  induction l with
  | nil => intro visited; simp [takeNew]
  | cons w t ih =>
      intro visited
      by_cases hw : w ∈ visited
      · rw [takeNew, if_pos hw, ih]
        constructor
        · rintro ⟨h1, h2⟩
          exact ⟨List.mem_cons_of_mem _ h1, h2⟩
        · rintro ⟨h1, h2⟩
          rcases List.mem_cons.mp h1 with rfl | h1
          · exact absurd hw h2
          · exact ⟨h1, h2⟩
      · rw [takeNew, if_neg hw]
        constructor
        · intro hx
          rcases List.mem_cons.mp hx with rfl | hx
          · exact ⟨List.mem_cons_self _ _, hw⟩
          · have := ih.mp hx
            refine ⟨List.mem_cons_of_mem _ this.1, fun hv => this.2 ?_⟩
            exact List.mem_append.mpr (Or.inl hv)
        · rintro ⟨h1, h2⟩
          rcases List.mem_cons.mp h1 with rfl | h1
          · exact List.mem_cons_self _ _
          · by_cases hxw : x = w
            · subst hxw; exact List.mem_cons_self _ _
            · refine List.mem_cons_of_mem _ (ih.mpr ⟨h1, fun hv => ?_⟩)
              rcases List.mem_append.mp hv with hv | hv
              · exact h2 hv
              · exact hxw (by simpa using hv)

theorem takeNew_nodup (l : List Int) : ∀ (visited : List Int),
    (takeNew visited l).Nodup := by
  induction l with
  | nil => intro visited; simp [takeNew]
  | cons w t ih =>
      intro visited
      by_cases hw : w ∈ visited
      · rw [takeNew, if_pos hw]; exact ih visited
      · rw [takeNew, if_neg hw]
        refine List.nodup_cons.mpr ⟨fun hc => ?_, ih _⟩
        exact (takeNew_mem.mp hc).2 (List.mem_append.mpr (Or.inr (by simp)))

theorem takeNew_subset {l visited : List Int} : takeNew visited l ⊆ l :=
  fun _x hx => (takeNew_mem.mp hx).1

theorem takeNew_disjoint {l visited : List Int} {x : Int}
    (hx : x ∈ takeNew visited l) : x ∉ visited :=
  (takeNew_mem.mp hx).2

/-- The neighbour keys of any node are drawn from `allCand`. -/
theorem nbrs_subset_allCand (g : PGraph) (u : Int) :
    ((adjOf g u).map Prod.fst) ⊆ allCand g := by
  intro x hx
  unfold adjOf at hx
  cases hf : g.adj.find? (fun e => decide (e.1 = u)) with
  | none => rw [hf] at hx; simp at hx
  | some e =>
      rw [hf] at hx
      have he : e ∈ g.adj := List.mem_of_find?_eq_some hf
      unfold allCand
      exact List.mem_flatMap.mpr ⟨e, he, hx⟩

theorem reachAux_zero (g : PGraph) (q vis : List Int) :
    reachAux g 0 q vis = vis := rfl

theorem reachAux_nil (g : PGraph) (n : Nat) (vis : List Int) :
    reachAux g n [] vis = vis := by cases n <;> rfl

theorem reachAux_cons (g : PGraph) (n : Nat) (u : Int) (qs vis : List Int) :
    reachAux g (n + 1) (u :: qs) vis
      = reachAux g n (qs ++ takeNew vis ((adjOf g u).map Prod.fst))
          (vis ++ takeNew vis ((adjOf g u).map Prod.fst)) := rfl

theorem reachAux_correct (g : PGraph) (s : Int) :
    ∀ (n : Nat) (q vis : List Int),
      q.length + 2 * ((allCand g).toFinset \ vis.toFinset).card ≤ n →
      vis.Nodup → (∀ x ∈ q, x ∈ vis) → (∀ w ∈ vis, Reach g s w) →
      (∀ u ∈ vis, u ∉ q → ∀ w ∈ (adjOf g u).map Prod.fst, w ∈ vis) →
      (∀ x ∈ vis, x ∈ reachAux g n q vis) ∧
      (reachAux g n q vis).Nodup ∧
      (∀ w ∈ reachAux g n q vis, Reach g s w) ∧
      (∀ u ∈ reachAux g n q vis, ∀ w ∈ (adjOf g u).map Prod.fst,
        w ∈ reachAux g n q vis) := by
  intro n
  induction n with
  | zero =>
      intro q vis hfuel hnd hqv hreach hcl
      have hq : q = [] := by
        have : q.length = 0 := Nat.le_zero.mp
          (le_trans (Nat.le_add_right _ _) hfuel)
        exact List.length_eq_zero.mp this
      subst hq
      rw [reachAux_zero]
      exact ⟨fun x hx => hx, hnd, hreach,
        fun u hu w hw => hcl u hu (by simp) w hw⟩
  | succ n ih =>
      intro q vis hfuel hnd hqv hreach hcl
      match q with
      | [] =>
          rw [reachAux_nil]
          exact ⟨fun x hx => hx, hnd, hreach,
            fun u hu w hw => hcl u hu (by simp) w hw⟩
      | u :: qs =>
          rw [reachAux_cons]
          have hwsA : takeNew vis ((adjOf g u).map Prod.fst) ⊆ allCand g :=
            fun x hx => nbrs_subset_allCand g u (takeNew_subset hx)
          have hwsnd : (takeNew vis ((adjOf g u).map Prod.fst)).Nodup :=
            takeNew_nodup _ _
          have hwsdis : ∀ x ∈ takeNew vis ((adjOf g u).map Prod.fst),
              x ∉ vis := fun x hx => takeNew_disjoint hx
          -- fuel bookkeeping
          have hsub : (takeNew vis ((adjOf g u).map Prod.fst)).toFinset
              ⊆ (allCand g).toFinset \ vis.toFinset := by
            intro x hx
            rw [List.mem_toFinset] at hx
            rw [Finset.mem_sdiff, List.mem_toFinset, List.mem_toFinset]
            exact ⟨hwsA hx, hwsdis x hx⟩
          have hcard : ((allCand g).toFinset \
              (vis ++ takeNew vis ((adjOf g u).map Prod.fst)).toFinset).card
              = ((allCand g).toFinset \ vis.toFinset).card
                - (takeNew vis ((adjOf g u).map Prod.fst)).length := by
            have hdd := sdiff_sdiff (allCand g).toFinset vis.toFinset
              (takeNew vis ((adjOf g u).map Prod.fst)).toFinset
            rw [Finset.sup_eq_union] at hdd
            rw [List.toFinset_append, ← hdd,
              Finset.card_sdiff hsub, List.toFinset_card_of_nodup hwsnd]
          have hwsle : (takeNew vis ((adjOf g u).map Prod.fst)).length
              ≤ ((allCand g).toFinset \ vis.toFinset).card := by
            rw [← List.toFinset_card_of_nodup hwsnd]
            exact Finset.card_le_card hsub
          have hfuel2 : (qs ++ takeNew vis ((adjOf g u).map Prod.fst)).length
              + 2 * ((allCand g).toFinset \
                  (vis ++ takeNew vis ((adjOf g u).map Prod.fst)).toFinset).card
              ≤ n := by
            rw [List.length_append, hcard]
            simp only [List.length_cons] at hfuel
            omega
          refine ?_
          have hnd2 : (vis ++ takeNew vis ((adjOf g u).map Prod.fst)).Nodup :=
            List.nodup_append.mpr ⟨hnd, hwsnd,
              fun a ha hb => hwsdis a hb ha⟩
          have hqv2 : ∀ x ∈ qs ++ takeNew vis ((adjOf g u).map Prod.fst),
              x ∈ vis ++ takeNew vis ((adjOf g u).map Prod.fst) := by
            intro x hx
            rcases List.mem_append.mp hx with hx | hx
            · exact List.mem_append.mpr
                (Or.inl (hqv x (List.mem_cons_of_mem _ hx)))
            · exact List.mem_append.mpr (Or.inr hx)
          have hreach2 : ∀ w ∈ vis ++ takeNew vis ((adjOf g u).map Prod.fst),
              Reach g s w := by
            intro w hw
            rcases List.mem_append.mp hw with hw | hw
            · exact hreach w hw
            · exact Reach.step (hreach u (hqv u (List.mem_cons_self _ _)))
                (takeNew_subset hw)
          have hcl2 : ∀ x ∈ vis ++ takeNew vis ((adjOf g u).map Prod.fst),
              x ∉ qs ++ takeNew vis ((adjOf g u).map Prod.fst) →
              ∀ w ∈ (adjOf g x).map Prod.fst,
                w ∈ vis ++ takeNew vis ((adjOf g u).map Prod.fst) := by
            intro x hx hxq w hw
            rcases List.mem_append.mp hx with hx | hx
            · by_cases hxu : x = u
              · subst hxu
                by_cases hwv : w ∈ vis
                · exact List.mem_append.mpr (Or.inl hwv)
                · exact List.mem_append.mpr
                    (Or.inr (takeNew_mem.mpr ⟨hw, hwv⟩))
              · have hxq0 : x ∉ u :: qs := by
                  intro hc
                  rcases List.mem_cons.mp hc with rfl | hc
                  · exact hxu rfl
                  · exact hxq (List.mem_append.mpr (Or.inl hc))
                exact List.mem_append.mpr (Or.inl (hcl x hx hxq0 w hw))
            · exact absurd (List.mem_append.mpr (Or.inr hx)) hxq
          obtain ⟨m1, m2, m3, m4⟩ := ih _ _ hfuel2 hnd2 hqv2 hreach2 hcl2
          exact ⟨fun x hx => m1 x (List.mem_append.mpr (Or.inl hx)),
            m2, m3, m4⟩

theorem allCand_length (g : PGraph) :
    (allCand g).length = ((g.adj.map (fun e => e.2.length)).sum) := by
  unfold allCand
  rw [List.length_flatMap]
  congr 1
  simp

theorem reachList_spec (g : PGraph) (v : Int) :
    v ∈ reachList g v ∧ (reachList g v).Nodup ∧
    (∀ w ∈ reachList g v, Reach g v w) ∧
    (∀ u ∈ reachList g v, ∀ w, EdgeRel g u w → w ∈ reachList g v) := by
  have hfuel : ([v] : List Int).length
      + 2 * ((allCand g).toFinset \ ([v] : List Int).toFinset).card
      ≤ bfsFuel g := by
    have h1 : ((allCand g).toFinset \ ([v] : List Int).toFinset).card
        ≤ (allCand g).length := by
      calc ((allCand g).toFinset \ ([v] : List Int).toFinset).card
          ≤ (allCand g).toFinset.card :=
            Finset.card_le_card (Finset.sdiff_subset)
        _ ≤ (allCand g).length := (allCand g).toFinset_card_le
    have h2 := allCand_length g
    unfold bfsFuel
    simp only [List.length_singleton]
    omega
  have hr0 : ∀ w ∈ ([v] : List Int), Reach g v w := by
    intro w hw
    have : w = v := by simpa using hw
    subst this
    exact Reach.refl w
  obtain ⟨m1, m2, m3, m4⟩ := reachAux_correct g v (bfsFuel g) [v] [v] hfuel
    (by simp) (by simp) hr0
    (by intro u hu hq; simp at hu hq; exact absurd hu hq)
  exact ⟨m1 v (by simp), m2, m3, fun u hu w hw => m4 u hu w hw⟩

/-- Membership in the BFS component list is reachability. -/
theorem reachList_iff {g : PGraph} {v w : Int} :
    w ∈ reachList g v ↔ Reach g v w := by
  obtain ⟨m1, _m2, m3, m4⟩ := reachList_spec g v
  constructor
  · exact m3 w
  · intro h
    induction h with
    | refl => exact m1
    | step hr he ih => exact m4 _ ih _ he

theorem EdgeRel_mem_nodes {g : PGraph} (hwf : WFgraph g) {u w : Int}
    (h : EdgeRel g u w) : w ∈ nodesList g := by
  unfold EdgeRel at h
  unfold adjOf at h
  cases hf : g.adj.find? (fun e => decide (e.1 = u)) with
  | none => rw [hf] at h; simp at h
  | some e =>
      rw [hf] at h
      rcases List.mem_map.mp h with ⟨p, hp, rfl⟩
      exact hwf.2.2.1 e (List.mem_of_find?_eq_some hf) p hp

theorem Reach_mem_nodes {g : PGraph} (hwf : WFgraph g) {v w : Int}
    (hv : v ∈ nodesList g) (h : Reach g v w) : w ∈ nodesList g := by
  induction h with
  | refl => exact hv
  | step hr he ih => exact EdgeRel_mem_nodes hwf he

theorem Reach_trans {g : PGraph} {a b c : Int} (h1 : Reach g a b)
    (h2 : Reach g b c) : Reach g a c := by
  induction h2 with
  | refl => exact h1
  | step hr he ih => exact Reach.step ih he

theorem EdgeRel_symm {g : PGraph} (hwf : WFgraph g) {u v : Int}
    (h : EdgeRel g u v) : EdgeRel g v u := by
  unfold EdgeRel at h ⊢
  rcases List.mem_map.mp h with ⟨p, hp, rfl⟩
  unfold adjOf at hp
  cases hf : g.adj.find? (fun e => decide (e.1 = u)) with
  | none => rw [hf] at hp; simp at hp
  | some e =>
      rw [hf] at hp
      have he : e ∈ g.adj := List.mem_of_find?_eq_some hf
      have heu : e.1 = u := by
        have := List.find?_some hf
        simpa using this
      have := hwf.2.2.2 e he p hp
      rw [heu] at this
      exact List.mem_map.mpr ⟨(u, p.2), this, rfl⟩

theorem Reach_symm {g : PGraph} (hwf : WFgraph g) {a b : Int}
    (h : Reach g a b) : Reach g b a := by
  induction h with
  | refl => exact Reach.refl _
  | step hr he ih =>
      exact Reach_trans (Reach.step (Reach.refl _) (EdgeRel_symm hwf he)) ih

/-- On a well-formed graph with first node `v0`, the count comparison of
`nx.is_connected` holds exactly when every node is reachable from `v0`. -/
theorem connected_count_iff {g : PGraph} (hwf : WFgraph g) {v0 : Int}
    {rest : List Int} (h : nodesList g = v0 :: rest) :
    ((reachList g v0).length = (nodesList g).length)
      ↔ ∀ w ∈ nodesList g, Reach g v0 w := by
  have hv0 : v0 ∈ nodesList g := by rw [h]; simp
  obtain ⟨m1, m2, m3, _m4⟩ := reachList_spec g v0
  have hsub : reachList g v0 ⊆ nodesList g := by
    intro w hw
    exact Reach_mem_nodes hwf hv0 (m3 w hw)
  constructor
  · intro hlen w hw
    have hfs : (reachList g v0).toFinset = (nodesList g).toFinset := by
      apply Finset.eq_of_subset_of_card_le
      · intro x hx
        rw [List.mem_toFinset] at hx ⊢
        exact hsub hx
      · rw [List.toFinset_card_of_nodup m2,
          List.toFinset_card_of_nodup hwf.1, hlen]
    have : w ∈ reachList g v0 := by
      rw [← List.mem_toFinset, hfs, List.mem_toFinset]; exact hw
    exact m3 w this
  · intro hall
    have hsub2 : nodesList g ⊆ reachList g v0 := by
      intro w hw
      exact reachList_iff.mpr (hall w hw)
    exact Nat.le_antisymm (m2.subperm hsub).length_le
      (hwf.1.subperm hsub2).length_le

/-! ### The two views of well-formedness agree -/

theorem adjOf_eq_of_not_node {g : PGraph} {u : Int}
    (h : u ∉ nodesList g) : adjOf g u = [] := by
  unfold adjOf
  cases hf : g.adj.find? (fun e => decide (e.1 = u)) with
  | none => rfl
  | some e =>
      exfalso
      have he : e ∈ g.adj := List.mem_of_find?_eq_some hf
      have heu : e.1 = u := by
        have := List.find?_some hf
        simpa using this
      exact h (heu ▸ List.mem_map.mpr ⟨e, he, rfl⟩)

theorem WFgraph_iff_WFadj (g : PGraph) : WFgraph g ↔ WFadj g := by
  constructor
  · rintro ⟨h1, h2, h3, h4⟩
    refine ⟨h1, ?_, ?_, ?_⟩
    · intro u
      unfold adjOf
      cases hf : g.adj.find? (fun e => decide (e.1 = u)) with
      | none => simp
      | some e => exact h2 e (List.mem_of_find?_eq_some hf)
    · intro u x hx
      unfold adjOf at hx
      cases hf : g.adj.find? (fun e => decide (e.1 = u)) with
      | none => rw [hf] at hx; simp at hx
      | some e =>
          rw [hf] at hx
          rcases List.mem_map.mp hx with ⟨p, hp, rfl⟩
          exact h3 e (List.mem_of_find?_eq_some hf) p hp
    · intro u v d hd
      unfold adjOf at hd
      cases hf : g.adj.find? (fun e => decide (e.1 = u)) with
      | none => rw [hf] at hd; simp at hd
      | some e =>
          rw [hf] at hd
          have heu : e.1 = u := by
            have := List.find?_some hf
            simpa using this
          have := h4 e (List.mem_of_find?_eq_some hf) (v, d) hd
          rw [heu] at this
          exact this
  · rintro ⟨h1, h2, h3, h4⟩
    refine ⟨h1, ?_, ?_, ?_⟩
    · intro e he
      obtain ⟨n, l⟩ := e
      have hadj : adjOf g n = l := by
        simpa using adjOf_of_entry (s := g.source) h1 he
      have := h2 n
      rw [hadj] at this
      exact this
    · intro e he p hp
      obtain ⟨n, l⟩ := e
      have hadj : adjOf g n = l := by
        simpa using adjOf_of_entry (s := g.source) h1 he
      exact h3 n p.1 (List.mem_map.mpr ⟨p, hadj ▸ hp, rfl⟩)
    · intro e he p hp
      obtain ⟨n, l⟩ := e
      have hadj : adjOf g n = l := by
        simpa using adjOf_of_entry (s := g.source) h1 he
      obtain ⟨x, dx⟩ := p
      exact h4 n x dx (hadj ▸ hp)

/-! ### Effect of `add_node` and `add_edge` on the adjacency view -/

theorem nodesList_addNode (g : PGraph) (u : Int) :
    nodesList (addNode g u)
      = if u ∈ nodesList g then nodesList g else nodesList g ++ [u] := by
  unfold addNode
  by_cases h : u ∈ nodesList g
  · rw [if_pos h, if_pos h]
  · rw [if_neg h, if_neg h]
    unfold nodesList
    simp

theorem addNode_source (g : PGraph) (u : Int) :
    (addNode g u).source = g.source := by
  unfold addNode
  by_cases h : u ∈ nodesList g
  · rw [if_pos h]
  · rw [if_neg h]

theorem adjOf_addNode (g : PGraph) (u w : Int) :
    adjOf (addNode g u) w = adjOf g w := by
  unfold addNode
  by_cases h : u ∈ nodesList g
  · rw [if_pos h]
  · rw [if_neg h]
    show adjOf ⟨g.adj ++ [(u, [])], g.source⟩ w = adjOf g w
    unfold adjOf
    cases hf : g.adj.find? (fun e => decide (e.1 = w)) with
    | some e =>
        rw [List.find?_append, hf]
        rfl
    | none =>
        rw [List.find?_append, hf]
        by_cases hw : u = w
        · subst hw
          rw [List.find?_cons_of_pos _ (by simp)]
          have : u ∉ nodesList g := h
          rfl
        · rw [Option.none_or, List.find?_cons_of_neg _ (by simpa using hw)]
          rfl

theorem WFadj_addNode {g : PGraph} (h : WFadj g) (u : Int) :
    WFadj (addNode g u) := by
  obtain ⟨h1, h2, h3, h4⟩ := h
  refine ⟨?_, ?_, ?_, ?_⟩
  · rw [nodesList_addNode]
    by_cases hm : u ∈ nodesList g
    · rw [if_pos hm]; exact h1
    · rw [if_neg hm]
      simp [List.nodup_append, h1, hm]
  · intro w
    rw [adjOf_addNode]
    exact h2 w
  · intro w x hx
    rw [adjOf_addNode] at hx
    rw [nodesList_addNode]
    by_cases hm : u ∈ nodesList g
    · rw [if_pos hm]; exact h3 w x hx
    · rw [if_neg hm]
      exact List.mem_append.mpr (Or.inl (h3 w x hx))
  · intro w v d hd
    rw [adjOf_addNode] at hd ⊢
    exact h4 w v d hd

theorem setNbr_keys_mem {l : List (Int × EdgeData)} {v x : Int}
    {d : EdgeData} :
    x ∈ (setNbr l v d).map Prod.fst ↔ x ∈ l.map Prod.fst ∨ x = v := by
  induction l with
  | nil => simp [setNbr]
  | cons p t ih =>
      obtain ⟨w, dw⟩ := p
      by_cases h : w = v
      · subst h
        simp [setNbr]
        tauto
      · simp only [setNbr, if_neg h, List.map_cons, List.mem_cons, ih]
        tauto

theorem addNode_twice_mem (g : PGraph) (u v : Int) :
    u ∈ nodesList (addNode (addNode g u) v)
      ∧ v ∈ nodesList (addNode (addNode g u) v) := by
  constructor
  · rw [nodesList_addNode]
    have hu : u ∈ nodesList (addNode g u) := by
      rw [nodesList_addNode]
      by_cases h : u ∈ nodesList g
      · rw [if_pos h]; exact h
      · rw [if_neg h]; simp
    by_cases h : v ∈ nodesList (addNode g u)
    · rw [if_pos h]; exact hu
    · rw [if_neg h]; exact List.mem_append.mpr (Or.inl hu)
  · rw [nodesList_addNode]
    by_cases h : v ∈ nodesList (addNode g u)
    · rw [if_pos h]; exact h
    · rw [if_neg h]; simp

theorem setNbr_setNbr_same (l : List (Int × EdgeData)) (v : Int)
    (d : EdgeData) : setNbr (setNbr l v d) v d = setNbr l v d := by
  induction l with
  | nil => simp [setNbr]
  | cons p t ih =>
      obtain ⟨w, dw⟩ := p
      by_cases h : w = v
      · simp [setNbr, h]
      · simp [setNbr, h, ih]

theorem adjOf_g1_eq (g : PGraph) (u v w : Int) :
    adjOf (addNode (addNode g u) v) w = adjOf g w := by
  rw [adjOf_addNode, adjOf_addNode]

/-- `add_edge` updates the head's adjacency by the `u ↦ d` entry. -/
theorem adjOf_addEdge_head (g : PGraph) (u v : Int) (d : EdgeData) :
    adjOf (addEdge g u v d) v = setNbr (adjOf g v) u d := by
  have hmem := addNode_twice_mem g u v
  unfold addEdge
  show adjOf ⟨updateAdjEntry (updateAdjEntry (addNode (addNode g u) v).adj
      u v d) v u d, (addNode (addNode g u) v).source⟩ v = _
  rw [adjOf_update_self u d _ (addNode (addNode g u) v).source
    (by rw [updateAdjEntry_keys]; exact hmem.2)]
  by_cases huv : u = v
  · subst huv
    rw [adjOf_update_self u d _ (addNode (addNode g u) u).source hmem.1,
      adjOf_g1_eq]
    show setNbr (setNbr (adjOf g u) u d) u d = _
    rw [setNbr_setNbr_same]
  · rw [adjOf_update_other (w := v) v d _
      (addNode (addNode g u) v).source (fun he => huv he.symm)]
    rw [adjOf_g1_eq]

/-- `add_edge` updates the tail's adjacency by the `v ↦ d` entry. -/
theorem adjOf_addEdge_tail (g : PGraph) {u v : Int} (d : EdgeData)
    (huv : u ≠ v) :
    adjOf (addEdge g u v d) u = setNbr (adjOf g u) v d := by
  have hmem := addNode_twice_mem g u v
  unfold addEdge
  show adjOf ⟨updateAdjEntry (updateAdjEntry (addNode (addNode g u) v).adj
      u v d) v u d, (addNode (addNode g u) v).source⟩ u = _
  rw [adjOf_update_other (w := u) u d _
      (addNode (addNode g u) v).source huv,
    adjOf_update_self v d _ (addNode (addNode g u) v).source hmem.1,
    adjOf_g1_eq]

/-- `add_edge` leaves every other node's adjacency unchanged. -/
theorem adjOf_addEdge_other (g : PGraph) {u v w : Int} (d : EdgeData)
    (hu : w ≠ u) (hv : w ≠ v) :
    adjOf (addEdge g u v d) w = adjOf g w := by
  unfold addEdge
  show adjOf ⟨updateAdjEntry (updateAdjEntry (addNode (addNode g u) v).adj
      u v d) v u d, (addNode (addNode g u) v).source⟩ w = _
  rw [adjOf_update_other (w := w) u d _
      (addNode (addNode g u) v).source hv,
    adjOf_update_other (w := w) v d _
      (addNode (addNode g u) v).source hu,
    adjOf_g1_eq]

theorem nodesList_addEdge (g : PGraph) (u v : Int) (d : EdgeData) :
    nodesList (addEdge g u v d) = nodesList (addNode (addNode g u) v) := by
  unfold addEdge nodesList
  rw [updateAdjEntry_keys, updateAdjEntry_keys]

theorem addEdge_source (g : PGraph) (u v : Int) (d : EdgeData) :
    (addEdge g u v d).source = g.source := by
  unfold addEdge
  show (addNode (addNode g u) v).source = g.source
  rw [addNode_source, addNode_source]

theorem setNbr_keys (l : List (Int × EdgeData)) (v : Int) (d : EdgeData) :
    (setNbr l v d).map Prod.fst
      = if v ∈ l.map Prod.fst then l.map Prod.fst
        else l.map Prod.fst ++ [v] := by
  induction l with
  | nil => simp [setNbr]
  | cons p t ih =>
      obtain ⟨w, dw⟩ := p
      by_cases h : w = v
      · subst h
        simp [setNbr]
      · simp only [setNbr, if_neg h, List.map_cons, ih]
        by_cases hm : v ∈ t.map Prod.fst
        · rw [if_pos hm, if_pos (by simp [hm])]
        · rw [if_neg hm,
            if_neg (by
              intro hc
              rcases List.mem_cons.mp hc with he | he
              · exact h he.symm
              · exact hm he),
            List.cons_append]

theorem setNbr_mem_self_iff {l : List (Int × EdgeData)} {v : Int}
    {d dy : EdgeData} (hnd : (l.map Prod.fst).Nodup) :
    (v, dy) ∈ setNbr l v d ↔ dy = d := by
  induction l with
  | nil => simp [setNbr]
  | cons p t ih =>
      obtain ⟨w, dw⟩ := p
      simp only [List.map_cons, List.nodup_cons] at hnd
      by_cases h : w = v
      · subst h
        rw [setNbr, if_pos rfl]
        constructor
        · intro hm
          rcases List.mem_cons.mp hm with he | he
          · exact congrArg Prod.snd he
          · exact absurd (List.mem_map.mpr ⟨(w, dy), he, rfl⟩) hnd.1
        · rintro rfl
          exact List.mem_cons_self _ _
      · rw [setNbr, if_neg h]
        constructor
        · intro hm
          rcases List.mem_cons.mp hm with he | he
          · injection he with h1 h2
            exact absurd h1.symm h
          · exact (ih hnd.2).mp he
        · intro hdy
          exact List.mem_cons_of_mem _ ((ih hnd.2).mpr hdy)

theorem WFadj_addEdge {g : PGraph} (hwf : WFadj g) (u v : Int)
    (d : EdgeData) : WFadj (addEdge g u v d) := by
  have hwf1 : WFadj (addNode (addNode g u) v) :=
    WFadj_addNode (WFadj_addNode hwf u) v
  obtain ⟨h1, h2, h3, h4⟩ := hwf
  have hnodes : nodesList (addEdge g u v d)
      = nodesList (addNode (addNode g u) v) := nodesList_addEdge g u v d
  have hmemg : ∀ x, x ∈ nodesList g →
      x ∈ nodesList (addNode (addNode g u) v) := by
    intro x hx
    rw [nodesList_addNode]
    have hx2 : x ∈ nodesList (addNode g u) := by
      rw [nodesList_addNode]
      by_cases hh : u ∈ nodesList g
      · rw [if_pos hh]; exact hx
      · rw [if_neg hh]; exact List.mem_append.mpr (Or.inl hx)
    by_cases hh : v ∈ nodesList (addNode g u)
    · rw [if_pos hh]; exact hx2
    · rw [if_neg hh]; exact List.mem_append.mpr (Or.inl hx2)
  have hmemu := (addNode_twice_mem g u v).1
  have hmemv := (addNode_twice_mem g u v).2
  refine ⟨by rw [hnodes]; exact hwf1.1, ?_, ?_, ?_⟩
  · -- neighbour lists stay duplicate-free
    intro w
    by_cases hv : w = v
    · rw [hv, adjOf_addEdge_head, setNbr_keys]
      by_cases hm : u ∈ (adjOf g v).map Prod.fst
      · rw [if_pos hm]; exact h2 v
      · rw [if_neg hm]
        simp [List.nodup_append, h2 v, hm]
    · by_cases hu : w = u
      · have huv : u ≠ v := fun he => hv (hu.trans he)
        rw [hu, adjOf_addEdge_tail g d huv, setNbr_keys]
        by_cases hm : v ∈ (adjOf g u).map Prod.fst
        · rw [if_pos hm]; exact h2 u
        · rw [if_neg hm]
          simp [List.nodup_append, h2 u, hm]
      · rw [adjOf_addEdge_other g d hu hv]
        exact h2 w
  · -- neighbour keys are nodes
    intro w x hx
    rw [hnodes]
    by_cases hv : w = v
    · rw [hv, adjOf_addEdge_head] at hx
      rcases setNbr_keys_mem.mp hx with hx | rfl
      · exact hmemg x (h3 v x hx)
      · exact hmemu
    · by_cases hu : w = u
      · have huv : u ≠ v := fun he => hv (hu.trans he)
        rw [hu, adjOf_addEdge_tail g d huv] at hx
        rcases setNbr_keys_mem.mp hx with hx | rfl
        · exact hmemg x (h3 u x hx)
        · exact hmemv
      · rw [adjOf_addEdge_other g d hu hv] at hx
        exact hmemg x (h3 w x hx)
  · -- symmetric attribute sharing
    intro x y dy hd
    by_cases hxv : x = v
    · rw [hxv, adjOf_addEdge_head] at hd
      by_cases hyu : y = u
      · rw [hyu] at hd
        have hdy : dy = d := setNbr_mem_self_iff (h2 v) |>.mp hd
        rw [hxv, hyu, hdy]
        by_cases huv : u = v
        · rw [huv, adjOf_addEdge_head]
          exact setNbr_mem_self _ _ _
        · rw [adjOf_addEdge_tail g d huv]
          exact setNbr_mem_self _ _ _
      · have hd2 : (y, dy) ∈ adjOf g v := (setNbr_mem_other hyu).mp hd
        have hsym := h4 v y dy hd2
        rw [hxv]
        by_cases hyv : y = v
        · rw [hyv, adjOf_addEdge_head]
          rw [hyv] at hsym
          exact (setNbr_mem_other (fun he => hyu (hyv.trans he))).mpr hsym
        · rw [adjOf_addEdge_other g d hyu hyv]
          exact hsym
    · by_cases hxu : x = u
      · have hxuv : u ≠ v := fun he => hxv (hxu.trans he)
        rw [hxu, adjOf_addEdge_tail g d hxuv] at hd
        by_cases hyv : y = v
        · rw [hyv] at hd
          have hdy : dy = d := setNbr_mem_self_iff (h2 u) |>.mp hd
          rw [hxu, hyv, hdy, adjOf_addEdge_head]
          exact setNbr_mem_self _ _ _
        · have hd2 : (y, dy) ∈ adjOf g u := (setNbr_mem_other hyv).mp hd
          have hsym := h4 u y dy hd2
          rw [hxu]
          by_cases hyu : y = u
          · rw [hyu, adjOf_addEdge_tail g d hxuv]
            rw [hyu] at hsym
            exact (setNbr_mem_other hxuv).mpr hsym
          · rw [adjOf_addEdge_other g d hyu hyv]
            exact hsym
      · rw [adjOf_addEdge_other g d hxu hxv] at hd
        have hsym := h4 x y dy hd
        by_cases hyv : y = v
        · rw [hyv, adjOf_addEdge_head]
          rw [hyv] at hsym
          exact (setNbr_mem_other hxu).mpr hsym
        · by_cases hyu : y = u
          · have huv2 : u ≠ v := fun he => hyv (hyu.trans he)
            rw [hyu, adjOf_addEdge_tail g d huv2]
            rw [hyu] at hsym
            exact (setNbr_mem_other hxv).mpr hsym
          · rw [adjOf_addEdge_other g d hyu hyv]
            exact hsym

theorem keys_nodup_entry_unique {l : List (Int × List (Int × EdgeData))}
    {u : Int} {a b : List (Int × EdgeData)}
    (hnd : (l.map Prod.fst).Nodup) (h1 : (u, a) ∈ l) (h2 : (u, b) ∈ l) :
    a = b := by
  induction l with
  | nil => simp at h1
  | cons p t ih =>
      obtain ⟨w, lw⟩ := p
      simp only [List.map_cons, List.nodup_cons] at hnd
      rcases List.mem_cons.mp h1 with he1 | he1 <;>
        rcases List.mem_cons.mp h2 with he2 | he2
      · injection he1 with hu1 ha
        injection he2 with hu2 hb
        rw [ha, hb]
      · injection he1 with hu1 ha
        exact absurd (List.mem_map.mpr ⟨(u, b), he2, by rw [hu1]⟩) hnd.1
      · injection he2 with hu2 hb
        exact absurd (List.mem_map.mpr ⟨(u, a), he1, by rw [hu2]⟩) hnd.1
      · exact ih hnd.2 he1 he2

theorem edgesFrom_report {nbrs : List (Int × EdgeData)} {n v : Int}
    {d : EdgeData} {seen : List Int} (hm : (v, d) ∈ nbrs) (hs : v ∉ seen) :
    (n, v, d) ∈ edgesFrom nbrs n seen := by
  unfold edgesFrom
  exact List.mem_filterMap.mpr ⟨(v, d), hm, by rw [if_neg hs]⟩

/-- Every stored edge is reported (in one of its two orientations) by
`G.edges`, provided neither endpoint is already in `seen`. -/
theorem edgesAux_complete {g : PGraph} (hwf : WFgraph g) :
    ∀ (adj : List (Int × List (Int × EdgeData))) (seen : List Int)
      (u v : Int) (nbrsU : List (Int × EdgeData)) (d : EdgeData),
      (∀ e ∈ adj, e ∈ g.adj) → (u, nbrsU) ∈ adj → (v, d) ∈ nbrsU →
      u ∉ seen → v ∉ seen →
      (u, v, d) ∈ edgesAux adj seen ∨ (v, u, d) ∈ edgesAux adj seen := by
  intro adj
  induction adj with
  | nil => intro seen u v nbrsU d _ h; simp at h
  | cons p t ih =>
      intro seen u v nbrsU d hctx hmem hvd hu hv
      obtain ⟨n, nbrs⟩ := p
      by_cases hnu : n = u
      · left
        have hnn : nbrs = nbrsU := by
          refine keys_nodup_entry_unique (u := u) hwf.1 ?_ ?_
          · exact hnu ▸ hctx (n, nbrs) (List.mem_cons_self _ _)
          · rcases List.mem_cons.mp hmem with he | he
            · injection he with h1 h2
              rw [h2]
              exact hnu ▸ hctx (n, nbrs) (List.mem_cons_self _ _)
            · exact hctx _ (List.mem_cons_of_mem _ he)
        rw [edgesAux, ← hnu]
        exact List.mem_append.mpr (Or.inl
          (edgesFrom_report (hnn ▸ hvd) hv))
      · have hmem2 : (u, nbrsU) ∈ t := by
          rcases List.mem_cons.mp hmem with he | he
          · injection he with h1 h2
            exact absurd h1.symm hnu
          · exact he
        by_cases hnv : n = v
        · right
          have hng : (n, nbrs) ∈ g.adj := hctx _ (List.mem_cons_self _ _)
          have hug : (u, nbrsU) ∈ g.adj := hctx _ (List.mem_cons_of_mem _ hmem2)
          have hadjU : adjOf g u = nbrsU := by
            simpa using adjOf_of_entry (s := g.source) hwf.1 hug
          have hadjV : adjOf g v = nbrs := by
            rw [← hnv]
            simpa using adjOf_of_entry (s := g.source) hwf.1 hng
          have hsym : (u, d) ∈ adjOf g v := by
            have := ((WFgraph_iff_WFadj g).mp hwf).2.2.2 u v d (hadjU ▸ hvd)
            exact this
          rw [edgesAux, ← hnv]
          refine List.mem_append.mpr (Or.inl ?_)
          exact edgesFrom_report (by rw [← hadjV]; exact hsym) hu
        · have := ih (n :: seen) u v nbrsU d
            (fun e he => hctx e (List.mem_cons_of_mem _ he)) hmem2 hvd
            (by intro hc; rcases List.mem_cons.mp hc with he | he
                exacts [hnu he.symm, hu he])
            (by intro hc; rcases List.mem_cons.mp hc with he | he
                exacts [hnv he.symm, hv he])
          rw [edgesAux]
          rcases this with hh | hh
          · exact Or.inl (List.mem_append.mpr (Or.inr hh))
          · exact Or.inr (List.mem_append.mpr (Or.inr hh))

/-- Every stored edge shows up in `G.edges(data=True)`, in one of its two
orientations. -/
theorem edgesData_complete {g : PGraph} (hwf : WFgraph g) {u v : Int}
    {d : EdgeData} (h : (v, d) ∈ adjOf g u) :
    (u, v, d) ∈ edgesData g ∨ (v, u, d) ∈ edgesData g := by
  unfold adjOf at h
  cases hf : g.adj.find? (fun e => decide (e.1 = u)) with
  | none => rw [hf] at h; simp at h
  | some e =>
      rw [hf] at h
      have heu : e.1 = u := by
        have := List.find?_some hf
        simpa using this
      have hmem : (u, e.2) ∈ g.adj := by
        rw [← heu]
        exact List.mem_of_find?_eq_some hf
      exact edgesAux_complete hwf g.adj [] u v e.2 d (fun e he => he)
        hmem h (by simp) (by simp)

/-! ### The graph built by the constructor -/

theorem WFadj_empty (s : Int) : WFadj ⟨[], s⟩ := by
  refine ⟨by simp [nodesList], ?_, ?_, ?_⟩
  · intro u; simp [adjOf]
  · intro u x hx; simp [adjOf] at hx
  · intro u v d hd; simp [adjOf] at hd

theorem WFadj_foldl_addNode {g0 : PGraph} (h : WFadj g0) (vs : List Int) :
    WFadj (vs.foldl addNode g0) := by
  induction vs generalizing g0 with
  | nil => exact h
  | cons x t ih => exact ih (WFadj_addNode h x)

theorem WFadj_buildGraph (vs es : List Int) (pairs : List (Int × Int))
    (en : List Bool) (s : Int) : WFadj (buildGraph vs es pairs en s) := by
  unfold buildGraph
  have h0 : WFadj (vs.foldl addNode ⟨[], s⟩) :=
    WFadj_foldl_addNode (WFadj_empty s) vs
  generalize vs.foldl addNode ⟨[], s⟩ = g0 at h0 ⊢
  induction pairs.zip (es.zip en) generalizing g0 with
  | nil => exact h0
  | cons pe t ih =>
      rw [List.foldl_cons]
      exact ih _ (WFadj_addEdge h0 pe.1.1 pe.1.2 ⟨pe.2.1, pe.2.2⟩)

theorem nodesList_foldl_addNode (vs : List Int) :
    ∀ (g0 : PGraph), vs.Nodup → (∀ x ∈ vs, x ∉ nodesList g0) →
    nodesList (vs.foldl addNode g0) = nodesList g0 ++ vs := by
  induction vs with
  | nil => intro g0 _ _; simp
  | cons x t ih =>
      intro g0 hnd hdis
      rw [List.foldl_cons]
      have hx : x ∉ nodesList g0 := hdis x (List.mem_cons_self _ _)
      have hstep : nodesList (addNode g0 x) = nodesList g0 ++ [x] := by
        rw [nodesList_addNode, if_neg hx]
      rw [ih (addNode g0 x) (List.nodup_cons.mp hnd).2 ?_, hstep]
      · simp
      · intro y hy
        rw [hstep]
        intro hc
        rcases List.mem_append.mp hc with hc | hc
        · exact hdis y (List.mem_cons_of_mem _ hy) hc
        · have : y = x := by simpa using hc
          exact (List.nodup_cons.mp hnd).1 (this ▸ hy)

theorem nodesList_addEdge_mem {g : PGraph} {u v : Int} (d : EdgeData)
    (hu : u ∈ nodesList g) (hv : v ∈ nodesList g) :
    nodesList (addEdge g u v d) = nodesList g := by
  rw [nodesList_addEdge, nodesList_addNode, nodesList_addNode, if_pos hu]
  rw [if_pos hv]

theorem nodesList_buildGraph {vs es : List Int} {pairs : List (Int × Int)}
    {en : List Bool} {s : Int} (hnd : vs.Nodup)
    (hep : ∀ p ∈ pairs, p.1 ∈ vs ∧ p.2 ∈ vs) :
    nodesList (buildGraph vs es pairs en s) = vs := by
  unfold buildGraph
  have h0 : nodesList (vs.foldl addNode ⟨[], s⟩) = vs := by
    have := nodesList_foldl_addNode vs ⟨[], s⟩ hnd
      (by intro x _; simp [nodesList])
    simpa [nodesList] using this
  have hz : ∀ pe ∈ pairs.zip (es.zip en), pe.1.1 ∈ vs ∧ pe.1.2 ∈ vs :=
    fun pe hpe => hep pe.1 (List.of_mem_zip hpe).1
  suffices h : ∀ (l : List ((Int × Int) × Int × Bool)) (g0 : PGraph),
      (∀ pe ∈ l, pe.1.1 ∈ vs ∧ pe.1.2 ∈ vs) → nodesList g0 = vs →
      nodesList (l.foldl
        (fun g pe => addEdge g pe.1.1 pe.1.2 ⟨pe.2.1, pe.2.2⟩) g0) = vs by
    exact h _ _ hz h0
  intro l
  induction l with
  | nil => intro g0 _ h; exact h
  | cons pe t ih =>
      intro g0 hl h
      rw [List.foldl_cons]
      refine ih _ (fun x hx => hl x (List.mem_cons_of_mem _ hx)) ?_
      rw [nodesList_addEdge_mem _ (h ▸ (hl pe (List.mem_cons_self _ _)).1)
        (h ▸ (hl pe (List.mem_cons_self _ _)).2), h]

theorem source_foldl_addNode (vs : List Int) (g0 : PGraph) :
    (vs.foldl addNode g0).source = g0.source := by
  induction vs generalizing g0 with
  | nil => rfl
  | cons x t ih => rw [List.foldl_cons, ih, addNode_source]

theorem source_buildGraph (vs es : List Int) (pairs : List (Int × Int))
    (en : List Bool) (s : Int) : (buildGraph vs es pairs en s).source = s := by
  unfold buildGraph
  suffices h : ∀ (l : List ((Int × Int) × Int × Bool)) (g0 : PGraph),
      (l.foldl (fun g pe => addEdge g pe.1.1 pe.1.2 ⟨pe.2.1, pe.2.2⟩)
        g0).source = g0.source by
    rw [h, source_foldl_addNode]
  intro l
  induction l with
  | nil => intro g0; rfl
  | cons pe t ih =>
      intro g0
      rw [List.foldl_cons, ih, addEdge_source]

theorem hasPair_addEdge (g : PGraph) (u v a b : Int) (d : EdgeData) :
    HasPair (addEdge g u v d) a b
      ↔ HasPair g a b ∨ (a = u ∧ b = v) ∨ (a = v ∧ b = u) := by
  have hmm : ∀ (l : List (Int × EdgeData)) (x y : Int) (dz : EdgeData),
      (∃ dd, (y, dd) ∈ setNbr l x dz) ↔ (∃ dd, (y, dd) ∈ l) ∨ y = x := by
    intro l x y dz
    constructor
    · rintro ⟨dd, hdd⟩
      by_cases hyx : y = x
      · exact Or.inr hyx
      · exact Or.inl ⟨dd, (setNbr_mem_other hyx).mp hdd⟩
    · rintro (⟨dd, hdd⟩ | rfl)
      · by_cases hyx : y = x
        · exact ⟨dz, hyx ▸ setNbr_mem_self l x dz⟩
        · exact ⟨dd, (setNbr_mem_other hyx).mpr hdd⟩
      · exact ⟨dz, setNbr_mem_self l y dz⟩
  unfold HasPair
  by_cases hav : a = v
  · rw [hav, adjOf_addEdge_head, hmm]
    constructor
    · rintro (⟨dd, hdd⟩ | rfl)
      · exact Or.inl ⟨dd, hdd⟩
      · exact Or.inr (Or.inr ⟨rfl, rfl⟩)
    · rintro (⟨dd, hdd⟩ | ⟨rfl, rfl⟩ | ⟨_, rfl⟩)
      · exact Or.inl ⟨dd, hdd⟩
      · exact Or.inr rfl
      · exact Or.inr rfl
  · by_cases hau : a = u
    · have huv : u ≠ v := fun he => hav (hau.trans he)
      rw [hau, adjOf_addEdge_tail g d huv, hmm]
      constructor
      · rintro (⟨dd, hdd⟩ | rfl)
        · exact Or.inl ⟨dd, hdd⟩
        · exact Or.inr (Or.inl ⟨rfl, rfl⟩)
      · rintro (⟨dd, hdd⟩ | ⟨h1, h2⟩ | ⟨he, h2⟩)
        · exact Or.inl ⟨dd, hdd⟩
        · exact Or.inr h2
        · exact absurd he huv
    · rw [adjOf_addEdge_other g d hau hav]
      constructor
      · rintro ⟨dd, hdd⟩
        exact Or.inl ⟨dd, hdd⟩
      · rintro (⟨dd, hdd⟩ | ⟨rfl, rfl⟩ | ⟨rfl, rfl⟩)
        · exact ⟨dd, hdd⟩
        · exact absurd rfl hau
        · exact absurd rfl hav

theorem adjOf_foldl_addNode (vs : List Int) (g0 : PGraph) (a : Int) :
    adjOf (vs.foldl addNode g0) a = adjOf g0 a := by
  induction vs generalizing g0 with
  | nil => rfl
  | cons x t ih => rw [List.foldl_cons, ih, adjOf_addNode]

theorem hasPair_empty_foldl (vs : List Int) (s : Int) (a b : Int) :
    ¬ HasPair (vs.foldl addNode ⟨[], s⟩) a b := by
  rintro ⟨d, hd⟩
  rw [adjOf_foldl_addNode] at hd
  simp [adjOf] at hd

/-- The unordered edge pairs of the constructed graph are exactly the
supplied endpoint pairs. -/
theorem hasPair_buildGraph (vs es : List Int) (pairs : List (Int × Int))
    (en : List Bool) (s : Int) (hlen : es.length = pairs.length)
    (hlen2 : es.length = en.length) (a b : Int) :
    HasPair (buildGraph vs es pairs en s) a b
      ↔ (a, b) ∈ pairs ∨ (b, a) ∈ pairs := by
  unfold buildGraph
  have hmapfst : (pairs.zip (es.zip en)).map Prod.fst = pairs := by
    apply List.map_fst_zip
    rw [List.length_zip]
    omega
  have key : ∀ (l : List ((Int × Int) × Int × Bool)) (g0 : PGraph),
      HasPair (l.foldl
        (fun g pe => addEdge g pe.1.1 pe.1.2 ⟨pe.2.1, pe.2.2⟩) g0) a b
      ↔ HasPair g0 a b ∨ ∃ pe ∈ l, pe.1 = (a, b) ∨ pe.1 = (b, a) := by
    intro l
    induction l with
    | nil => intro g0; simp
    | cons pe t ih =>
        intro g0
        rw [List.foldl_cons, ih, hasPair_addEdge]
        constructor
        · rintro ((hg | ⟨h1, h2⟩ | ⟨h1, h2⟩) | ⟨qe, hqe, hq⟩)
          · exact Or.inl hg
          · exact Or.inr ⟨pe, List.mem_cons_self _ _,
              Or.inl (Prod.ext h1.symm h2.symm)⟩
          · exact Or.inr ⟨pe, List.mem_cons_self _ _,
              Or.inr (Prod.ext h2.symm h1.symm)⟩
          · exact Or.inr ⟨qe, List.mem_cons_of_mem _ hqe, hq⟩
        · rintro (hg | ⟨qe, hqe, hq⟩)
          · exact Or.inl (Or.inl hg)
          · rcases List.mem_cons.mp hqe with rfl | hqe
            · rcases hq with hq | hq
              · exact Or.inl (Or.inr (Or.inl
                  ⟨(congrArg Prod.fst hq).symm, (congrArg Prod.snd hq).symm⟩))
              · exact Or.inl (Or.inr (Or.inr
                  ⟨(congrArg Prod.snd hq).symm, (congrArg Prod.fst hq).symm⟩))
            · exact Or.inr ⟨qe, hqe, hq⟩
  rw [key]
  constructor
  · rintro (hg | ⟨pe, hpe, hq⟩)
    · exact absurd hg (hasPair_empty_foldl vs s a b)
    · have hp : pe.1 ∈ pairs := by
        rw [← hmapfst]
        exact List.mem_map.mpr ⟨pe, hpe, rfl⟩
      rcases hq with hq | hq
      · exact Or.inl (hq ▸ hp)
      · exact Or.inr (hq ▸ hp)
  · intro h
    have hget : ∀ p ∈ pairs, ∃ pe ∈ pairs.zip (es.zip en), pe.1 = p := by
      intro p hp
      rw [← hmapfst] at hp
      rcases List.mem_map.mp hp with ⟨pe, hpe, he⟩
      exact ⟨pe, hpe, he⟩
    rcases h with hp | hp
    · rcases hget _ hp with ⟨pe, hpe, he⟩
      exact Or.inr ⟨pe, hpe, Or.inl he⟩
    · rcases hget _ hp with ⟨pe, hpe, he⟩
      exact Or.inr ⟨pe, hpe, Or.inr he⟩

/-! ### The filtered subgraph represents enabled-edge reachability -/

theorem initCore_ok_inv {vs es : List Int} {pairs : List (Int × Int)}
    {en : List Bool} {s : Int} {g : PGraph}
    (h : initCore vs es pairs en s = .ok g) :
    g = buildGraph vs es pairs en s ∧ vs.Nodup ∧ es.Nodup ∧
    es.length = pairs.length ∧ (∀ p ∈ pairs, p.1 ∈ vs ∧ p.2 ∈ vs) ∧
    es.length = en.length ∧ s ∈ vs := by
  unfold initCore at h
  split at h
  · cases h
  · split at h
    · cases h
    · split at h
      · cases h
      · split at h
        · cases h
        · split at h
          · cases h
          · split at h
            · cases h
            · cases h
              rename_i h1 h2 h3 h4 h5 h6
              refine ⟨rfl, ?_, ?_, ?_, ?_, ?_, ?_⟩
              · by_contra hc
                exact h1 ((hasDuplicateIds_iff vs).mpr hc)
              · by_contra hc
                exact h2 ((hasDuplicateIds_iff es).mpr hc)
              · refine (hasSameLength_iff es pairs).mp ?_
                revert h3
                cases hb : hasSameLength es pairs <;> simp
              · refine (hasVertexIds_iff vs pairs).mp ?_
                revert h4
                cases hb : hasVertexIds vs pairs <;> simp
              · refine (hasSameLength_iff es en).mp ?_
                revert h5
                cases hb : hasSameLength es en <;> simp
              · refine (hasId_iff vs s).mp ?_
                revert h6
                cases hb : hasId vs s <;> simp

/-- Enabled adjacency of `g` matches the endpoint-pair list that
`filter_disabled_edges` feeds to the constructor. -/
theorem edgeRelEn_iff_enPair {g : PGraph} (hwf : WFgraph g) (a b : Int) :
    EdgeRelEn g a b
      ↔ ((a, b) ∈ ((edgesData g).filter
            (fun e => decide (e.2.2.enabled = true))).map (fun e => (e.1, e.2.1))
        ∨ (b, a) ∈ ((edgesData g).filter
            (fun e => decide (e.2.2.enabled = true))).map (fun e => (e.1, e.2.1))) := by
  constructor
  · rintro ⟨d, hd, hen⟩
    rcases edgesData_complete hwf hd with hh | hh
    · exact Or.inl (List.mem_map.mpr
        ⟨(a, b, d), List.mem_filter.mpr ⟨hh, by simp [hen]⟩, rfl⟩)
    · exact Or.inr (List.mem_map.mpr
        ⟨(b, a, d), List.mem_filter.mpr ⟨hh, by simp [hen]⟩, rfl⟩)
  · rintro (hm | hm)
    · rcases List.mem_map.mp hm with ⟨e, he, hee⟩
      obtain ⟨x, y, d⟩ := e
      have hx : x = a := congrArg Prod.fst hee
      have hy : y = b := congrArg Prod.snd hee
      subst hx; subst hy
      have hmem : (x, y, d) ∈ edgesData g := List.mem_of_mem_filter he
      have hen : d.enabled = true := by
        have := List.of_mem_filter he
        simpa using this
      exact ⟨d, edgesData_mem_adjOf hwf.1 hmem, hen⟩
    · rcases List.mem_map.mp hm with ⟨e, he, hee⟩
      obtain ⟨x, y, d⟩ := e
      have hx : x = b := congrArg Prod.fst hee
      have hy : y = a := congrArg Prod.snd hee
      subst hx; subst hy
      have hmem : (x, y, d) ∈ edgesData g := List.mem_of_mem_filter he
      have hen : d.enabled = true := by
        have := List.of_mem_filter he
        simpa using this
      exact ⟨d, edgesData_mem_adjOf_rev hwf hmem, hen⟩

/-- Structure of a successful `filter_disabled_edges` call. -/
theorem filterDisabledEdges_ok_inv {g f : PGraph}
    (h : filterDisabledEdges g = .ok f) :
    f = buildGraph (nodesList g)
        (((edgesData g).filter (fun e => decide (e.2.2.enabled = true))).map
          (fun e => e.2.2.eid))
        (((edgesData g).filter (fun e => decide (e.2.2.enabled = true))).map
          (fun e => (e.1, e.2.1)))
        (((edgesData g).filter (fun e => decide (e.2.2.enabled = true))).map
          (fun _ => true)) g.source ∧
    (nodesList g).Nodup ∧
    (∀ p ∈ ((edgesData g).filter (fun e => decide (e.2.2.enabled = true))).map
        (fun e => (e.1, e.2.1)), p.1 ∈ nodesList g ∧ p.2 ∈ nodesList g) ∧
    g.source ∈ nodesList g := by
  unfold filterDisabledEdges at h
  obtain ⟨h1, h2, h3, h4, h5, h6, h7⟩ := initCore_ok_inv h
  exact ⟨h1, h2, h5, h7⟩

/-- On a well-formed graph, the filtered subgraph's adjacency relation is
exactly the enabled-edge relation of the original. -/
theorem filter_edgeRel_iff {g f : PGraph} (hwf : WFgraph g)
    (h : filterDisabledEdges g = .ok f) (a b : Int) :
    EdgeRel f a b ↔ EdgeRelEn g a b := by
  obtain ⟨h1, _h2, _h3, _h4⟩ := filterDisabledEdges_ok_inv h
  have hrel : EdgeRel f a b ↔ HasPair f a b := by
    unfold EdgeRel HasPair
    constructor
    · intro hm
      rcases List.mem_map.mp hm with ⟨p, hp, rfl⟩
      exact ⟨p.2, by simpa using hp⟩
    · rintro ⟨d, hd⟩
      exact List.mem_map.mpr ⟨(b, d), hd, rfl⟩
  rw [hrel, h1, hasPair_buildGraph _ _ _ _ _ (by simp) (by simp),
    edgeRelEn_iff_enPair hwf a b]

theorem filter_nodes_eq {g f : PGraph} (h : filterDisabledEdges g = .ok f) :
    nodesList f = nodesList g := by
  obtain ⟨h1, h2, h3, _h4⟩ := filterDisabledEdges_ok_inv h
  rw [h1]
  exact nodesList_buildGraph h2 h3

theorem filter_source_eq {g f : PGraph} (h : filterDisabledEdges g = .ok f) :
    f.source = g.source := by
  obtain ⟨h1, _, _, _⟩ := filterDisabledEdges_ok_inv h
  rw [h1]
  exact source_buildGraph _ _ _ _ _

theorem filter_wf {g f : PGraph} (h : filterDisabledEdges g = .ok f) :
    WFgraph f := by
  obtain ⟨h1, _, _, _⟩ := filterDisabledEdges_ok_inv h
  rw [h1, WFgraph_iff_WFadj]
  exact WFadj_buildGraph _ _ _ _ _

/-- Reachability in the filtered subgraph is enabled-edge reachability in
the original graph. -/
theorem filter_reach_iff {g f : PGraph} (hwf : WFgraph g)
    (h : filterDisabledEdges g = .ok f) (a b : Int) :
    Reach f a b ↔ ReachEn g a b := by
  constructor
  · intro hr
    induction hr with
    | refl => exact ReachEn.refl _
    | step hr he ih =>
        refine ReachEn.step ih ?_
        have : EdgeRel f _ _ := he
        exact (filter_edgeRel_iff hwf h _ _).mp this
  · intro hr
    induction hr with
    | refl => exact Reach.refl _
    | step hr he ih =>
        refine Reach.step ih ?_
        have := (filter_edgeRel_iff hwf h _ _).mpr he
        exact this

theorem mathConnected_iff_cover {g : PGraph} (hwf : WFgraph g) {v0 : Int}
    {rest : List Int} (h : nodesList g = v0 :: rest) :
    MathConnected g ↔ ∀ w ∈ nodesList g, Reach g v0 w := by
  have hv0 : v0 ∈ nodesList g := by rw [h]; simp
  constructor
  · intro hc w hw
    exact hc v0 hv0 w hw
  · intro hcov u hu w hw
    exact Reach_trans (Reach_symm hwf (hcov u hu)) (hcov w hw)

theorem mathConnected_filter_iff {g f : PGraph} (hwf : WFgraph g)
    (h : filterDisabledEdges g = .ok f) :
    MathConnected f ↔ EnConnected g := by
  unfold MathConnected EnConnected
  rw [filter_nodes_eq h]
  constructor
  · intro hc u hu w hw
    exact (filter_reach_iff hwf h u w).mp (hc u hu w hw)
  · intro hc u hu w hw
    exact (filter_reach_iff hwf h u w).mpr (hc u hu w hw)

/-- `nx.is_connected` on the filtered subgraph decides exactly whether the
enabled-edge subgraph of `g` is connected. -/
theorem isConnectedE_iff_enConnected {g f : PGraph} (hwf : WFgraph g)
    (h : filterDisabledEdges g = .ok f) :
    ∃ b, isConnectedE f = .ok b ∧ (b = true ↔ EnConnected g) := by
  have hsrc : g.source ∈ nodesList g := (filterDisabledEdges_ok_inv h).2.2.2
  have hnodes : nodesList f = nodesList g := filter_nodes_eq h
  obtain ⟨v0, rest, hn⟩ : ∃ v0 rest, nodesList g = v0 :: rest := by
    cases hc : nodesList g with
    | nil => rw [hc] at hsrc; simp at hsrc
    | cons v0 rest => exact ⟨v0, rest, rfl⟩
  have hcons : nodesList f = v0 :: rest := hnodes.trans hn
  refine ⟨decide ((reachList f v0).length = (nodesList f).length), ?_, ?_⟩
  · unfold isConnectedE
    rw [hcons]
  · rw [decide_eq_true_eq, connected_count_iff (filter_wf h) hcons,
      ← mathConnected_iff_cover (filter_wf h) hcons,
      mathConnected_filter_iff hwf h]

/-! ### Each stored edge is reported exactly once -/

theorem normPair_eq_iff {a b c d : Int} :
    normPair a b = normPair c d ↔ (a = c ∧ b = d) ∨ (a = d ∧ b = c) := by
  unfold normPair
  split_ifs <;> simp [Prod.mk.injEq] <;> omega

theorem edgesAux_head_not_seen :
    ∀ (adj : List (Int × List (Int × EdgeData))) (seen : List Int)
      (x : Int × Int × EdgeData), x ∈ edgesAux adj seen → x.2.1 ∉ seen := by
  intro adj
  induction adj with
  | nil => intro seen x hx; simp [edgesAux] at hx
  | cons p t ih =>
      intro seen x hx
      obtain ⟨n, nbrs⟩ := p
      rcases List.mem_append.mp hx with hx | hx
      · unfold edgesFrom at hx
        rcases List.mem_filterMap.mp hx with ⟨q, hq, he⟩
        by_cases hs : q.1 ∈ seen
        · rw [if_pos hs] at he; cases he
        · rw [if_neg hs] at he
          injection he with h1
          rw [← h1]
          exact hs
      · intro hc
        exact ih (n :: seen) x hx (List.mem_cons_of_mem _ hc)

theorem edgesAux_tail_key :
    ∀ (adj : List (Int × List (Int × EdgeData))) (seen : List Int)
      (x : Int × Int × EdgeData), x ∈ edgesAux adj seen →
      x.1 ∈ adj.map Prod.fst := by
  intro adj seen x hx
  obtain ⟨u, v, d⟩ := x
  obtain ⟨nbrs, hmem, _⟩ := edgesAux_mem hx
  exact List.mem_map.mpr ⟨(u, nbrs), hmem, rfl⟩

theorem edgesFrom_norm_nodup {nbrs : List (Int × EdgeData)} {n : Int}
    {seen : List Int} (hnd : (nbrs.map Prod.fst).Nodup) :
    ((edgesFrom nbrs n seen).map (fun e => normPair e.1 e.2.1)).Nodup := by
  induction nbrs with
  | nil => simp [edgesFrom]
  | cons q t ih =>
      obtain ⟨w, dw⟩ := q
      simp only [List.map_cons, List.nodup_cons] at hnd
      unfold edgesFrom
      rw [List.filterMap_cons]
      by_cases hs : w ∈ seen
      · rw [if_pos hs]
        exact ih hnd.2
      · rw [if_neg hs]
        rw [List.map_cons, List.nodup_cons]
        refine ⟨?_, ih hnd.2⟩
        intro hc
        rcases List.mem_map.mp hc with ⟨e, he, hee⟩
        rcases List.mem_filterMap.mp he with ⟨q2, hq2, he2⟩
        by_cases hs2 : q2.1 ∈ seen
        · rw [if_pos hs2] at he2; cases he2
        · rw [if_neg hs2] at he2
          injection he2 with h9
          rw [← h9] at hee
          dsimp only at hee
          rcases normPair_eq_iff.mp hee.symm with ⟨h1, h2⟩ | ⟨h1, h2⟩
          · refine hnd.1 ?_
            rw [h2]
            exact List.mem_map.mpr ⟨q2, hq2, rfl⟩
          · have hq2e : q2 = (w, q2.2) := by
              refine Prod.ext ?_ rfl
              exact h1.symm.trans h2.symm
            refine hnd.1 ?_
            exact List.mem_map.mpr ⟨(w, q2.2), hq2e ▸ hq2, rfl⟩

theorem edgesAux_norm_nodup :
    ∀ (adj : List (Int × List (Int × EdgeData))) (seen : List Int),
      (adj.map Prod.fst).Nodup →
      (∀ e ∈ adj, (e.2.map Prod.fst).Nodup) →
      ((edgesAux adj seen).map (fun e => normPair e.1 e.2.1)).Nodup := by
  intro adj
  induction adj with
  | nil => intro seen _ _; simp [edgesAux]
  | cons p t ih =>
      intro seen hk hn
      obtain ⟨n, nbrs⟩ := p
      simp only [List.map_cons, List.nodup_cons] at hk
      rw [edgesAux, List.map_append, List.nodup_append]
      refine ⟨edgesFrom_norm_nodup (hn (n, nbrs) (List.mem_cons_self _ _)),
        ih (n :: seen) hk.2 (fun e he => hn e (List.mem_cons_of_mem _ he)), ?_⟩
      intro x hx hy
      rcases List.mem_map.mp hx with ⟨e1, he1, hx1⟩
      rcases List.mem_map.mp hy with ⟨e2, he2, hy2⟩
      have hc : normPair e1.1 e1.2.1 = normPair e2.1 e2.2.1 := by
        rw [hx1, hy2]
      have ht1 : e1.1 = n := by
        unfold edgesFrom at he1
        rcases List.mem_filterMap.mp he1 with ⟨q, hq, he⟩
        by_cases hs : q.1 ∈ seen
        · rw [if_pos hs] at he; cases he
        · rw [if_neg hs] at he
          injection he with h9
          rw [← h9]
      have ht2 : e2.1 ∈ t.map Prod.fst := edgesAux_tail_key t (n :: seen) e2 he2
      have hh2 : e2.2.1 ∉ (n :: seen) := edgesAux_head_not_seen t (n :: seen) e2 he2
      rcases normPair_eq_iff.mp hc with ⟨h1, h2⟩ | ⟨h1, h2⟩
      · have hne : n = e2.1 := ht1 ▸ h1
        refine hk.1 ?_
        rw [hne]
        exact ht2
      · have hne : n = e2.2.1 := ht1 ▸ h1
        refine hh2 ?_
        rw [← hne]
        exact List.mem_cons_self _ _

/-- **E3**: on a well-formed graph, each unordered pair is reported at most
once by `G.edges(data=True)`. -/
theorem edgesData_norm_nodup {g : PGraph} (hwf : WFgraph g) :
    ((edgesData g).map (fun e => normPair e.1 e.2.1)).Nodup :=
  edgesAux_norm_nodup g.adj [] hwf.1 hwf.2.1

/-! ### Structure of the graph after toggling an edge -/

theorem addEdge_eq_update {g : PGraph} {u v : Int} (d : EdgeData)
    (hu : u ∈ nodesList g) (hv : v ∈ nodesList g) :
    addEdge g u v d
      = ⟨updateAdjEntry (updateAdjEntry g.adj u v d) v u d, g.source⟩ := by
  unfold addEdge
  have h1 : addNode g u = g := by unfold addNode; rw [if_pos hu]
  have h2 : addNode (addNode g u) v = g := by
    rw [h1]; unfold addNode; rw [if_pos hv]
  rw [h2]

theorem setEdge_ok_inv {g g2 : PGraph} {eid : Int} {st : Bool}
    (hwf : WFgraph g) (h : setEdgeEnabledStatus g eid st = .ok g2) :
    ∃ u v d, findEdge g eid = some (u, v, d) ∧
      ¬ (d.enabled = st ∧ st = false) ∧ g2 = addEdge g u v ⟨d.eid, st⟩ := by
  cases hf : findEdge g eid with
  | none =>
      have hall : ∀ e ∈ edgesData g, e.2.2.eid ≠ eid := by
        intro e he hc
        have := List.find?_eq_none.mp hf e he
        simp [hc] at this
      rw [setEdgeEnabledStatus, setEdgeAux_not_found hall] at h
      cases h
  | some x =>
      obtain ⟨u, v, d⟩ := x
      rw [setEdgeEnabledStatus, setEdgeAux_found hf] at h
      by_cases hc : d.enabled = st ∧ st = false
      · rw [if_pos hc] at h; cases h
      · rw [if_neg hc] at h
        injection h with h2
        have hmem : (u, v, d) ∈ edgesData g := List.mem_of_find?_eq_some hf
        have hu : u ∈ nodesList g := edgesData_tail_node hmem
        have hv : v ∈ nodesList g := edgesData_head_node hwf hmem
        exact ⟨u, v, d, rfl, hc, by rw [addEdge_eq_update _ hu hv, ← h2]⟩

theorem setEdge_preserves {g g2 : PGraph} {eid : Int} {st : Bool}
    (hwf : WFgraph g) (h : setEdgeEnabledStatus g eid st = .ok g2) :
    WFgraph g2 ∧ nodesList g2 = nodesList g ∧ g2.source = g.source := by
  obtain ⟨u, v, d, hf, _hc, rfl⟩ := setEdge_ok_inv hwf h
  have hmem : (u, v, d) ∈ edgesData g := List.mem_of_find?_eq_some hf
  have hu : u ∈ nodesList g := edgesData_tail_node hmem
  have hv : v ∈ nodesList g := edgesData_head_node hwf hmem
  refine ⟨?_, nodesList_addEdge_mem _ hu hv, addEdge_source g u v _⟩
  rw [WFgraph_iff_WFadj]
  exact WFadj_addEdge ((WFgraph_iff_WFadj g).mp hwf) u v _

theorem nbr_mem_unique {l : List (Int × EdgeData)} {x : Int}
    {d1 d2 : EdgeData} (hnd : (l.map Prod.fst).Nodup)
    (h1 : (x, d1) ∈ l) (h2 : (x, d2) ∈ l) : d1 = d2 := by
  induction l with
  | nil => simp at h1
  | cons p t ih =>
      obtain ⟨w, dw⟩ := p
      simp only [List.map_cons, List.nodup_cons] at hnd
      rcases List.mem_cons.mp h1 with he1 | he1 <;>
        rcases List.mem_cons.mp h2 with he2 | he2
      · injection he1 with hx1 hd1
        injection he2 with hx2 hd2
        rw [hd1, hd2]
      · injection he1 with hx1 hd1
        exact absurd (List.mem_map.mpr ⟨(x, d2), he2, by rw [hx1]⟩) hnd.1
      · injection he2 with hx2 hd2
        exact absurd (List.mem_map.mpr ⟨(x, d1), he1, by rw [hx2]⟩) hnd.1
      · exact ih hnd.2 he1 he2

/-- The adjacency after `add_edge u v d` at the data level:
either the freshly written `{u,v}` slot, or an untouched slot of `g`. -/
theorem edgeAt_addEdge_iff {g : PGraph} (hwf : WFgraph g) (u v : Int)
    (d : EdgeData) (a b : Int) (dd : EdgeData) :
    EdgeAt (addEdge g u v d) a b dd
      ↔ (normPair a b = normPair u v ∧ dd = d)
        ∨ (normPair a b ≠ normPair u v ∧ EdgeAt g a b dd) := by
  have hadj := (WFgraph_iff_WFadj g).mp hwf
  unfold EdgeAt
  by_cases hav : a = v
  · rw [hav, adjOf_addEdge_head]
    by_cases hbu : b = u
    · rw [hbu, setNbr_mem_self_iff (hadj.2.1 v)]
      constructor
      · intro hdd
        exact Or.inl ⟨normPair_eq_iff.mpr (Or.inr ⟨rfl, rfl⟩), hdd⟩
      · rintro (⟨_, hdd⟩ | ⟨hne, _⟩)
        · exact hdd
        · exact absurd (normPair_eq_iff.mpr (Or.inr ⟨rfl, rfl⟩)) hne
    · rw [setNbr_mem_other hbu]
      constructor
      · intro hdd
        refine Or.inr ⟨?_, hdd⟩
        intro hc
        rcases normPair_eq_iff.mp hc with ⟨h1, h2⟩ | ⟨h1, h2⟩
        · rw [h1] at h2
          exact hbu h2
        · exact hbu h2
      · rintro (⟨hne, hdd⟩ | ⟨_, hdd⟩)
        · rcases normPair_eq_iff.mp hne with ⟨h1, h2⟩ | ⟨h1, h2⟩
          · exact absurd (h2.trans h1) hbu
          · exact absurd h2 hbu
        · exact hdd
  · by_cases hau : a = u
    · have huv : u ≠ v := fun he => hav (hau.trans he)
      rw [hau, adjOf_addEdge_tail g d huv]
      by_cases hbv : b = v
      · rw [hbv, setNbr_mem_self_iff (hadj.2.1 u)]
        constructor
        · intro hdd
          exact Or.inl ⟨normPair_eq_iff.mpr (Or.inl ⟨rfl, rfl⟩), hdd⟩
        · rintro (⟨_, hdd⟩ | ⟨hne, _⟩)
          · exact hdd
          · exact absurd (normPair_eq_iff.mpr (Or.inl ⟨rfl, rfl⟩)) hne
      · rw [setNbr_mem_other hbv]
        constructor
        · intro hdd
          refine Or.inr ⟨?_, hdd⟩
          intro hc
          rcases normPair_eq_iff.mp hc with ⟨h1, h2⟩ | ⟨h1, h2⟩
          · exact hbv h2
          · exact huv h1
        · rintro (⟨hne, hdd⟩ | ⟨_, hdd⟩)
          · rcases normPair_eq_iff.mp hne with ⟨h1, h2⟩ | ⟨h1, h2⟩
            · exact absurd h2 hbv
            · exact absurd h1 huv
          · exact hdd
    · rw [adjOf_addEdge_other g d hau hav]
      constructor
      · intro hdd
        refine Or.inr ⟨?_, hdd⟩
        intro hc
        rcases normPair_eq_iff.mp hc with ⟨h1, h2⟩ | ⟨h1, h2⟩
        · exact hau h1
        · exact hav h1
      · rintro (⟨hne, hdd⟩ | ⟨_, hdd⟩)
        · rcases normPair_eq_iff.mp hne with ⟨h1, h2⟩ | ⟨h1, h2⟩
          · exact absurd h1 hau
          · exact absurd h1 hav
        · exact hdd

theorem normPair_comm (a b : Int) : normPair a b = normPair b a := by
  unfold normPair
  split_ifs <;> simp [Prod.mk.injEq] <;> omega

theorem eid_inj_on_edgesData {g : PGraph} (hg : GoodGraph g)
    {e1 e2 : Int × Int × EdgeData} (h1 : e1 ∈ edgesData g)
    (h2 : e2 ∈ edgesData g) (hid : e1.2.2.eid = e2.2.2.eid) : e1 = e2 :=
  List.inj_on_of_nodup_map hg.2 h1 h2 hid

theorem norm_inj_on_edgesData {g : PGraph} (hwf : WFgraph g)
    {e1 e2 : Int × Int × EdgeData} (h1 : e1 ∈ edgesData g)
    (h2 : e2 ∈ edgesData g)
    (hn : normPair e1.1 e1.2.1 = normPair e2.1 e2.2.1) : e1 = e2 :=
  List.inj_on_of_nodup_map (edgesData_norm_nodup hwf) h1 h2 hn

/-- In a graph with pairwise-distinct edge ids, two stored edges carrying
the same id join the same unordered pair with the same data. -/
theorem edgeAt_id_unique {g : PGraph} (hg : GoodGraph g)
    {a1 b1 a2 b2 : Int} {dd1 dd2 : EdgeData}
    (h1 : EdgeAt g a1 b1 dd1) (h2 : EdgeAt g a2 b2 dd2)
    (hid : dd1.eid = dd2.eid) :
    normPair a1 b1 = normPair a2 b2 ∧ dd1 = dd2 := by
  rcases edgesData_complete hg.1 h1 with hr1 | hr1 <;>
    rcases edgesData_complete hg.1 h2 with hr2 | hr2
  · have heq := eid_inj_on_edgesData hg hr1 hr2 hid
    injection heq with hx hyz
    injection hyz with hy hz
    rw [hx, hy, hz]
    exact ⟨rfl, rfl⟩
  · have heq := eid_inj_on_edgesData hg hr1 hr2 hid
    injection heq with hx hyz
    injection hyz with hy hz
    rw [hx, hy, hz, normPair_comm]
    exact ⟨rfl, rfl⟩
  · have heq := eid_inj_on_edgesData hg hr1 hr2 hid
    injection heq with hx hyz
    injection hyz with hy hz
    rw [hy, hx, normPair_comm]
    exact ⟨rfl, hz⟩
  · have heq := eid_inj_on_edgesData hg hr1 hr2 hid
    injection heq with hx hyz
    injection hyz with hy hz
    rw [hy, hx]
    exact ⟨rfl, hz⟩

/-- Toggling an edge keeps the graph well-formed with distinct edge ids,
and does not change the vertex set or the source. -/
theorem setEdge_goodPreserves {g g2 : PGraph} {eid0 : Int} {st : Bool}
    (hg : GoodGraph g) (h : setEdgeEnabledStatus g eid0 st = .ok g2) :
    GoodGraph g2 ∧ nodesList g2 = nodesList g ∧ g2.source = g.source := by
  obtain ⟨hwf2, hnodes, hsrc⟩ := setEdge_preserves hg.1 h
  obtain ⟨u, v, d, hf, hcnd, heq⟩ := setEdge_ok_inv hg.1 h
  have hq : (u, v, d) ∈ edgesData g := List.mem_of_find?_eq_some hf
  have hqA : EdgeAt g u v d := edgesData_mem_adjOf hg.1.1 hq
  subst heq
  refine ⟨⟨hwf2, ?_⟩, hnodes, hsrc⟩
  refine List.Nodup.map_on ?_ ((edgesData_norm_nodup hwf2).of_map)
  intro e1 he1 e2 he2 hid
  obtain ⟨a1, b1, dd1⟩ := e1
  obtain ⟨a2, b2, dd2⟩ := e2
  simp only at hid
  have hA1 : EdgeAt (addEdge g u v ⟨d.eid, st⟩) a1 b1 dd1 :=
    edgesData_mem_adjOf hwf2.1 he1
  have hA2 : EdgeAt (addEdge g u v ⟨d.eid, st⟩) a2 b2 dd2 :=
    edgesData_mem_adjOf hwf2.1 he2
  rcases (edgeAt_addEdge_iff hg.1 u v _ a1 b1 dd1).mp hA1 with
      ⟨hn1, hd1⟩ | ⟨hn1, hE1⟩ <;>
    rcases (edgeAt_addEdge_iff hg.1 u v _ a2 b2 dd2).mp hA2 with
      ⟨hn2, hd2⟩ | ⟨hn2, hE2⟩
  · exact norm_inj_on_edgesData hwf2 he1 he2 (by rw [hn1, hn2])
  · have hids : dd2.eid = d.eid := by rw [← hid, hd1]
    exact absurd (edgeAt_id_unique hg hE2 hqA hids).1 hn2
  · have hids : dd1.eid = d.eid := by rw [hid, hd2]
    exact absurd (edgeAt_id_unique hg hE1 hqA hids).1 hn1
  · exact norm_inj_on_edgesData hwf2 he1 he2 (edgeAt_id_unique hg hE1 hE2 hid).1

/-- Enabling an edge never raises: the already-disabled guard only fires
when the requested status is `False`. -/
theorem setEdge_enable_ok {gc : PGraph} {c : Int}
    {x : Int × Int × EdgeData} (hx : findEdge gc c = some x) :
    ∃ tg, setEdgeEnabledStatus gc c true = .ok tg := by
  obtain ⟨u, v, d⟩ := x
  rw [setEdgeEnabledStatus, setEdgeAux_found hx, if_neg (by simp)]
  exact ⟨_, rfl⟩

/-- A disabled edge of the original graph is still present (hence findable
by id) in the copy on which the queried edge has been disabled. -/
theorem candidate_present {g gc : PGraph} {eid0 : Int}
    (hg : GoodGraph g) (hset : setEdgeEnabledStatus g eid0 false = .ok gc)
    {e : Int × Int × EdgeData} (he : e ∈ edgesData g)
    (hdis : e.2.2.enabled = false) :
    ∃ x, findEdge gc e.2.2.eid = some x := by
  obtain ⟨u0, v0, d0, hf0, hcnd0, heq⟩ := setEdge_ok_inv hg.1 hset
  have hq0 : (u0, v0, d0) ∈ edgesData g := List.mem_of_find?_eq_some hf0
  have hd0en : d0.enabled = true := by
    rcases Bool.eq_false_or_eq_true d0.enabled with hb | hb
    · exact hb
    · exact absurd ⟨hb, rfl⟩ hcnd0
  obtain ⟨a, b, dd⟩ := e
  have hA : EdgeAt g a b dd := edgesData_mem_adjOf hg.1.1 he
  have hnorm : normPair a b ≠ normPair u0 v0 := by
    intro hc
    have := norm_inj_on_edgesData hg.1 he hq0 hc
    have hdd : dd = d0 := congrArg (fun e => e.2.2) this
    rw [hdd, hd0en] at hdis
    cases hdis
  have hwf2 : WFgraph gc := by
    rw [heq, WFgraph_iff_WFadj]
    exact WFadj_addEdge ((WFgraph_iff_WFadj g).mp hg.1) u0 v0 _
  have hA2 : EdgeAt gc a b dd := by
    rw [heq]
    exact (edgeAt_addEdge_iff hg.1 u0 v0 _ a b dd).mpr (Or.inr ⟨hnorm, hA⟩)
  have hrep := edgesData_complete hwf2 hA2
  have hex : ∃ r ∈ edgesData gc, decide (r.2.2.eid = dd.eid) = true := by
    rcases hrep with hr | hr
    · exact ⟨(a, b, dd), hr, by simp⟩
    · exact ⟨(b, a, dd), hr, by simp⟩
  have := List.find?_isSome.mpr hex
  exact Option.isSome_iff_exists.mp this

/-- The candidate loop of `find_alternative_edges`, characterised: it
succeeds, and returns exactly the ids of the disabled entries of the
scanned list whose single re-enabling on the copy yields a connected
enabled-edge subgraph. -/
theorem faeLoop_spec {gc : PGraph} (hgc : GoodGraph gc)
    (hs : gc.source ∈ nodesList gc) :
    ∀ l : List (Int × Int × EdgeData),
      (∀ e ∈ l, e.2.2.enabled = false → ∃ x, findEdge gc e.2.2.eid = some x) →
      ∃ res, faeLoop gc l = .ok res ∧
        ∀ c, c ∈ res ↔ ∃ e ∈ l, e.2.2.enabled = false ∧ e.2.2.eid = c ∧
          ∃ tg, setEdgeEnabledStatus gc c true = .ok tg ∧ EnConnected tg := by
  intro l
  induction l with
  | nil =>
      intro _
      refine ⟨[], rfl, ?_⟩
      intro c
      simp
  | cons e t ih =>
      intro hpres
      obtain ⟨u, v, d⟩ := e
      obtain ⟨rest, hrest, hiff⟩ :=
        ih (fun e he hd => hpres e (List.mem_cons_of_mem _ he) hd)
      by_cases hd : d.enabled = false
      · obtain ⟨x, hx⟩ := hpres (u, v, d) (List.mem_cons_self _ _) hd
        obtain ⟨tg, htg⟩ := setEdge_enable_ok hx
        obtain ⟨hgood, hnodes, hsrc⟩ := setEdge_goodPreserves hgc htg
        have htgs : tg.source ∈ nodesList tg := by rw [hsrc, hnodes]; exact hs
        have hfil := filterDisabledEdges_ok hgood htgs
        obtain ⟨b, hconn, hb⟩ := isConnectedE_iff_enConnected hgood.1 hfil
        have hrun : faeLoop gc ((u, v, d) :: t)
            = if b = true then Except.ok (d.eid :: rest)
              else Except.ok rest := by
          rw [faeLoop, if_pos hd]
          simp only [htg, hfil, hconn, hrest]
        cases b with
        | true =>
            refine ⟨d.eid :: rest, by rw [hrun, if_pos rfl], ?_⟩
            intro c
            constructor
            · intro hc
              rcases List.mem_cons.mp hc with rfl | hcr
              · exact ⟨(u, v, d), List.mem_cons_self _ _, hd, rfl,
                  tg, htg, hb.mp rfl⟩
              · obtain ⟨e, he, h1, h2, h3⟩ := (hiff c).mp hcr
                exact ⟨e, List.mem_cons_of_mem _ he, h1, h2, h3⟩
            · rintro ⟨e, he, h1, h2, h3⟩
              rcases List.mem_cons.mp he with rfl | he'
              · rw [← h2]
                exact List.mem_cons_self _ _
              · exact List.mem_cons_of_mem _ ((hiff c).mpr ⟨e, he', h1, h2, h3⟩)
        | false =>
            refine ⟨rest, by rw [hrun, if_neg (by simp)], ?_⟩
            intro c
            rw [hiff c]
            constructor
            · rintro ⟨e, he, h1, h2, h3⟩
              exact ⟨e, List.mem_cons_of_mem _ he, h1, h2, h3⟩
            · rintro ⟨e, he, h1, h2, h3⟩
              rcases List.mem_cons.mp he with rfl | he'
              · obtain ⟨tg2, htg2, hcon2⟩ := h3
                rw [← h2, htg] at htg2
                injection htg2 with htg2e
                rw [← htg2e] at hcon2
                exact absurd (hb.mpr hcon2) (by simp)
              · exact ⟨e, he', h1, h2, h3⟩
      · refine ⟨rest, ?_, ?_⟩
        · rw [faeLoop, if_neg hd]
          exact hrest
        · intro c
          rw [hiff c]
          constructor
          · rintro ⟨e, he, h1, h2, h3⟩
            exact ⟨e, List.mem_cons_of_mem _ he, h1, h2, h3⟩
          · rintro ⟨e, he, h1, h2, h3⟩
            rcases List.mem_cons.mp he with rfl | he'
            · exact absurd h1 hd
            · exact ⟨e, he', h1, h2, h3⟩

/-- **C3** (counterexample): the claim promises that every returned
candidate yields a connected *and not cyclic* enabled subgraph, but
`find_alternative_edges` never checks for cycles.  On the 4-vertex path
0-1-2-3 (edges 1,2,3 enabled; 4=(0,2), 5=(1,3) disabled), after enabling
edge 4 the query for edge 1 returns `[5]`, yet disabling 1 and enabling 5
leaves the enabled subgraph connected *and* cyclic (its component has as
many edges as vertices). -/
theorem c3_alternative_edges_counterexample :
    ∃ g1 g3 res gc tg ftg,
      gpInit [0, 1, 2, 3] [1, 2, 3, 4, 5]
          [(0, 1), (1, 2), (2, 3), (0, 2), (1, 3)]
          [true, true, true, false, false] 0 false = .ok g1 ∧
      setEdgeEnabledStatus g1 4 true = .ok g3 ∧
      isEdgeEnabled g3 1 = .ok true ∧
      findAlternativeEdges g3 1 = .ok res ∧
      (5 : Int) ∈ res ∧
      setEdgeEnabledStatus g3 1 false = .ok gc ∧
      setEdgeEnabledStatus gc 5 true = .ok tg ∧
      filterDisabledEdges tg = .ok ftg ∧
      isConnectedE ftg = .ok true ∧
      CyclicSomewhere ftg := by
  refine ⟨_, _, [5], _, _, _, rfl, rfl, rfl, rfl, ?_, rfl, rfl, rfl, rfl, ?_⟩
  · exact List.mem_singleton.mpr rfl
  · exact ⟨0, by decide, by show compVertCount _ 0 ≤ compEdgeCount _ 0; decide⟩

/-- **C3** (amended): on a well-formed graph with distinct edge ids and a
valid source, `find_alternative_edges` raises the already-disabled error
when the queried edge is found disabled; on success the result never
contains the queried id, and contains exactly those ids that belong to a
disabled edge of the original graph whose single re-enabling — after
disabling the queried edge on the copy — yields a *connected* enabled-edge
subgraph (no cycle condition is imposed). -/
theorem c3_alternative_edges_characterized (g : PGraph) (eid0 : Int)
    (hg : GoodGraph g) (hs : g.source ∈ nodesList g) :
    (∀ u v d, findEdge g eid0 = some (u, v, d) → d.enabled = false →
      findAlternativeEdges g eid0
        = .error (.edgeAlreadyDisabled
            ("The chosen edge " ++ toString eid0 ++ " is already disabled."))) ∧
    (∀ res, findAlternativeEdges g eid0 = .ok res →
      eid0 ∉ res ∧
      ∀ c, c ∈ res ↔ ∃ e ∈ edgesData g,
        e.2.2.enabled = false ∧ e.2.2.eid = c ∧
        ∃ gc tg, setEdgeEnabledStatus g eid0 false = .ok gc ∧
          setEdgeEnabledStatus gc c true = .ok tg ∧ EnConnected tg) := by
  constructor
  · intro u v d hf hdis
    have hset : setEdgeEnabledStatus g eid0 false
        = .error (.edgeAlreadyDisabled
            ("The chosen edge " ++ toString eid0 ++ " is already disabled.")) := by
      rw [setEdgeEnabledStatus, setEdgeAux_found hf, if_pos ⟨hdis, rfl⟩]
    simp only [findAlternativeEdges, hset]
  · intro res hres
    cases hset : setEdgeEnabledStatus g eid0 false with
    | error err =>
        simp only [findAlternativeEdges, hset] at hres
        cases hres
    | ok gc =>
        simp only [findAlternativeEdges, hset] at hres
        obtain ⟨u0, v0, d0, hf0, hcnd0, heq⟩ := setEdge_ok_inv hg.1 hset
        have hq0 : (u0, v0, d0) ∈ edgesData g := List.mem_of_find?_eq_some hf0
        have hid0 : d0.eid = eid0 := by
          have := List.find?_some hf0
          simpa using this
        have hd0en : d0.enabled = true := by
          rcases Bool.eq_false_or_eq_true d0.enabled with hb | hb
          · exact hb
          · exact absurd ⟨hb, rfl⟩ hcnd0
        obtain ⟨hgcGood, hgcNodes, hgcSrc⟩ := setEdge_goodPreserves hg hset
        have hgcs : gc.source ∈ nodesList gc := by
          rw [hgcSrc, hgcNodes]; exact hs
        obtain ⟨res2, hres2, hiff⟩ := faeLoop_spec hgcGood hgcs (edgesData g)
          (fun e he hd => candidate_present hg hset he hd)
        rw [hres2] at hres
        injection hres with hresE
        subst hresE
        constructor
        · intro hmem
          obtain ⟨e, he, hdis, hide, _⟩ := (hiff eid0).mp hmem
          have hee : e = (u0, v0, d0) := eid_inj_on_edgesData hg he hq0
            (by show e.2.2.eid = d0.eid; rw [hide, hid0])
          rw [hee] at hdis
          have hdis' : d0.enabled = false := hdis
          rw [hd0en] at hdis'
          exact Bool.noConfusion hdis'
        · intro c
          rw [hiff c]
          constructor
          · rintro ⟨e, he, h1, h2, tg, htg, hcon⟩
            exact ⟨e, he, h1, h2, gc, tg, rfl, htg, hcon⟩
          · rintro ⟨e, he, h1, h2, gc2, tg, hset2, htg, hcon⟩
            injection hset2 with hgc2
            subst hgc2
            exact ⟨e, he, h1, h2, tg, htg, hcon⟩

/-- Witness for the amended C3 theorem on the §8 scenario graph. -/
theorem c3_alternative_edges_characterized_witness :
    ∃ res, findAlternativeEdges gC6 3 = .ok res ∧ (3 : Int) ∉ res :=
  ⟨[7, 8], rfl,
    ((c3_alternative_edges_characterized gC6 3 (by decide) (by decide)).2
      [7, 8] rfl).1⟩

/-! ### The `edge_dfs` machine: iterator-table lemmas -/

theorem itersLookup_eq_none_iff (it : List (Int × List (Int × EdgeData)))
    (u : Int) : itersLookup it u = none ↔ u ∉ it.map Prod.fst := by
  unfold itersLookup
  constructor
  · intro h hmem
    rcases List.mem_map.mp hmem with ⟨p, hp, hpu⟩
    cases hf : it.find? (fun e => decide (e.1 = u)) with
    | none =>
        have := List.find?_eq_none.mp hf p hp
        simp [hpu] at this
    | some e => rw [hf] at h; cases h
  · intro hmem
    cases hf : it.find? (fun e => decide (e.1 = u)) with
    | none => rfl
    | some e =>
        exfalso
        have he := List.mem_of_find?_eq_some hf
        have heu : e.1 = u := by
          have := List.find?_some hf
          simpa using this
        exact hmem (List.mem_map.mpr ⟨e, he, heu⟩)

theorem itersLookup_isSome {it : List (Int × List (Int × EdgeData))} {u : Int}
    (h : u ∈ it.map Prod.fst) : ∃ l, itersLookup it u = some l := by
  cases hl : itersLookup it u with
  | none => exact absurd h ((itersLookup_eq_none_iff it u).mp hl)
  | some l => exact ⟨l, rfl⟩

theorem itersLookup_mem {it : List (Int × List (Int × EdgeData))} {u : Int}
    {l : List (Int × EdgeData)} (h : itersLookup it u = some l) :
    (u, l) ∈ it := by
  unfold itersLookup at h
  cases hf : it.find? (fun e => decide (e.1 = u)) with
  | none => rw [hf] at h; cases h
  | some e =>
      rw [hf] at h
      injection h with h2
      have he := List.mem_of_find?_eq_some hf
      have heu : e.1 = u := by
        have := List.find?_some hf
        simpa using this
      have hel : e = (u, l) := by
        obtain ⟨e1, e2⟩ := e
        dsimp only at heu h2
        rw [heu, h2]
      rw [← hel]
      exact he

theorem iters_entry_unique {it : List (Int × List (Int × EdgeData))} {u : Int}
    {l1 l2 : List (Int × EdgeData)} (hnd : (it.map Prod.fst).Nodup)
    (h1 : (u, l1) ∈ it) (h2 : (u, l2) ∈ it) : l1 = l2 := by
  induction it with
  | nil => simp at h1
  | cons p t ih =>
      obtain ⟨w, lw⟩ := p
      simp only [List.map_cons, List.nodup_cons] at hnd
      rcases List.mem_cons.mp h1 with he1 | he1 <;>
        rcases List.mem_cons.mp h2 with he2 | he2
      · injection he1 with hx1 hl1
        injection he2 with hx2 hl2
        rw [hl1, hl2]
      · injection he1 with hx1 hl1
        exact absurd (List.mem_map.mpr ⟨(u, l2), he2, by rw [hx1]⟩) hnd.1
      · injection he2 with hx2 hl2
        exact absurd (List.mem_map.mpr ⟨(u, l1), he1, by rw [hx2]⟩) hnd.1
      · exact ih hnd.2 he1 he2

theorem itersLookup_of_mem {it : List (Int × List (Int × EdgeData))} {u : Int}
    {l : List (Int × EdgeData)} (hnd : (it.map Prod.fst).Nodup)
    (h : (u, l) ∈ it) : itersLookup it u = some l := by
  obtain ⟨l2, hl2⟩ := itersLookup_isSome (List.mem_map.mpr ⟨(u, l), h, rfl⟩)
  rw [hl2, iters_entry_unique hnd (itersLookup_mem hl2) h]

theorem itersSet_keys (it : List (Int × List (Int × EdgeData))) (u : Int)
    (l : List (Int × EdgeData)) :
    (itersSet it u l).map Prod.fst = it.map Prod.fst := by
  induction it with
  | nil => rfl
  | cons p t ih =>
      obtain ⟨w, lw⟩ := p
      unfold itersSet
      by_cases hw : w = u
      · rw [if_pos hw]
        simp
      · rw [if_neg hw]
        simp only [List.map_cons, ih]

theorem itersSet_sum {it : List (Int × List (Int × EdgeData))} {u : Int}
    {lOld : List (Int × EdgeData)} (hnd : (it.map Prod.fst).Nodup)
    (hmem : (u, lOld) ∈ it) (l : List (Int × EdgeData)) :
    ((itersSet it u l).map (fun p => p.2.length)).sum + lOld.length
      = ((it.map (fun p => p.2.length)).sum) + l.length := by
  induction it with
  | nil => simp at hmem
  | cons p t ih =>
      obtain ⟨w, lw⟩ := p
      simp only [List.map_cons, List.nodup_cons] at hnd
      unfold itersSet
      by_cases hw : w = u
      · rw [if_pos hw]
        have hlw : lOld = lw := by
          rcases List.mem_cons.mp hmem with he | he
          · exact congrArg Prod.snd he
          · exfalso
            exact hnd.1 (List.mem_map.mpr ⟨(u, lOld), he, by rw [hw]⟩)
        simp only [List.map_cons, List.sum_cons, hlw]
        omega
      · rw [if_neg hw]
        have hmem' : (u, lOld) ∈ t := by
          rcases List.mem_cons.mp hmem with he | he
          · exact absurd (congrArg Prod.fst he).symm hw
          · exact he
        simp only [List.map_cons, List.sum_cons]
        have := ih hnd.2 hmem'
        omega

theorem itersSet_lookup_self {it : List (Int × List (Int × EdgeData))}
    {u : Int} (hmem : u ∈ it.map Prod.fst) (l : List (Int × EdgeData)) :
    itersLookup (itersSet it u l) u = some l := by
  induction it with
  | nil => simp at hmem
  | cons p t ih =>
      obtain ⟨w, lw⟩ := p
      unfold itersSet
      by_cases hw : w = u
      · rw [if_pos hw]
        unfold itersLookup
        simp [hw]
      · rw [if_neg hw]
        unfold itersLookup
        simp only [List.find?_cons]
        have : (decide ((w, lw).1 = u)) = false := by
          simp [hw]
        rw [this]
        have hm' : u ∈ t.map Prod.fst := by
          rcases List.mem_map.mp hmem with ⟨q, hq, hqu⟩
          rcases List.mem_cons.mp hq with he | he
          · exact absurd (by rw [he] at hqu; exact hqu) hw
          · exact List.mem_map.mpr ⟨q, he, hqu⟩
        have := ih hm'
        unfold itersLookup at this
        exact this

theorem itersSet_mem_iff {it : List (Int × List (Int × EdgeData))} {u : Int}
    {l : List (Int × EdgeData)} (hnd : (it.map Prod.fst).Nodup)
    (hmem : u ∈ it.map Prod.fst) (p : Int × List (Int × EdgeData)) :
    p ∈ itersSet it u l ↔ (p.1 ≠ u ∧ p ∈ it) ∨ p = (u, l) := by
  induction it with
  | nil => simp at hmem
  | cons q t ih =>
      obtain ⟨w, lw⟩ := q
      simp only [List.map_cons, List.nodup_cons] at hnd
      unfold itersSet
      by_cases hw : w = u
      · rw [if_pos hw]
        subst hw
        constructor
        · intro hp
          rcases List.mem_cons.mp hp with he | he
          · exact Or.inr he
          · refine Or.inl ⟨?_, List.mem_cons_of_mem _ he⟩
            intro hc
            exact hnd.1 (List.mem_map.mpr ⟨p, he, hc⟩)
        · rintro (⟨hne, hp⟩ | rfl)
          · rcases List.mem_cons.mp hp with he | he
            · exact absurd (congrArg Prod.fst he) hne
            · exact List.mem_cons_of_mem _ he
          · exact List.mem_cons_self _ _
      · rw [if_neg hw]
        have hm' : u ∈ t.map Prod.fst := by
          rcases List.mem_map.mp hmem with ⟨q, hq, hqu⟩
          rcases List.mem_cons.mp hq with he | he
          · exact absurd (by rw [he] at hqu; exact hqu) hw
          · exact List.mem_map.mpr ⟨q, he, hqu⟩
        constructor
        · intro hp
          rcases List.mem_cons.mp hp with he | he
          · exact Or.inl ⟨by rw [he]; exact hw, by rw [he]; exact List.mem_cons_self _ _⟩
          · rcases (ih hnd.2 hm').mp he with ⟨hne, hpt⟩ | he2
            · exact Or.inl ⟨hne, List.mem_cons_of_mem _ hpt⟩
            · exact Or.inr he2
        · rintro (⟨hne, hp⟩ | rfl)
          · rcases List.mem_cons.mp hp with he | he
            · rw [he]; exact List.mem_cons_self _ _
            · exact List.mem_cons_of_mem _ ((ih hnd.2 hm').mpr (Or.inl ⟨hne, he⟩))
          · exact List.mem_cons_of_mem _ ((ih hnd.2 hm').mpr (Or.inr rfl))

/-! ### `ensureVisited` and the shape of one `dfsStep` -/

theorem ensureVisited_of_mem {g : PGraph} {st : DfsSt} {cur : Int}
    (h : cur ∈ visitedKeys st) : ensureVisited g st cur = st := by
  unfold ensureVisited
  obtain ⟨l, hl⟩ := itersLookup_isSome h
  rw [hl]

theorem ensureVisited_of_not_mem {g : PGraph} {st : DfsSt} {cur : Int}
    (h : cur ∉ visitedKeys st) :
    ensureVisited g st cur
      = { st with iters := (cur, adjOf g cur) :: st.iters } := by
  unfold ensureVisited
  rw [(itersLookup_eq_none_iff _ _).mpr h]

theorem ensureVisited_stack (g : PGraph) (st : DfsSt) (cur : Int) :
    (ensureVisited g st cur).stack = st.stack := by
  unfold ensureVisited
  cases itersLookup st.iters cur <;> rfl

theorem ensureVisited_vEdges (g : PGraph) (st : DfsSt) (cur : Int) :
    (ensureVisited g st cur).vEdges = st.vEdges := by
  unfold ensureVisited
  cases itersLookup st.iters cur <;> rfl

theorem ensureVisited_outRev (g : PGraph) (st : DfsSt) (cur : Int) :
    (ensureVisited g st cur).outRev = st.outRev := by
  unfold ensureVisited
  cases itersLookup st.iters cur <;> rfl

theorem ensureVisited_visited_mem {g : PGraph} {st : DfsSt} {cur : Int} :
    cur ∈ visitedKeys (ensureVisited g st cur) := by
  by_cases h : cur ∈ visitedKeys st
  · rw [ensureVisited_of_mem h]; exact h
  · rw [ensureVisited_of_not_mem h]
    unfold visitedKeys
    exact List.mem_map.mpr ⟨(cur, adjOf g cur), List.mem_cons_self _ _, rfl⟩

theorem dfsStep_of_nil {g : PGraph} {st : DfsSt} (h : st.stack = []) :
    dfsStep g st = none := by
  unfold dfsStep
  rw [h]

/-- The three possible outcomes of one machine step with a nonempty stack:
pop an exhausted iterator, skip an already-traversed edge, or yield. -/
theorem dfsStep_view {g : PGraph} {st : DfsSt} {cur : Int} {rest : List Int}
    (hs : st.stack = cur :: rest) :
    (∃ r, itersLookup (ensureVisited g st cur).iters cur = r ∧
        (r = none ∨ r = some []) ∧
        dfsStep g st = some { ensureVisited g st cur with stack := rest })
    ∨ (∃ nbr d tl,
        itersLookup (ensureVisited g st cur).iters cur = some ((nbr, d) :: tl) ∧
        ((normPair cur nbr ∈ st.vEdges ∧
          dfsStep g st = some { ensureVisited g st cur with
            iters := itersSet (ensureVisited g st cur).iters cur tl })
         ∨ (normPair cur nbr ∉ st.vEdges ∧
          dfsStep g st = some ⟨nbr :: cur :: rest,
            itersSet (ensureVisited g st cur).iters cur tl,
            normPair cur nbr :: st.vEdges,
            (cur, nbr) :: st.outRev⟩))) := by
  have hstep : dfsStep g st
      = match itersLookup (ensureVisited g st cur).iters cur with
        | none => some { ensureVisited g st cur with stack := rest }
        | some [] => some { ensureVisited g st cur with stack := rest }
        | some ((nbr, _d) :: tl) =>
          if normPair cur nbr ∈ (ensureVisited g st cur).vEdges then
            some { ensureVisited g st cur with
              iters := itersSet (ensureVisited g st cur).iters cur tl }
          else
            some { ensureVisited g st cur with
              iters := itersSet (ensureVisited g st cur).iters cur tl,
              vEdges := normPair cur nbr :: (ensureVisited g st cur).vEdges,
              outRev := (cur, nbr) :: (ensureVisited g st cur).outRev,
              stack := nbr :: (ensureVisited g st cur).stack } := by
    unfold dfsStep
    rw [hs]
  cases hl : itersLookup (ensureVisited g st cur).iters cur with
  | none =>
      rw [hl] at hstep
      exact Or.inl ⟨none, rfl, Or.inl rfl, hstep⟩
  | some l =>
      cases l with
      | nil =>
          rw [hl] at hstep
          exact Or.inl ⟨some [], rfl, Or.inr rfl, hstep⟩
      | cons q tl =>
          obtain ⟨nbr, d⟩ := q
          rw [hl] at hstep
          dsimp only at hstep
          refine Or.inr ⟨nbr, d, tl, rfl, ?_⟩
          by_cases hv : normPair cur nbr ∈ st.vEdges
          · rw [if_pos (by rw [ensureVisited_vEdges]; exact hv)] at hstep
            exact Or.inl ⟨hv, hstep⟩
          · rw [if_neg (by rw [ensureVisited_vEdges]; exact hv)] at hstep
            refine Or.inr ⟨hv, ?_⟩
            rw [hstep, ensureVisited_stack, ensureVisited_vEdges,
              ensureVisited_outRev, hs]

theorem visitedKeys_ensure_not_mem {g : PGraph} {st : DfsSt} {cur : Int}
    (h : cur ∉ visitedKeys st) :
    visitedKeys (ensureVisited g st cur) = cur :: visitedKeys st := by
  rw [ensureVisited_of_not_mem h]
  rfl

/-- Visiting the stack top preserves the machine invariant. -/
theorem machInv_ensure {g : PGraph} {s : Int} {st : DfsSt} {cur : Int}
    {rest : List Int} (hs : st.stack = cur :: rest) (hm : MachInv g s st) :
    MachInv g s (ensureVisited g st cur) := by
  by_cases h : cur ∈ visitedKeys st
  · rw [ensureVisited_of_mem h]
    exact hm
  · have hcurstack : cur ∈ st.stack := by rw [hs]; exact List.mem_cons_self _ _
    rw [ensureVisited_of_not_mem h]
    have hkeys : visitedKeys { st with iters := (cur, adjOf g cur) :: st.iters }
        = cur :: visitedKeys st := rfl
    refine ⟨?_, hm.vEdges_eq, hm.vEdges_nodup, ?_, ?_, hm.stack_reach, ?_, ?_,
      ?_, fun v hv => List.mem_cons_of_mem _ (hm.tail_visited v hv)⟩
    · intro p hp
      rcases List.mem_cons.mp hp with rfl | hp'
      · exact ⟨[], rfl, by intro q hq; simp at hq⟩
      · exact hm.iters_pre p hp'
    · intro q hq
      obtain ⟨hd, hk⟩ := hm.out_edges q hq
      exact ⟨hd, by rw [hkeys]; exact List.mem_cons_of_mem _ hk⟩
    · intro v hv
      rcases hm.cover v hv with hk | hst
      · exact Or.inl (by rw [hkeys]; exact List.mem_cons_of_mem _ hk)
      · exact Or.inr hst
    · intro v hv
      rw [hkeys] at hv
      rcases List.mem_cons.mp hv with rfl | hv'
      · exact hm.stack_reach v hcurstack
      · exact hm.visited_reach v hv'
    · intro p hp hpstack
      rcases List.mem_cons.mp hp with rfl | hp'
      · exact absurd hcurstack hpstack
      · exact hm.off_stack_done p hp' hpstack
    · rw [hkeys]
      exact List.Nodup.cons h hm.visited_nodup

/-- A pop step preserves the machine invariant. -/
theorem machInv_pop {g : PGraph} {s : Int} {st : DfsSt} {cur : Int}
    {rest : List Int} (hs : st.stack = cur :: rest) (hm : MachInv g s st)
    (hr : itersLookup (ensureVisited g st cur).iters cur = none
        ∨ itersLookup (ensureVisited g st cur).iters cur = some []) :
    MachInv g s { ensureVisited g st cur with stack := rest } := by
  have hm1 := machInv_ensure hs hm
  have hs1 : (ensureVisited g st cur).stack = cur :: rest := by
    rw [ensureVisited_stack, hs]
  have hcv : cur ∈ visitedKeys (ensureVisited g st cur) :=
    ensureVisited_visited_mem
  have hr2 : itersLookup (ensureVisited g st cur).iters cur = some [] := by
    rcases hr with hr | hr
    · exact absurd hcv ((itersLookup_eq_none_iff _ _).mp hr)
    · exact hr
  refine ⟨hm1.iters_pre, hm1.vEdges_eq, hm1.vEdges_nodup, hm1.out_edges, ?_,
    ?_, hm1.visited_reach, ?_, hm1.visited_nodup, ?_⟩
  · intro v hv
    rcases hm1.cover v hv with hk | hst
    · exact Or.inl hk
    · rw [hs1] at hst
      rcases List.mem_cons.mp hst with rfl | hst'
      · exact Or.inl hcv
      · exact Or.inr hst'
  · intro v hv
    exact hm1.stack_reach v (by rw [hs1]; exact List.mem_cons_of_mem _ hv)
  · intro p hp hpstack
    by_cases hpc : p.1 = cur
    · obtain ⟨p1, p2⟩ := p
      dsimp only at hpc
      rw [hpc] at hp
      have := itersLookup_of_mem hm1.visited_nodup hp
      rw [hr2] at this
      injection this with h2
      exact h2.symm
    · refine hm1.off_stack_done p hp ?_
      rw [hs1]
      intro hc
      rcases List.mem_cons.mp hc with he | he
      · exact hpc he
      · exact hpstack he
  · intro v hv
    have := hm1.tail_visited v
    rw [hs1] at this
    exact this (List.mem_of_mem_tail (by exact hv))

/-- A skip step (already-traversed edge) preserves the machine invariant. -/
theorem machInv_skip {g : PGraph} {s : Int} {st : DfsSt} {cur : Int}
    {rest : List Int} {nbr : Int} {d : EdgeData} {tl : List (Int × EdgeData)}
    (hs : st.stack = cur :: rest) (hm : MachInv g s st)
    (hl : itersLookup (ensureVisited g st cur).iters cur
        = some ((nbr, d) :: tl))
    (hv : normPair cur nbr ∈ st.vEdges) :
    MachInv g s { ensureVisited g st cur with
      iters := itersSet (ensureVisited g st cur).iters cur tl } := by
  have hm1 := machInv_ensure hs hm
  have hs1 : (ensureVisited g st cur).stack = cur :: rest := by
    rw [ensureVisited_stack, hs]
  have hv1 : normPair cur nbr ∈ (ensureVisited g st cur).vEdges := by
    rw [ensureVisited_vEdges]; exact hv
  have hcv : cur ∈ visitedKeys (ensureVisited g st cur) :=
    ensureVisited_visited_mem
  have hmemIt : (cur, (nbr, d) :: tl) ∈ (ensureVisited g st cur).iters :=
    itersLookup_mem hl
  have hkeys : visitedKeys { ensureVisited g st cur with
        iters := itersSet (ensureVisited g st cur).iters cur tl }
      = visitedKeys (ensureVisited g st cur) := itersSet_keys _ _ _
  refine ⟨?_, hm1.vEdges_eq, hm1.vEdges_nodup, ?_, ?_, hm1.stack_reach, ?_,
    ?_, ?_, ?_⟩
  · intro p hp
    rcases (itersSet_mem_iff hm1.visited_nodup hcv p).mp hp with
        ⟨hne, hpold⟩ | rfl
    · exact hm1.iters_pre p hpold
    · obtain ⟨pre, hpre, hcons⟩ := hm1.iters_pre _ hmemIt
      dsimp only at hpre hcons ⊢
      refine ⟨pre ++ [(nbr, d)], ?_, ?_⟩
      · rw [hpre]
        simp
      · intro q hq
        rcases List.mem_append.mp hq with hq | hq
        · exact hcons q hq
        · have hq2 : q = (nbr, d) := by simpa using hq
          rw [hq2]
          exact hv1
  · intro q hq
    obtain ⟨hd, hk⟩ := hm1.out_edges q hq
    exact ⟨hd, by rw [hkeys]; exact hk⟩
  · intro v hvv
    rcases hm1.cover v hvv with hk | hst
    · exact Or.inl (by rw [hkeys]; exact hk)
    · exact Or.inr hst
  · intro v hvv
    rw [hkeys] at hvv
    exact hm1.visited_reach v hvv
  · intro p hp hpstack
    rcases (itersSet_mem_iff hm1.visited_nodup hcv p).mp hp with
        ⟨hne, hpold⟩ | rfl
    · exact hm1.off_stack_done p hpold hpstack
    · exfalso
      refine hpstack ?_
      show cur ∈ (ensureVisited g st cur).stack
      rw [hs1]
      exact List.mem_cons_self _ _
  · rw [hkeys]
    exact hm1.visited_nodup
  · intro v hvv
    rw [hkeys]
    exact hm1.tail_visited v hvv

/-- A yield step (new edge traversed, head pushed) preserves the machine
invariant. -/
theorem machInv_yield {g : PGraph} {s : Int} {st : DfsSt} {cur : Int}
    {rest : List Int} {nbr : Int} {d : EdgeData} {tl : List (Int × EdgeData)}
    (hs : st.stack = cur :: rest) (hm : MachInv g s st)
    (hl : itersLookup (ensureVisited g st cur).iters cur
        = some ((nbr, d) :: tl))
    (hv : normPair cur nbr ∉ st.vEdges) :
    MachInv g s ⟨nbr :: cur :: rest,
      itersSet (ensureVisited g st cur).iters cur tl,
      normPair cur nbr :: st.vEdges,
      (cur, nbr) :: st.outRev⟩ := by
  have hm1 := machInv_ensure hs hm
  have hs1 : (ensureVisited g st cur).stack = cur :: rest := by
    rw [ensureVisited_stack, hs]
  have hv1 : (ensureVisited g st cur).vEdges = st.vEdges :=
    ensureVisited_vEdges g st cur
  have ho1 : (ensureVisited g st cur).outRev = st.outRev :=
    ensureVisited_outRev g st cur
  have hcv : cur ∈ visitedKeys (ensureVisited g st cur) :=
    ensureVisited_visited_mem
  have hmemIt : (cur, (nbr, d) :: tl) ∈ (ensureVisited g st cur).iters :=
    itersLookup_mem hl
  have hkeys : visitedKeys (⟨nbr :: cur :: rest,
        itersSet (ensureVisited g st cur).iters cur tl,
        normPair cur nbr :: st.vEdges,
        (cur, nbr) :: st.outRev⟩ : DfsSt)
      = visitedKeys (ensureVisited g st cur) := itersSet_keys _ _ _
  have hnbrAdj : (nbr, d) ∈ adjOf g cur := by
    obtain ⟨pre, hpre, _⟩ := hm1.iters_pre _ hmemIt
    dsimp only at hpre
    rw [hpre]
    exact List.mem_append.mpr (Or.inr (List.mem_cons_self _ _))
  refine ⟨?_, ?_, ?_, ?_, ?_, ?_, ?_, ?_, ?_, ?_⟩
  · intro p hp
    rcases (itersSet_mem_iff hm1.visited_nodup hcv p).mp hp with
        ⟨hne, hpold⟩ | rfl
    · obtain ⟨pre, hpre, hcons⟩ := hm1.iters_pre p hpold
      refine ⟨pre, hpre, ?_⟩
      intro q hq
      have := hcons q hq
      rw [hv1] at this
      exact List.mem_cons_of_mem _ this
    · obtain ⟨pre, hpre, hcons⟩ := hm1.iters_pre _ hmemIt
      dsimp only at hpre hcons ⊢
      refine ⟨pre ++ [(nbr, d)], ?_, ?_⟩
      · rw [hpre]
        simp
      · intro q hq
        rcases List.mem_append.mp hq with hq | hq
        · have := hcons q hq
          rw [hv1] at this
          exact List.mem_cons_of_mem _ this
        · have hq2 : q = (nbr, d) := by simpa using hq
          rw [hq2]
          exact List.mem_cons_self _ _
  · show normPair cur nbr :: st.vEdges
        = ((cur, nbr) :: st.outRev).map (fun q => normPair q.1 q.2)
    rw [List.map_cons]
    have := hm1.vEdges_eq
    rw [hv1, ho1] at this
    rw [this]
  · refine List.Nodup.cons ?_ (by have := hm1.vEdges_nodup; rwa [hv1] at this)
    exact fun hc => hv hc
  · intro q hq
    rcases List.mem_cons.mp hq with rfl | hq'
    · exact ⟨⟨d, hnbrAdj⟩, by rw [hkeys]; exact hcv⟩
    · obtain ⟨hd, hk⟩ := hm1.out_edges q (by rw [ho1]; exact hq')
      exact ⟨hd, by rw [hkeys]; exact hk⟩
  · intro v hvv
    rcases hvv with rfl | ⟨q, hq, hq2⟩
    · rcases hm1.cover v (Or.inl rfl) with hk | hst
      · exact Or.inl (by rw [hkeys]; exact hk)
      · rw [hs1] at hst
        exact Or.inr (List.mem_cons_of_mem _ hst)
    · rcases List.mem_cons.mp hq with rfl | hq'
      · exact Or.inr (by rw [← hq2]; exact List.mem_cons_self _ _)
      · rcases hm1.cover v (Or.inr ⟨q, by rw [ho1]; exact hq', hq2⟩) with
            hk | hst
        · exact Or.inl (by rw [hkeys]; exact hk)
        · rw [hs1] at hst
          exact Or.inr (List.mem_cons_of_mem _ hst)
  · intro v hvv
    rcases List.mem_cons.mp hvv with rfl | hvv'
    · refine Reach.step (hm1.stack_reach cur ?_) ?_
      · rw [hs1]; exact List.mem_cons_self _ _
      · exact List.mem_map.mpr ⟨(v, d), hnbrAdj, rfl⟩
    · exact hm1.stack_reach v (by rw [hs1]; exact hvv')
  · intro v hvv
    rw [hkeys] at hvv
    exact hm1.visited_reach v hvv
  · intro p hp hpstack
    rcases (itersSet_mem_iff hm1.visited_nodup hcv p).mp hp with
        ⟨hne, hpold⟩ | rfl
    · refine hm1.off_stack_done p hpold ?_
      rw [hs1]
      intro hc
      exact hpstack (List.mem_cons_of_mem _ hc)
    · exfalso
      exact hpstack (List.mem_cons_of_mem _ (List.mem_cons_self _ _))
  · rw [hkeys]
    exact hm1.visited_nodup
  · intro v hvv
    have hvv2 : v ∈ cur :: rest := hvv
    rw [hkeys]
    rcases List.mem_cons.mp hvv2 with rfl | hvv'
    · exact hcv
    · exact hm1.tail_visited v (by rw [hs1]; exact hvv')

theorem filter_not_mem_cons {l : List Int} {cur : Int} (V : List Int)
    (h : cur ∉ l) :
    l.filter (fun v => decide (v ∉ cur :: V))
      = l.filter (fun v => decide (v ∉ V)) := by
  apply List.filter_congr
  intro v hv
  have hne : v ≠ cur := fun he => h (he ▸ hv)
  simp [List.mem_cons, hne]

theorem dfsMeasure_filter_step {l : List Int} (hnd : l.Nodup) {cur : Int}
    (hcur : cur ∈ l) (V : List Int) (hnv : cur ∉ V) (f : Int → Nat) :
    ((l.filter (fun v => decide (v ∉ cur :: V))).map f).sum + f cur
      = ((l.filter (fun v => decide (v ∉ V))).map f).sum := by
  induction l with
  | nil => cases hcur
  | cons a t ih =>
      rw [List.nodup_cons] at hnd
      rcases List.mem_cons.mp hcur with rfl | hcur'
      · have h1 : (decide (cur ∉ cur :: V)) = false := by simp
        have h2 : (decide (cur ∉ V)) = true := by simpa using hnv
        simp only [List.filter_cons, h1, h2, Bool.false_eq_true, if_false,
          if_true, List.map_cons, List.sum_cons]
        rw [filter_not_mem_cons V hnd.1]
        omega
      · have hane : a ≠ cur := fun he => hnd.1 (he ▸ hcur')
        by_cases haV : a ∈ V
        · have h1 : decide (a ∉ cur :: V) = false := by simp [haV]
          have h2 : decide (a ∉ V) = false := by simp [haV]
          simp only [List.filter_cons, h1, h2, Bool.false_eq_true, if_false]
          exact ih hnd.2 hcur'
        · have h1 : decide (a ∉ cur :: V) = true := by simp [haV, hane]
          have h2 : decide (a ∉ V) = true := by simp [haV]
          simp only [List.filter_cons, h1, h2, if_true, List.map_cons,
            List.sum_cons]
          have := ih hnd.2 hcur'
          omega

theorem dfsMeasure_ensure {g : PGraph} {s : Int} {st : DfsSt} {cur : Int}
    {rest : List Int} (hwfg : WFgraph g) (hs : st.stack = cur :: rest)
    (hm : MachInv g s st) (hsrc : s ∈ nodesList g) :
    dfsMeasure g (ensureVisited g st cur) = dfsMeasure g st := by
  by_cases h : cur ∈ visitedKeys st
  · rw [ensureVisited_of_mem h]
  · rw [ensureVisited_of_not_mem h]
    have hcurnode : cur ∈ nodesList g :=
      Reach_mem_nodes hwfg hsrc
        (hm.stack_reach cur (by rw [hs]; exact List.mem_cons_self _ _))
    have hkeys : visitedKeys { st with
        iters := (cur, adjOf g cur) :: st.iters } = cur :: visitedKeys st :=
      rfl
    unfold dfsMeasure
    rw [hkeys]
    simp only [List.map_cons, List.sum_cons]
    have hstep := dfsMeasure_filter_step hwfg.1 hcurnode (visitedKeys st) h
      (fun v => (adjOf g v).length)
    simp only at hstep
    omega

theorem dfsMeasure_step {g : PGraph} {s : Int} {st st' : DfsSt}
    (hwfg : WFgraph g) (hsrc : s ∈ nodesList g) (hm : MachInv g s st)
    (hstep : dfsStep g st = some st') :
    dfsMeasure g st' < dfsMeasure g st := by
  cases hs : st.stack with
  | nil => rw [dfsStep_of_nil hs] at hstep; cases hstep
  | cons cur rest =>
      have hme := dfsMeasure_ensure hwfg hs hm hsrc
      have hs1 : (ensureVisited g st cur).stack = cur :: rest := by
        rw [ensureVisited_stack, hs]
      have hm1 : MachInv g s (ensureVisited g st cur) := machInv_ensure hs hm
      rw [← hme]
      rcases dfsStep_view (g := g) hs with
        ⟨r, hr, hrc, he⟩ | ⟨nbr, d, tl, hl, ⟨hv, he⟩ | ⟨hv, he⟩⟩
      · rw [hstep] at he
        injection he with he2
        rw [he2]
        simp only [dfsMeasure, visitedKeys]
        rw [hs1]
        simp only [List.length_cons]
        omega
      · rw [hstep] at he
        injection he with he2
        rw [he2]
        have hmemIt : (cur, (nbr, d) :: tl) ∈ (ensureVisited g st cur).iters :=
          itersLookup_mem hl
        have hsum := itersSet_sum hm1.visited_nodup hmemIt tl
        simp only [List.length_cons] at hsum
        simp only [dfsMeasure, visitedKeys, itersSet_keys]
        omega
      · rw [hstep] at he
        injection he with he2
        rw [he2]
        have hmemIt : (cur, (nbr, d) :: tl) ∈ (ensureVisited g st cur).iters :=
          itersLookup_mem hl
        have hsum := itersSet_sum hm1.visited_nodup hmemIt tl
        simp only [List.length_cons] at hsum
        simp only [dfsMeasure, visitedKeys, itersSet_keys]
        rw [hs1]
        simp only [List.length_cons]
        omega

/-- Any machine step preserves the machine invariant. -/
theorem machInv_step {g : PGraph} {s : Int} {st st' : DfsSt}
    (hstep : dfsStep g st = some st') (hm : MachInv g s st) :
    MachInv g s st' := by
  cases hs : st.stack with
  | nil => rw [dfsStep_of_nil hs] at hstep; cases hstep
  | cons cur rest =>
      rcases dfsStep_view (g := g) hs with
        ⟨r, hr, hrc, he⟩ | ⟨nbr, d, tl, hl, ⟨hv, he⟩ | ⟨hv, he⟩⟩
      · rw [hstep] at he
        injection he with he2
        rw [he2]
        refine machInv_pop hs hm ?_
        rcases hrc with rfl | rfl
        · exact Or.inl hr
        · exact Or.inr hr
      · rw [hstep] at he
        injection he with he2
        rw [he2]
        exact machInv_skip hs hm hl hv
      · rw [hstep] at he
        injection he with he2
        rw [he2]
        exact machInv_yield hs hm hl hv

/-- At a yield, the head is either an on-stack (visited) node or a
completely fresh one: a visited off-stack head would have exhausted its
iterator, so the reverse direction of the edge would already have been
traversed — contradicting the new-edge guard. -/
theorem yield_dichotomy {g : PGraph} {s : Int} {st : DfsSt} {cur : Int}
    {rest : List Int} {nbr : Int} {d : EdgeData} {tl : List (Int × EdgeData)}
    (hwfa : WFadj g) (hs : st.stack = cur :: rest) (hm : MachInv g s st)
    (hl : itersLookup (ensureVisited g st cur).iters cur
        = some ((nbr, d) :: tl))
    (hv : normPair cur nbr ∉ st.vEdges) :
    (nbr ∈ cur :: rest ∧ nbr ∈ visitedKeys (ensureVisited g st cur))
    ∨ (nbr ∉ visitedKeys (ensureVisited g st cur) ∧ nbr ∉ cur :: rest) := by
  have hm1 := machInv_ensure hs hm
  have hs1 : (ensureVisited g st cur).stack = cur :: rest := by
    rw [ensureVisited_stack, hs]
  have hmemIt : (cur, (nbr, d) :: tl) ∈ (ensureVisited g st cur).iters :=
    itersLookup_mem hl
  have hnbrAdj : (nbr, d) ∈ adjOf g cur := by
    obtain ⟨pre, hpre, _⟩ := hm1.iters_pre _ hmemIt
    dsimp only at hpre
    rw [hpre]
    exact List.mem_append.mpr (Or.inr (List.mem_cons_self _ _))
  by_cases hnv : nbr ∈ visitedKeys (ensureVisited g st cur)
  · left
    refine ⟨?_, hnv⟩
    by_contra hns
    obtain ⟨lnbr, hlnbr⟩ := itersLookup_isSome hnv
    have hmemN : (nbr, lnbr) ∈ (ensureVisited g st cur).iters :=
      itersLookup_mem hlnbr
    have hempty : lnbr = [] := hm1.off_stack_done _ hmemN
      (by rw [hs1]; exact hns)
    obtain ⟨pre, hpre, hcons⟩ := hm1.iters_pre _ hmemN
    dsimp only at hpre hcons
    rw [hempty, List.append_nil] at hpre
    have hcurAdj : (cur, d) ∈ adjOf g nbr := hwfa.2.2.2 cur nbr d hnbrAdj
    have hin : normPair nbr cur ∈ (ensureVisited g st cur).vEdges :=
      hcons (cur, d) (by rw [← hpre]; exact hcurAdj)
    rw [ensureVisited_vEdges, normPair_comm] at hin
    exact hv hin
  · right
    refine ⟨hnv, ?_⟩
    intro hc
    rcases List.mem_cons.mp hc with rfl | hc'
    · exact hnv ensureVisited_visited_mem
    · exact hnv (hm1.tail_visited nbr (by rw [hs1]; exact hc'))

/-- Consuming the most recent yield relates the consumer states of
consecutive machine states. -/
theorem consOf_cons (s : Int) {st st' : DfsSt} {e : Int × Int}
    (h : st'.outRev = e :: st.outRev) :
    consOf s st' = consStep (consOf s st) e := by
  unfold consOf consRun
  rw [h, List.reverse_cons, List.foldl_append]
  rfl

theorem consOf_same (s : Int) {st st' : DfsSt}
    (h : st'.outRev = st.outRev) : consOf s st' = consOf s st := by
  unfold consOf consRun
  rw [h]

theorem consStep_found {C : CycSt} (e : Int × Int) (h : C.found = true) :
    consStep C e = C := by
  unfold consStep
  rw [if_pos h]

theorem dfsCount_pop {g : PGraph} {s : Int} {st : DfsSt} {cur : Int}
    {rest : List Int} (hs : st.stack = cur :: rest) (hm : MachInv g s st) :
    dfsCount { ensureVisited g st cur with stack := rest } = dfsCount st := by
  by_cases h : cur ∈ visitedKeys st
  · rw [ensureVisited_of_mem h]
    unfold dfsCount unvisitedTopBonus visitedKeys
    dsimp only
    rw [hs]
    cases rest with
    | nil => simp [visitedKeys] at h ⊢; simp [h]
    | cons r2 t2 =>
        have hr2 : r2 ∈ visitedKeys st := hm.tail_visited r2
          (by rw [hs]; exact List.mem_cons_self _ _)
        simp [visitedKeys] at h hr2
        simp [h, hr2]
  · rw [ensureVisited_of_not_mem h]
    unfold dfsCount unvisitedTopBonus visitedKeys
    dsimp only
    rw [hs]
    cases rest with
    | nil =>
        simp [visitedKeys] at h
        simp [h]
    | cons r2 t2 =>
        have hr2 : r2 ∈ visitedKeys st := hm.tail_visited r2
          (by rw [hs]; exact List.mem_cons_self _ _)
        simp [visitedKeys] at h hr2
        simp [h, hr2]

theorem dfsCount_skip {g : PGraph} {s : Int} {st : DfsSt} {cur : Int}
    {rest : List Int} {tl : List (Int × EdgeData)}
    (hs : st.stack = cur :: rest) (hm : MachInv g s st) :
    dfsCount { ensureVisited g st cur with
      iters := itersSet (ensureVisited g st cur).iters cur tl }
      = dfsCount st := by
  have hcv : cur ∈ visitedKeys (ensureVisited g st cur) :=
    ensureVisited_visited_mem
  have hstack1 : (ensureVisited g st cur).stack = cur :: rest := by
    rw [ensureVisited_stack, hs]
  unfold dfsCount unvisitedTopBonus visitedKeys
  dsimp only
  rw [itersSet_keys, hstack1, hs]
  by_cases h : cur ∈ visitedKeys st
  · rw [ensureVisited_of_mem h]
  · rw [ensureVisited_of_not_mem h]
    simp [visitedKeys] at h
    simp [h]

theorem dfsCount_yield {g : PGraph} {s : Int} {st : DfsSt} {cur : Int}
    {rest : List Int} {nbr : Int} {tl : List (Int × EdgeData)}
    (hs : st.stack = cur :: rest) (hm : MachInv g s st)
    (vE : List (Int × Int)) (oR : List (Int × Int)) :
    dfsCount (⟨nbr :: cur :: rest,
        itersSet (ensureVisited g st cur).iters cur tl, vE, oR⟩ : DfsSt)
      = dfsCount st
        + (if nbr ∈ visitedKeys (ensureVisited g st cur) then 0 else 1) := by
  unfold dfsCount unvisitedTopBonus visitedKeys
  dsimp only
  rw [itersSet_keys, hs]
  by_cases h : cur ∈ visitedKeys st
  · rw [ensureVisited_of_mem h]
    by_cases hn : nbr ∈ visitedKeys st
    · simp [visitedKeys] at h hn
      simp [h, hn, visitedKeys]
    · simp [visitedKeys] at h hn
      simp [h, hn, visitedKeys]
  · rw [ensureVisited_of_not_mem h]
    by_cases hn : nbr ∈ cur :: visitedKeys st
    · simp [visitedKeys] at h hn
      simp [h, hn, visitedKeys]
    · simp [visitedKeys] at h hn
      push_neg at hn
      simp [h, hn.1, hn.2, visitedKeys]

theorem drop_append_le {α : Type} (l1 l2 : List α) {k : Nat}
    (h : k ≤ l1.length) : (l1 ++ l2).drop k = l1.drop k ++ l2 := by
  induction l1 generalizing k with
  | nil =>
      have hk : k = 0 := by simpa using h
      subst hk
      simp
  | cons a t ih =>
      cases k with
      | zero => simp
      | succ j =>
          simp only [List.cons_append, List.drop_succ_cons]
          exact ih (by simpa using h)


/-- The backtracking pop loop of `is_cyclic`, on an active list that
mirrors the path heads over `s`, pops exactly down to the suffix whose
first head is the new tail. -/
theorem backFix_spec (s : Int) :
    ∀ (P : List (Int × Int)) (k : Nat) (tl : Int),
      1 ≤ k → k ≤ P.length →
      ((P.map Prod.snd ++ [s]).Nodup) →
      (((P.map Prod.snd ++ [s]).drop k).head? = some tl) →
      backFix P (P.map Prod.snd ++ [s]) tl
        = (P.drop k, (P.drop k).map Prod.snd ++ [s]) := by
  intro P
  induction P with
  | nil =>
      intro k tl hk1 hk2 _ _
      exfalso
      simp at hk2
      omega
  | cons e P' ih =>
      intro k tl hk1 hk2 hnd hhd
      obtain ⟨j, rfl⟩ : ∃ j, k = j + 1 := ⟨k - 1, by omega⟩
      have hL : (e :: P').map Prod.snd ++ [s]
          = e.2 :: (P'.map Prod.snd ++ [s]) := by simp
      rw [hL] at hnd hhd
      rw [hL]
      rw [List.drop_succ_cons] at hhd
      cases P' with
      | nil =>
          have hj : j = 0 := by
            simp at hk2
            omega
          subst hj
          simp only [List.map_nil, List.nil_append, List.drop_zero] at hhd
          have htl : tl = s := by
            simp only [List.head?_cons] at hhd
            injection hhd with h2
            exact h2.symm
          rw [htl]
          rfl
      | cons e2 P'' =>
          have hunf : backFix (e :: e2 :: P'')
              (e.2 :: (List.map Prod.snd (e2 :: P'') ++ [s])) tl
              = if e2.2 = tl
                then (e2 :: P'',
                  (e.2 :: (List.map Prod.snd (e2 :: P'') ++ [s])).erase e.2)
                else backFix (e2 :: P'')
                  ((e.2 :: (List.map Prod.snd (e2 :: P'') ++ [s])).erase e.2)
                  tl := rfl
          rw [hunf, List.erase_cons_head]
          have hnd2 : ((e2 :: P'').map Prod.snd ++ [s]).Nodup :=
            (List.nodup_cons.mp hnd).2
          have hLt : (e2 :: P'').map Prod.snd ++ [s]
              = e2.2 :: (P''.map Prod.snd ++ [s]) := by simp
          by_cases hj : j = 0
          · subst hj
            simp only [List.drop_zero, hLt, List.head?_cons] at hhd
            injection hhd with htl
            rw [if_pos htl]
            simp
          · obtain ⟨j2, rfl⟩ : ∃ j2, j = j2 + 1 := ⟨j - 1, by omega⟩
            have hhd2 : ((P''.map Prod.snd ++ [s]).drop j2).head? = some tl := by
              rw [hLt, List.drop_succ_cons] at hhd
              exact hhd
            have hmem : tl ∈ P''.map Prod.snd ++ [s] := by
              cases hd : (P''.map Prod.snd ++ [s]).drop j2 with
              | nil => rw [hd] at hhd2; cases hhd2
              | cons a t =>
                  rw [hd] at hhd2
                  simp only [List.head?_cons] at hhd2
                  injection hhd2 with h2
                  refine List.drop_subset j2 _ ?_
                  rw [hd, ← h2]
                  exact List.mem_cons_self _ _
            have hne : ¬ (e2.2 = tl) := by
              intro he
              rw [hLt] at hnd2
              exact (List.nodup_cons.mp hnd2).1 (he ▸ hmem)
            rw [if_neg hne]
            have hrec := ih (j2 + 1) tl (by omega)
              (by simp at hk2 ⊢; omega) hnd2 hhd
            rw [hrec]
            simp

theorem consStep_eval {C : CycSt} (e : Int × Int) (hnf : C.found = false) :
    consStep C e
      = (if e.2 ∈ (match C.prevHead with
            | some ph =>
                if e.1 ≠ ph then
                  { C with pathRev := (backFix C.pathRev C.active e.1).1,
                           active := (backFix C.pathRev C.active e.1).2 }
                else C
            | none => C).active then
          { (match C.prevHead with
             | some ph =>
                 if e.1 ≠ ph then
                   { C with pathRev := (backFix C.pathRev C.active e.1).1,
                            active := (backFix C.pathRev C.active e.1).2 }
                 else C
             | none => C) with
            pathRev := e :: (match C.prevHead with
              | some ph =>
                  if e.1 ≠ ph then
                    { C with pathRev := (backFix C.pathRev C.active e.1).1,
                             active := (backFix C.pathRev C.active e.1).2 }
                  else C
              | none => C).pathRev,
            found := true }
        else
          { (match C.prevHead with
             | some ph =>
                 if e.1 ≠ ph then
                   { C with pathRev := (backFix C.pathRev C.active e.1).1,
                            active := (backFix C.pathRev C.active e.1).2 }
                 else C
             | none => C) with
            pathRev := e :: (match C.prevHead with
              | some ph =>
                  if e.1 ≠ ph then
                    { C with pathRev := (backFix C.pathRev C.active e.1).1,
                             active := (backFix C.pathRev C.active e.1).2 }
                  else C
              | none => C).pathRev,
            seen := e.2 :: (match C.prevHead with
              | some ph =>
                  if e.1 ≠ ph then
                    { C with pathRev := (backFix C.pathRev C.active e.1).1,
                             active := (backFix C.pathRev C.active e.1).2 }
                  else C
              | none => C).seen,
            active := e.2 :: (match C.prevHead with
              | some ph =>
                  if e.1 ≠ ph then
                    { C with pathRev := (backFix C.pathRev C.active e.1).1,
                             active := (backFix C.pathRev C.active e.1).2 }
                  else C
              | none => C).active,
            prevHead := some e.2 }) := by
  unfold consStep
  rw [if_neg (by rw [hnf]; exact Bool.false_ne_true)]

/-- In the fresh regime, one consumed yield `(cur, nbr)` first realigns the
consumer path to the machine stack and then branches on whether the head
lies on the active path. -/
theorem consStep_fresh {C : CycSt} {s cur nbr : Int} {k : Nat}
    {rest : List Int}
    (hnf : C.found = false)
    (hact : C.active = C.pathRev.map Prod.snd ++ [s])
    (hnd : (C.pathRev.map Prod.snd ++ [s]).Nodup)
    (hprev : C.prevHead = C.pathRev.head?.map Prod.snd)
    (hdrop : (C.pathRev.map Prod.snd ++ [s]).drop k = cur :: rest) :
    consStep C (cur, nbr)
      = if nbr ∈ cur :: rest then
          { C with pathRev := (cur, nbr) :: C.pathRev.drop k,
                   active := cur :: rest, found := true }
        else
          { C with pathRev := (cur, nbr) :: C.pathRev.drop k,
                   active := nbr :: cur :: rest,
                   seen := nbr :: C.seen, prevHead := some nbr } := by
  have hkP : k ≤ C.pathRev.length := by
    by_contra hgt
    push_neg at hgt
    have hle : (C.pathRev.map Prod.snd ++ [s]).length ≤ k := by
      simp only [List.length_append, List.length_map, List.length_singleton]
      omega
    rw [List.drop_eq_nil_iff.mpr hle] at hdrop
    cases hdrop
  have hstackeq : (C.pathRev.drop k).map Prod.snd ++ [s] = cur :: rest := by
    rw [List.map_drop, ← drop_append_le _ [s] (by simpa using hkP)]
    exact hdrop
  rw [consStep_eval (cur, nbr) hnf]
  cases hph : C.prevHead with
  | none =>
      rw [hph] at hprev
      have hP : C.pathRev = [] :=
        List.head?_eq_none_iff.mp (Option.map_eq_none.mp hprev.symm)
      have hk0 : k = 0 := by
        by_contra hk0
        obtain ⟨k2, rfl⟩ : ∃ k2, k = k2 + 1 := ⟨k - 1, by omega⟩
        rw [hP] at hdrop
        simp only [List.map_nil, List.nil_append, List.drop_succ_cons,
          List.drop_nil] at hdrop
        cases hdrop
      subst hk0
      have hcs : cur :: rest = [s] := by
        rw [hP] at hdrop
        simpa using hdrop.symm
      dsimp only
      rw [hact, hP]
      simp only [List.map_nil, List.nil_append, List.drop_zero]
      rw [← hcs, hph]
  | some ph =>
      rw [hph] at hprev
      have hPne : C.pathRev ≠ [] := by
        intro h0
        rw [h0] at hprev
        simp at hprev
      obtain ⟨p0, P', hPh⟩ := List.exists_cons_of_ne_nil hPne
      have hph2 : ph = p0.2 := by
        rw [hPh] at hprev
        simpa using hprev
      by_cases hcp : cur = ph
      · have hk0 : k = 0 := by
          by_contra hk0
          obtain ⟨k2, rfl⟩ : ∃ k2, k = k2 + 1 := ⟨k - 1, by omega⟩
          have hcur_mem : cur
              ∈ ((C.pathRev.map Prod.snd ++ [s]).drop (k2 + 1)) := by
            rw [hdrop]
            exact List.mem_cons_self _ _
          have hnd2 := hnd
          rw [hPh] at hcur_mem hnd2
          simp only [List.map_cons, List.cons_append,
            List.drop_succ_cons] at hcur_mem hnd2
          exact (List.nodup_cons.mp hnd2).1 (by
            rw [← hph2, ← hcp]
            exact List.drop_subset _ _ hcur_mem)
        subst hk0
        rw [List.drop_zero] at hdrop
        have hCact : C.active = cur :: rest := hact.trans hdrop
        dsimp only
        rw [if_neg (not_not_intro hcp), hCact, List.drop_zero, hph]
      · have hk1 : 1 ≤ k := by
          by_contra h0
          have hk0 : k = 0 := by omega
          subst hk0
          rw [List.drop_zero, hPh] at hdrop
          simp only [List.map_cons, List.cons_append] at hdrop
          injection hdrop with h1 h2
          exact hcp (h1.symm.trans hph2.symm)
        have hbf := backFix_spec s C.pathRev k cur hk1 hkP hnd
          (by rw [hdrop]; rfl)
        dsimp only
        rw [if_pos hcp]
        rw [hact]
        rw [hbf]
        dsimp only
        rw [hstackeq]

theorem drop_heads_eq {P : List (Int × Int)} {s cur : Int} {rest : List Int}
    {k : Nat} (hdrop : (P.map Prod.snd ++ [s]).drop k = cur :: rest) :
    (P.drop k).map Prod.snd ++ [s] = cur :: rest ∧ k ≤ P.length := by
  have hkP : k ≤ P.length := by
    by_contra hgt
    push_neg at hgt
    have hle : (P.map Prod.snd ++ [s]).length ≤ k := by
      simp only [List.length_append, List.length_map, List.length_singleton]
      omega
    rw [List.drop_eq_nil_iff.mpr hle] at hdrop
    cases hdrop
  refine ⟨?_, hkP⟩
  rw [List.map_drop, ← drop_append_le _ [s] (by simpa using hkP)]
  exact hdrop

/-- A yield keeps the simulation invariant: it either stays fresh (fresh
head) or moves into / stays in the found regime. -/
theorem sim_yield {g : PGraph} {s : Int} {st : DfsSt} {cur : Int}
    {rest : List Int} {nbr : Int} {d : EdgeData} {tl : List (Int × EdgeData)}
    (hwfa : WFadj g) (hs : st.stack = cur :: rest) (hm : MachInv g s st)
    (hl : itersLookup (ensureVisited g st cur).iters cur
        = some ((nbr, d) :: tl))
    (hv : normPair cur nbr ∉ st.vEdges) (hf : SimFresh s st) :
    SimFound s (⟨nbr :: cur :: rest,
        itersSet (ensureVisited g st cur).iters cur tl,
        normPair cur nbr :: st.vEdges, (cur, nbr) :: st.outRev⟩ : DfsSt)
    ∨ SimFresh s (⟨nbr :: cur :: rest,
        itersSet (ensureVisited g st cur).iters cur tl,
        normPair cur nbr :: st.vEdges, (cur, nbr) :: st.outRev⟩ : DfsSt) := by
  obtain ⟨k, hk⟩ := hf.stack_drop
  rw [hs] at hk
  have hdrop : (((consOf s st).pathRev.map Prod.snd ++ [s]).drop k)
      = cur :: rest := hk.symm
  obtain ⟨hstackeq, hkP⟩ := drop_heads_eq hdrop
  have hprev : (consOf s st).prevHead
      = (consOf s st).pathRev.head?.map Prod.snd := by
    rw [hf.prev_eq, hf.head_eq]
  have hcons : consOf s (⟨nbr :: cur :: rest,
      itersSet (ensureVisited g st cur).iters cur tl,
      normPair cur nbr :: st.vEdges, (cur, nbr) :: st.outRev⟩ : DfsSt)
      = consStep (consOf s st) (cur, nbr) := consOf_cons s rfl
  rw [consStep_fresh hf.not_found hf.active_eq hf.heads_nodup hprev hdrop]
    at hcons
  have hcount := @dfsCount_yield g s st cur rest nbr tl hs hm
    (normPair cur nbr :: st.vEdges) ((cur, nbr) :: st.outRev)
  rcases yield_dichotomy hwfa hs hm hl hv with ⟨hstk, hvis⟩ | ⟨hnvis, hnstk⟩
  · left
    constructor
    · rw [hcons, if_pos hstk]
    · rw [hcount, if_pos hvis, hf.count_eq]
      simp
  · right
    rw [if_neg hnstk] at hcons
    have hheads : (nbr, cur :: rest) = (nbr, cur :: rest) := rfl
    refine ⟨?_, ?_, ?_, ?_, ?_, ?_, ?_, ?_⟩
    · rw [hcons]
      exact hf.not_found
    · rw [hcons]
      show nbr :: cur :: rest
          = ((cur, nbr) :: (consOf s st).pathRev.drop k).map Prod.snd ++ [s]
      rw [List.map_cons, List.cons_append, hstackeq]
    · rw [hcons]
      show (((cur, nbr) :: (consOf s st).pathRev.drop k).map Prod.snd
          ++ [s]).Nodup
      rw [List.map_cons, List.cons_append, hstackeq]
      refine List.Nodup.cons hnstk ?_
      rw [← hstackeq]
      refine List.Nodup.sublist ?_ hf.heads_nodup
      exact List.Sublist.append_right
        (List.Sublist.map _ (List.drop_sublist _ _)) _
    · refine ⟨0, ?_⟩
      rw [hcons]
      show nbr :: cur :: rest
          = (((cur, nbr) :: (consOf s st).pathRev.drop k).map Prod.snd
              ++ [s]).drop 0
      rw [List.drop_zero, List.map_cons, List.cons_append, hstackeq]
    · rw [hcons]
      rfl
    · rw [hcons]
      rfl
    · intro v hvv
      rw [hcons] at hvv
      simp only [List.map_cons, List.cons_append, hstackeq] at hvv
      exact Or.inr hvv
    · rw [hcount, if_neg hnvis, hf.count_eq]
      simp

theorem visitedKeys_ensure_mono {g : PGraph} {st : DfsSt} {cur v : Int}
    (h : v ∈ visitedKeys st) : v ∈ visitedKeys (ensureVisited g st cur) := by
  by_cases hc : cur ∈ visitedKeys st
  · rw [ensureVisited_of_mem hc]
    exact h
  · rw [visitedKeys_ensure_not_mem hc]
    exact List.mem_cons_of_mem _ h

/-- Any machine step preserves the simulation invariant. -/
theorem sim_step {g : PGraph} {s : Int} {st st' : DfsSt} (hwfa : WFadj g)
    (hstep : dfsStep g st = some st') (hm : MachInv g s st)
    (hsim : SimFound s st ∨ SimFresh s st) :
    SimFound s st' ∨ SimFresh s st' := by
  cases hs : st.stack with
  | nil => rw [dfsStep_of_nil hs] at hstep; cases hstep
  | cons cur rest =>
      have hs1 : (ensureVisited g st cur).stack = cur :: rest := by
        rw [ensureVisited_stack, hs]
      rcases dfsStep_view (g := g) hs with
        ⟨r, hr, hrc, he⟩ | ⟨nbr, d, tl, hl, ⟨hv, he⟩ | ⟨hv, he⟩⟩
      · rw [hstep] at he
        injection he with he2
        subst he2
        have hout : ({ ensureVisited g st cur with
            stack := rest } : DfsSt).outRev = st.outRev :=
          ensureVisited_outRev g st cur
        have hcons := consOf_same s hout
        have hcount := dfsCount_pop hs hm
        rcases hsim with ⟨hfound, hle⟩ | hf
        · refine Or.inl ⟨by rw [hcons]; exact hfound, ?_⟩
          rw [hcount, hout]
          exact hle
        · refine Or.inr ⟨?_, ?_, ?_, ?_, ?_, ?_, ?_, ?_⟩
          · rw [hcons]; exact hf.not_found
          · rw [hcons]; exact hf.active_eq
          · rw [hcons]; exact hf.heads_nodup
          · obtain ⟨k, hk⟩ := hf.stack_drop
            rw [hs] at hk
            refine ⟨k + 1, ?_⟩
            rw [hcons]
            show rest = _
            rw [← List.tail_drop, ← hk]
            rfl
          · rw [hcons, hout]; exact hf.head_eq
          · rw [hcons, hout]; exact hf.prev_eq
          · intro v hvv
            rw [hcons] at hvv
            rcases hf.covered v hvv with hvk | hvs
            · exact Or.inl (visitedKeys_ensure_mono hvk)
            · rw [hs] at hvs
              rcases List.mem_cons.mp hvs with rfl | hvs'
              · exact Or.inl ensureVisited_visited_mem
              · exact Or.inr hvs'
          · rw [hcount, hout]
            exact hf.count_eq
      · rw [hstep] at he
        injection he with he2
        subst he2
        have hout : ({ ensureVisited g st cur with
            iters := itersSet (ensureVisited g st cur).iters cur tl }
              : DfsSt).outRev = st.outRev :=
          ensureVisited_outRev g st cur
        have hstk : ({ ensureVisited g st cur with
            iters := itersSet (ensureVisited g st cur).iters cur tl }
              : DfsSt).stack = cur :: rest := hs1
        have hcons := consOf_same s hout
        have hcount := @dfsCount_skip g s st cur rest tl hs hm
        rcases hsim with ⟨hfound, hle⟩ | hf
        · refine Or.inl ⟨by rw [hcons]; exact hfound, ?_⟩
          rw [hcount, hout]
          exact hle
        · refine Or.inr ⟨?_, ?_, ?_, ?_, ?_, ?_, ?_, ?_⟩
          · rw [hcons]; exact hf.not_found
          · rw [hcons]; exact hf.active_eq
          · rw [hcons]; exact hf.heads_nodup
          · obtain ⟨k, hk⟩ := hf.stack_drop
            refine ⟨k, ?_⟩
            rw [hcons, hstk, ← hs]
            exact hk
          · rw [hcons, hout]; exact hf.head_eq
          · rw [hcons, hout]; exact hf.prev_eq
          · intro v hvv
            rw [hcons] at hvv
            rcases hf.covered v hvv with hvk | hvs
            · refine Or.inl ?_
              have hkeq : visitedKeys ({ ensureVisited g st cur with
                  iters := itersSet (ensureVisited g st cur).iters cur tl }
                    : DfsSt) = visitedKeys (ensureVisited g st cur) :=
                itersSet_keys _ _ _
              rw [hkeq]
              exact visitedKeys_ensure_mono hvk
            · rw [hstk, ← hs]
              exact Or.inr hvs
          · rw [hcount, hout]
            exact hf.count_eq
      · rw [hstep] at he
        injection he with he2
        subst he2
        rcases hsim with ⟨hfound, hle⟩ | hf
        · have hcons : consOf s (⟨nbr :: cur :: rest,
              itersSet (ensureVisited g st cur).iters cur tl,
              normPair cur nbr :: st.vEdges,
              (cur, nbr) :: st.outRev⟩ : DfsSt)
              = consStep (consOf s st) (cur, nbr) := consOf_cons s rfl
          refine Or.inl ⟨?_, ?_⟩
          · rw [hcons, consStep_found _ hfound]
            exact hfound
          · have hcount := @dfsCount_yield g s st cur rest nbr tl hs hm
              (normPair cur nbr :: st.vEdges) ((cur, nbr) :: st.outRev)
            have hb : dfsCount (⟨nbr :: cur :: rest,
                itersSet (ensureVisited g st cur).iters cur tl,
                normPair cur nbr :: st.vEdges,
                (cur, nbr) :: st.outRev⟩ : DfsSt) ≤ dfsCount st + 1 := by
              rw [hcount]
              split <;> omega
            refine le_trans hb ?_
            show dfsCount st + 1 ≤ ((cur, nbr) :: st.outRev).length
            simp only [List.length_cons]
            omega
        · exact sim_yield hwfa hs hm hl hv hf

/-- Running the machine with fuel at least the measure empties the stack
while maintaining both invariants. -/
theorem dfsGo_inv {g : PGraph} {s : Int} (hwfg : WFgraph g)
    (hsrc : s ∈ nodesList g) :
    ∀ (n : Nat) (st : DfsSt), dfsMeasure g st ≤ n → MachInv g s st →
      (SimFound s st ∨ SimFresh s st) →
      (dfsGo g n st).stack = [] ∧ MachInv g s (dfsGo g n st)
        ∧ (SimFound s (dfsGo g n st) ∨ SimFresh s (dfsGo g n st)) := by
  intro n
  induction n with
  | zero =>
      intro st hmeas hm hsim
      have hlen : st.stack.length = 0 := by
        unfold dfsMeasure at hmeas
        omega
      exact ⟨List.length_eq_zero.mp hlen, hm, hsim⟩
  | succ n ih =>
      intro st hmeas hm hsim
      cases hstep : dfsStep g st with
      | none =>
          have hnil : st.stack = [] := by
            cases hss : st.stack with
            | nil => rfl
            | cons c r =>
                exfalso
                rcases dfsStep_view (g := g) hss with
                  ⟨_, _, _, he⟩ | ⟨_, _, _, _, ⟨_, he⟩ | ⟨_, he⟩⟩ <;>
                  (rw [hstep] at he; cases he)
          have hgo : dfsGo g (n + 1) st = st := by
            simp only [dfsGo, hstep]
          rw [hgo]
          exact ⟨hnil, hm, hsim⟩
      | some st2 =>
          have hgo : dfsGo g (n + 1) st = dfsGo g n st2 := by
            simp only [dfsGo, hstep]
          rw [hgo]
          refine ih st2 ?_ (machInv_step hstep hm)
            (sim_step ((WFgraph_iff_WFadj g).mp hwfg) hstep hm hsim)
          have := dfsMeasure_step hwfg hsrc hm hstep
          omega

/-- The completed `edge_dfs` run: empty stack, machine invariant, and the
simulation invariant. -/
theorem dfsRun_spec {g : PGraph} (hwfg : WFgraph g)
    (hsrc : g.source ∈ nodesList g) :
    (dfsRun g).stack = [] ∧ MachInv g g.source (dfsRun g)
      ∧ (SimFound g.source (dfsRun g) ∨ SimFresh g.source (dfsRun g)) := by
  unfold dfsRun
  apply dfsGo_inv hwfg hsrc
  · unfold dfsMeasure dfsFuel visitedKeys
    dsimp only
    have hfil : (nodesList g).filter (fun v => decide (v ∉ ([] : List Int)))
        = nodesList g := by
      apply List.filter_eq_self.mpr
      intro v _
      simp
    rw [show (List.map Prod.fst ([] : List (Int × List (Int × EdgeData))))
        = ([] : List Int) from rfl, hfil]
    simp only [List.map_nil, List.sum_nil, List.length_singleton]
    omega
  · refine ⟨?_, rfl, List.nodup_nil, ?_, ?_, ?_, ?_, ?_, List.nodup_nil, ?_⟩
    · intro p hp
      cases hp
    · intro q hq
      cases hq
    · intro v hv
      rcases hv with rfl | ⟨q, hq, _⟩
      · exact Or.inr (List.mem_cons_self _ _)
      · cases hq
    · intro v hv
      have hvs : v = g.source := by simpa using hv
      subst hvs
      exact Reach.refl _
    · intro v hv
      cases hv
    · intro p hp
      cases hp
    · intro v hv
      cases hv
  · refine Or.inr ⟨rfl, rfl,
      by show (([] : List (Int × Int)).map Prod.snd ++ [g.source]).Nodup; simp,
      ⟨0, rfl⟩, rfl, rfl, ?_, ?_⟩
    · intro v hv
      exact Or.inr hv
    · simp [dfsCount, unvisitedTopBonus, visitedKeys]

/-- At the end of the run, the visited set is exactly the component of `s`. -/
theorem end_visited_iff {g : PGraph} {s : Int} {st : DfsSt}
    (hnil : st.stack = []) (hm : MachInv g s st) :
    ∀ v, v ∈ visitedKeys st ↔ Reach g s v := by
  intro v
  constructor
  · exact hm.visited_reach v
  · intro hr
    induction hr with
    | refl =>
        rcases hm.cover _ (Or.inl rfl) with h | h
        · exact h
        · rw [hnil] at h
          cases h
    | step hr he ih =>
        obtain ⟨lv, hlv⟩ := itersLookup_isSome ih
        have hmemv := itersLookup_mem hlv
        have hempty : lv = [] := hm.off_stack_done _ hmemv
          (by rw [hnil]; simp)
        obtain ⟨pre, hpre, hcons⟩ := hm.iters_pre _ hmemv
        dsimp only at hpre hcons
        rw [hempty, List.append_nil] at hpre
        obtain ⟨⟨w', dw⟩, hwmem, hweq⟩ := List.mem_map.mp he
        dsimp only at hweq
        have hnorm := hcons (w', dw) (by rw [← hpre]; exact hwmem)
        dsimp only at hnorm
        rw [hm.vEdges_eq] at hnorm
        obtain ⟨q, hq, hqn⟩ := List.mem_map.mp hnorm
        rcases normPair_eq_iff.mp hqn with ⟨h1, h2⟩ | ⟨h1, h2⟩
        · rcases hm.cover w' (Or.inr ⟨q, hq, h2⟩) with hvk | hst
          · rw [← hweq]
            exact hvk
          · rw [hnil] at hst
            cases hst
        · have htail := (hm.out_edges q hq).2
          rw [h1] at htail
          rw [← hweq]
          exact htail

/-- At the end of the run, the traversed edge set is exactly the normalised
edge set of the component of `s`. -/
theorem end_edges_iff {g : PGraph} {s : Int} {st : DfsSt} (hwfg : WFgraph g)
    (hnil : st.stack = []) (hm : MachInv g s st) :
    ∀ p, p ∈ st.vEdges
      ↔ ∃ e ∈ edgesData g, e.1 ∈ reachList g s ∧ normPair e.1 e.2.1 = p := by
  intro p
  constructor
  · intro hp
    rw [hm.vEdges_eq] at hp
    obtain ⟨q, hq, hqn⟩ := List.mem_map.mp hp
    obtain ⟨⟨dq, hdq⟩, hkey⟩ := hm.out_edges q hq
    have hreach1 : Reach g s q.1 := hm.visited_reach q.1 hkey
    have hreach2 : Reach g s q.2 :=
      Reach.step hreach1 (List.mem_map.mpr ⟨(q.2, dq), hdq, rfl⟩)
    rcases edgesData_complete hwfg hdq with hr | hr
    · exact ⟨(q.1, q.2, dq), hr, reachList_iff.mpr hreach1, hqn⟩
    · refine ⟨(q.2, q.1, dq), hr, reachList_iff.mpr hreach2, ?_⟩
      dsimp only
      rw [normPair_comm]
      exact hqn
  · rintro ⟨e, he, hre, hnp⟩
    obtain ⟨u, v, d⟩ := e
    dsimp only at hre hnp
    have hvmem : (v, d) ∈ adjOf g u := edgesData_mem_adjOf hwfg.1 he
    have hu : u ∈ visitedKeys st :=
      (end_visited_iff hnil hm u).mpr (reachList_iff.mp hre)
    obtain ⟨lu, hlu⟩ := itersLookup_isSome hu
    have hmemu := itersLookup_mem hlu
    have hempty : lu = [] := hm.off_stack_done _ hmemu
      (by rw [hnil]; simp)
    obtain ⟨pre, hpre, hcons⟩ := hm.iters_pre _ hmemu
    dsimp only at hpre hcons
    rw [hempty, List.append_nil] at hpre
    have := hcons (v, d) (by rw [← hpre]; exact hvmem)
    dsimp only at this
    rw [← hnp]
    exact this

/-- Vertex and edge counts of the finished run. -/
theorem end_counts {g : PGraph} {st : DfsSt} (hwfg : WFgraph g)
    (hnil : st.stack = []) (hm : MachInv g g.source st) :
    (visitedKeys st).length = compVertCount g g.source
      ∧ st.outRev.length = compEdgeCount g g.source := by
  constructor
  · have hperm : List.Perm (visitedKeys st) (reachList g g.source) := by
      refine (List.perm_ext_iff_of_nodup hm.visited_nodup
        (reachList_spec g g.source).2.1).mpr ?_
      intro v
      rw [end_visited_iff hnil hm v, reachList_iff]
    exact hperm.length_eq
  · have hlen1 : st.outRev.length = st.vEdges.length := by
      rw [hm.vEdges_eq, List.length_map]
    have hperm : List.Perm st.vEdges
        (((edgesData g).filter
            (fun e => decide (e.1 ∈ reachList g g.source))).map
          (fun e => normPair e.1 e.2.1)) := by
      refine (List.perm_ext_iff_of_nodup hm.vEdges_nodup ?_).mpr ?_
      · refine List.Nodup.sublist ?_ (edgesData_norm_nodup hwfg)
        exact List.Sublist.map _ (List.filter_sublist _)
      · intro p
        rw [end_edges_iff hwfg hnil hm p]
        constructor
        · rintro ⟨e, he, hre, hnp⟩
          exact List.mem_map.mpr ⟨e,
            List.mem_filter.mpr ⟨he, by simpa using hre⟩, hnp⟩
        · intro hp
          obtain ⟨e, hef, hnp⟩ := List.mem_map.mp hp
          obtain ⟨he, hre⟩ := List.mem_filter.mp hef
          exact ⟨e, he, by simpa using hre, hnp⟩
    rw [hlen1, hperm.length_eq]
    unfold compEdgeCount
    rw [List.length_map]

/-- **Main correctness of `is_cyclic`**: on a well-formed graph whose
source is a node, it returns exactly whether the connected component of the
source carries at least as many distinct edges as vertices. -/
theorem isCyclicE_correct {g : PGraph} (hwfg : WFgraph g)
    (hsrc : g.source ∈ nodesList g) :
    ∃ b, isCyclicE g = .ok b ∧ (b = true ↔ CompCyclic g g.source) := by
  obtain ⟨hnil, hm, hsim⟩ := dfsRun_spec hwfg hsrc
  obtain ⟨hV, hE⟩ := end_counts hwfg hnil hm
  have hbonus : unvisitedTopBonus (dfsRun g) = 0 := by
    unfold unvisitedTopBonus
    rw [hnil]
  have hcnt : dfsCount (dfsRun g) = compVertCount g g.source := by
    unfold dfsCount
    rw [hbonus, hV]
    omega
  have hrun : isCyclicE g
      = .ok (consOf g.source (dfsRun g)).found := by
    unfold isCyclicE
    rw [if_pos hsrc]
    rfl
  rcases hsim with ⟨hfound, hle⟩ | hf
  · refine ⟨true, by rw [hrun, hfound], ?_⟩
    rw [hcnt] at hle
    rw [hE] at hle
    simp only [true_iff]
    exact hle
  · refine ⟨false, by rw [hrun, hf.not_found], ?_⟩
    have := hf.count_eq
    rw [hcnt, hE] at this
    unfold CompCyclic
    constructor
    · intro h
      cases h
    · intro h
      omega

/-- **C2** (counterexample): `is_cyclic` only starts `edge_dfs` from the
source vertex (`nbunch_iter(self.source_vertex_id)` yields just that one
node), so a cycle in a component not containing the source is *not*
reported: on the graph with isolated source 0 and an enabled triangle on
{1,2,3} (built through the recursive-object constructor path), `is_cyclic`
returns `False` although a component carries a cycle. -/
theorem c2_is_cyclic_counterexample :
    gpInit [0, 1, 2, 3] [10, 11, 12] [(1, 2), (2, 3), (1, 3)]
        [true, true, true] 0 true = .ok gTriangleOff ∧
    isCyclicE gTriangleOff = .ok false ∧
    CyclicSomewhere gTriangleOff := by
  refine ⟨rfl, rfl, 1, by decide, ?_⟩
  show compVertCount _ 1 ≤ compEdgeCount _ 1
  decide

/-- **C2** (amended): on a well-formed graph whose source is a node,
`is_cyclic` succeeds and returns `True` exactly when the connected
component *of the source vertex* contains a cycle (at least as many
distinct stored edges as vertices).  In particular it returns `False` on
every tree, and the undirected back-edge is never mistaken for a 2-cycle;
but cycles in components not containing the source are missed. -/
theorem c2_is_cyclic_source_component (g : PGraph) (hwfg : WFgraph g)
    (hs : g.source ∈ nodesList g) :
    ∃ b, isCyclicE g = .ok b ∧ (b = true ↔ CompCyclic g g.source) :=
  isCyclicE_correct hwfg hs

/-- Witness for the amended C2 theorem at a concrete graph. -/
theorem c2_is_cyclic_source_component_witness :
    WFgraph gTriangleOff ∧
    (∃ b, isCyclicE gTriangleOff = .ok b
      ∧ (b = true ↔ CompCyclic gTriangleOff gTriangleOff.source)) :=
  ⟨by decide,
    c2_is_cyclic_source_component gTriangleOff (by decide) (by decide)⟩

/-- The rebuilt enabled-edge subgraph stores exactly one edge per enabled
stored edge of the original graph (no further pair collapsing happens,
because stored edges already have pairwise-distinct unordered pairs). -/
theorem filter_edge_count {g f : PGraph} (hwfg : WFgraph g)
    (h : filterDisabledEdges g = .ok f) :
    (edgesData f).length = enabledEdgeCount g := by
  obtain ⟨h1, _h2, _h3, _h4⟩ := filterDisabledEdges_ok_inv h
  have hwff : WFgraph f := filter_wf h
  have hperm : List.Perm ((edgesData f).map (fun e => normPair e.1 e.2.1))
      (((edgesData g).filter (fun e => decide (e.2.2.enabled = true))).map
        (fun e => normPair e.1 e.2.1)) := by
    refine (List.perm_ext_iff_of_nodup (edgesData_norm_nodup hwff) ?_).mpr ?_
    · exact List.Nodup.sublist (List.Sublist.map _ (List.filter_sublist _))
        (edgesData_norm_nodup hwfg)
    · intro p
      constructor
      · intro hp
        obtain ⟨e, he, hne⟩ := List.mem_map.mp hp
        obtain ⟨u, v, d⟩ := e
        dsimp only at hne
        have hHP : HasPair f u v := ⟨d, edgesData_mem_adjOf hwff.1 he⟩
        rw [h1] at hHP
        rcases (hasPair_buildGraph _ _ _ _ _ (by simp) (by simp) u v).mp hHP
            with hq | hq
        · obtain ⟨e2, he2, hpe⟩ := List.mem_map.mp hq
          refine List.mem_map.mpr ⟨e2, he2, ?_⟩
          have hu : e2.1 = u := congrArg Prod.fst hpe
          have hv : e2.2.1 = v := congrArg Prod.snd hpe
          rw [hu, hv]
          exact hne
        · obtain ⟨e2, he2, hpe⟩ := List.mem_map.mp hq
          refine List.mem_map.mpr ⟨e2, he2, ?_⟩
          have hu : e2.1 = v := congrArg Prod.fst hpe
          have hv : e2.2.1 = u := congrArg Prod.snd hpe
          rw [hu, hv, normPair_comm]
          exact hne
      · intro hp
        obtain ⟨e2, he2, hne⟩ := List.mem_map.mp hp
        have hHP : HasPair f e2.1 e2.2.1 := by
          rw [h1]
          refine (hasPair_buildGraph _ _ _ _ _ (by simp) (by simp) _ _).mpr
            (Or.inl ?_)
          exact List.mem_map.mpr ⟨e2, he2, rfl⟩
        obtain ⟨d, hd⟩ := hHP
        rcases edgesData_complete hwff hd with hr | hr
        · exact List.mem_map.mpr ⟨_, hr, hne⟩
        · refine List.mem_map.mpr ⟨_, hr, ?_⟩
          dsimp only
          rw [normPair_comm]
          exact hne
  have hlen := hperm.length_eq
  rw [List.length_map, List.length_map] at hlen
  exact hlen

/-- On a connected well-formed graph, the source's component covers all
nodes and all stored edges. -/
theorem connected_counts {f : PGraph} (hwff : WFgraph f)
    (hc : MathConnected f) (hsrc : f.source ∈ nodesList f) :
    compVertCount f f.source = (nodesList f).length
      ∧ compEdgeCount f f.source = (edgesData f).length := by
  constructor
  · refine List.Perm.length_eq ?_
    refine (List.perm_ext_iff_of_nodup (reachList_spec f f.source).2.1
      hwff.1).mpr ?_
    intro v
    rw [reachList_iff]
    exact ⟨fun hr => Reach_mem_nodes hwff hsrc hr,
      fun hv => hc f.source hsrc v hv⟩
  · unfold compEdgeCount
    rw [List.filter_eq_self.mpr ?_]
    intro e he
    simp only [decide_eq_true_eq]
    rw [reachList_iff]
    exact hc f.source hsrc e.1 (edgesData_tail_node he)

/-- Source-component acyclicity spreads to all components when the graph
is connected. -/
theorem acyclicAll_of_connected {f : PGraph} (hc : MathConnected f)
    (hsrc : f.source ∈ nodesList f)
    (hac : compEdgeCount f f.source < compVertCount f f.source) :
    AcyclicAll f := by
  intro v hv
  have hmemiff : ∀ w, w ∈ reachList f v ↔ w ∈ reachList f f.source := by
    intro w
    rw [reachList_iff, reachList_iff]
    exact ⟨fun hr => Reach_trans (hc f.source hsrc v hv) hr,
      fun hr => Reach_trans (hc v hv f.source hsrc) hr⟩
  have hVeq : compVertCount f v = compVertCount f f.source :=
    List.Perm.length_eq ((List.perm_ext_iff_of_nodup
      (reachList_spec f v).2.1 (reachList_spec f f.source).2.1).mpr hmemiff)
  have hEeq : compEdgeCount f v = compEdgeCount f f.source := by
    unfold compEdgeCount
    congr 1
    apply List.filter_congr
    intro e _
    exact decide_eq_decide.mpr (hmemiff e.1)
  rw [hVeq, hEeq]
  exact hac

/-- When `is_cyclic` answers `False`, the source's component has exactly
one edge fewer than vertices (the traversal is a tree). -/
theorem isCyclicE_false_count {g : PGraph} (hwfg : WFgraph g)
    (hsrc : g.source ∈ nodesList g) (h : isCyclicE g = .ok false) :
    compVertCount g g.source = compEdgeCount g g.source + 1 := by
  obtain ⟨hnil, hm, hsim⟩ := dfsRun_spec hwfg hsrc
  obtain ⟨hV, hE⟩ := end_counts hwfg hnil hm
  have hbonus : unvisitedTopBonus (dfsRun g) = 0 := by
    unfold unvisitedTopBonus
    rw [hnil]
  have hrun : isCyclicE g = .ok (consOf g.source (dfsRun g)).found := by
    unfold isCyclicE
    rw [if_pos hsrc]
    rfl
  rw [hrun] at h
  injection h with hfb
  rcases hsim with ⟨hfound, _⟩ | hf
  · rw [hfound] at hfb
    cases hfb
  · have hcq := hf.count_eq
    unfold dfsCount at hcq
    rw [hbonus, hV, hE] at hcq
    omega

/-- **C1** (counterexample): the pair (0,1) supplied twice collapses into a
single stored edge, so construction succeeds while the count of supplied
enabled `edge_ids` is 2, not `|vertices| - 1 = 1`.  The spanning-tree edge
count holds only for *stored* (collapsed) edges. -/
theorem c1_spanning_tree_counterexample :
    ∃ g1, gpInit [0, 1] [1, 2] [(0, 1), (0, 1)] [true, true] 0 false
        = .ok g1
      ∧ ([true, true].filter (fun b => b)).length
          ≠ ([0, 1] : List Int).length - 1 :=
  ⟨_, rfl, by decide⟩

/-- **C1** (amended): every input accepted by the non-recursive constructor
yields a graph whose enabled-edge subgraph is connected and acyclic and
stores exactly `|vertices| - 1` enabled edges — with the edge count taken
over the *stored* edges (duplicate unordered pairs having been collapsed by
`nx.Graph.add_edge`), not over the supplied flags. -/
theorem c1_enabled_subgraph_spanning_tree (vs es : List Int)
    (pairs : List (Int × Int)) (en : List Bool) (s : Int) (g : PGraph)
    (h : gpInit vs es pairs en s false = .ok g) :
    ∃ f, filterDisabledEdges g = .ok f ∧ EnConnected g ∧ AcyclicAll f ∧
      enabledEdgeCount g = (nodesList g).length - 1 := by
  unfold gpInit at h
  cases hin : initCore vs es pairs en s with
  | error e0 =>
      simp only [hin] at h
      cases h
  | ok g0 =>
      simp only [hin, Bool.false_eq_true, if_false] at h
      cases hfil : filterDisabledEdges g0 with
      | error e1 =>
          simp only [hfil] at h
          cases h
      | ok f =>
          simp only [hfil] at h
          cases hconn : isConnectedE f with
          | error e2 =>
              simp only [hconn] at h
              cases h
          | ok c =>
              simp only [hconn] at h
              cases c with
              | false =>
                  simp only [Bool.not_false, if_true] at h
                  cases h
              | true =>
                  simp only [Bool.not_true, Bool.false_eq_true, if_false] at h
                  cases hcyc : isCyclicE f with
                  | error e3 =>
                      simp only [hcyc] at h
                      cases h
                  | ok cy =>
                      simp only [hcyc] at h
                      cases cy with
                      | true =>
                          simp only [if_true] at h
                          cases h
                      | false =>
                          simp only [Bool.false_eq_true, if_false] at h
                          injection h with hg
                          subst hg
                          obtain ⟨hbuild, hvnd, _, _, hends, _, hsin⟩ :=
                            initCore_ok_inv hin
                          have hwfg0 : WFgraph g0 := by
                            rw [hbuild, WFgraph_iff_WFadj]
                            exact WFadj_buildGraph _ _ _ _ _
                          obtain ⟨b, hb, hbiff⟩ :=
                            isConnectedE_iff_enConnected hwfg0 hfil
                          rw [hconn] at hb
                          injection hb with hbe
                          have hEn : EnConnected g0 := hbiff.mp hbe.symm
                          have hMf : MathConnected f :=
                            (mathConnected_filter_iff hwfg0 hfil).mpr hEn
                          have hwff := filter_wf hfil
                          have hsrcf : f.source ∈ nodesList f := by
                            rw [filter_source_eq hfil, filter_nodes_eq hfil]
                            exact (filterDisabledEdges_ok_inv hfil).2.2.2
                          have hcount := isCyclicE_false_count hwff hsrcf hcyc
                          obtain ⟨hcV, hcE⟩ := connected_counts hwff hMf hsrcf
                          have hAc : AcyclicAll f :=
                            acyclicAll_of_connected hMf hsrcf (by omega)
                          refine ⟨f, hfil, hEn, hAc, ?_⟩
                          have hec := filter_edge_count hwfg0 hfil
                          have hlen : (nodesList f).length
                              = (nodesList g0).length := by
                            rw [filter_nodes_eq hfil]
                          omega

/-- Witness for the amended C1 theorem on the §8 scenario input. -/
theorem c1_enabled_subgraph_spanning_tree_witness :
    ∃ f, filterDisabledEdges gC6 = .ok f ∧ EnConnected gC6 ∧ AcyclicAll f ∧
      enabledEdgeCount gC6 = (nodesList gC6).length - 1 :=
  c1_enabled_subgraph_spanning_tree [0, 2, 4, 6, 10] [1, 3, 5, 7, 8, 9]
    [(0, 2), (0, 4), (0, 6), (2, 4), (4, 6), (2, 10)]
    [true, true, true, false, false, true] 0 gC6 rfl
